import Mathlib

/-!
Shallow embedding of the SimpleFS storage engine (src/fs.c, src/disk.c).

Blocks are modelled at the byte level: a block is a total function from byte
offsets to byte values (only offsets below `BLOCK_SIZE` are meaningful; the
disk stores blocks truncated to that range, with 0 beyond it, matching the
zero-initialised buffers in the source).  The C union `Block` reinterprets
the same bytes as a superblock, an inode array, a pointer array, or raw
data; here those reinterpretations are explicit little-endian u32 accessors
at the byte offsets of the corresponding C structs.

The record layouts (superblock fields at offsets 0/4/8/12, a 32-byte inode
record with `valid`, `size`, five direct pointers and one indirect pointer,
and the layout constants below) are modelled from the spec: the header
`sfs/fs.h` is not part of the provided sources, but spec sections 3 and 6
fix the field lists, `D = 5`, `BLOCK_SIZE = 4096`, and pointer size 4.

Machine arithmetic: `size_t` values are natural numbers reduced mod 2^64
exactly where the C code can wrap (the read-length clamp), and u32 stores
truncate mod 2^32 (performed byte-wise by `writeU32`).

Uninitialised stack buffers whose `disk_read` result the source ignores
are modelled as zero-filled, matching the zero state they hold in every
execution the theorems below quantify over (all those reads succeed there).
-/

namespace SimpleFS

def BLOCK_SIZE : Nat := 4096

def POINTERS_PER_INODE : Nat := 5

def POINTERS_PER_BLOCK : Nat := 1024

def INODES_PER_BLOCK : Nat := 128

/-- Modelled from the spec: the magic sentinel value from the missing header
`sfs/fs.h`; only its use as a fixed sentinel matters to the claims. -/
def MAGIC_NUMBER : Nat := 4042322960

/-- Modulus of a 32-bit unsigned integer. -/
def U32 : Nat := 4294967296

/-- Modulus of a 64-bit `size_t`. -/
def U64 : Nat := 18446744073709551616

/-- A block buffer: byte offset to byte value. -/
def BlockFn : Type := Nat → Nat

/-- The zero-initialised buffer `{{0}}`. -/
def zeroBlock : BlockFn := fun _ => 0

/-- Store one byte (C `char` truncation). -/
def writeByte (f : BlockFn) (o v : Nat) : BlockFn :=
  fun i => if i = o then v % 256 else f i

/-- Little-endian u32 load at byte offset `o`. -/
def readU32 (f : BlockFn) (o : Nat) : Nat :=
  f o + 256 * f (o + 1) + 65536 * f (o + 2) + 16777216 * f (o + 3)

/-- Little-endian u32 store at byte offset `o` (truncates mod 2^32). -/
def writeU32 (f : BlockFn) (o v : Nat) : BlockFn :=
  writeByte (writeByte (writeByte (writeByte f o v) (o + 1) (v / 256))
    (o + 2) (v / 65536)) (o + 3) (v / 16777216)

/-- Field `magic_number` of union member `super`. -/
def superMagic (f : BlockFn) : Nat := readU32 f 0

/-- Field `blocks` of union member `super`. -/
def superBlocks (f : BlockFn) : Nat := readU32 f 4

/-- Field `inode_blocks` of union member `super`. -/
def superInodeBlocks (f : BlockFn) : Nat := readU32 f 8

/-- Field `inodes` of union member `super`. -/
def superInodes (f : BlockFn) : Nat := readU32 f 12

/-- Field `inodes[s].valid` of the inode-array view of a block. -/
def inodeValid (f : BlockFn) (s : Nat) : Nat := readU32 f (32 * s)

/-- Field `inodes[s].size`. -/
def inodeSize (f : BlockFn) (s : Nat) : Nat := readU32 f (32 * s + 4)

/-- Field `inodes[s].direct[d]`. -/
def inodeDirect (f : BlockFn) (s d : Nat) : Nat := readU32 f (32 * s + 8 + 4 * d)

/-- Field `inodes[s].indirect`. -/
def inodeIndirect (f : BlockFn) (s : Nat) : Nat := readU32 f (32 * s + 28)

/-- Assignment to `inodes[s].valid`. -/
def setInodeValid (f : BlockFn) (s v : Nat) : BlockFn := writeU32 f (32 * s) v

/-- Assignment to `inodes[s].size`. -/
def setInodeSize (f : BlockFn) (s v : Nat) : BlockFn := writeU32 f (32 * s + 4) v

/-- Assignment to `inodes[s].direct[d]`. -/
def setInodeDirect (f : BlockFn) (s d v : Nat) : BlockFn :=
  writeU32 f (32 * s + 8 + 4 * d) v

/-- Assignment to `inodes[s].indirect`. -/
def setInodeIndirect (f : BlockFn) (s v : Nat) : BlockFn :=
  writeU32 f (32 * s + 28) v

/-- Entry `pointers[p]` of the pointer-array view of a block. -/
def blockPtr (f : BlockFn) (p : Nat) : Nat := readU32 f (4 * p)

/-- Assignment to `pointers[p]`. -/
def setBlockPtr (f : BlockFn) (p v : Nat) : BlockFn := writeU32 f (4 * p) v

/-- Restrict a buffer to the `BLOCK_SIZE` bytes a device block actually
persists; bytes past the end of the C array do not reach the device. -/
def truncBlock (f : BlockFn) : BlockFn :=
  fun o => if o < BLOCK_SIZE then f o else 0

/-- The disk emulator state (disk.c).  `ident` models the `Disk *` pointer
identity used by `fs_mount`'s `fs->disk == disk` comparison: distinct live
`Disk` objects have distinct addresses. -/
structure Disk where
  ident : Nat
  blocks : Nat
  data : Nat → BlockFn

/-- Function `disk_read`: succeeds exactly when the sanity check passes
(block index below `blocks`; buffers are always non-null here). -/
def Disk.readBlock (d : Disk) (b : Nat) : Option BlockFn :=
  if b < d.blocks then some (d.data b) else none

/-- Function `disk_write`: same sanity check; stores the first
`BLOCK_SIZE` bytes of the buffer. -/
def Disk.writeBlock (d : Disk) (b : Nat) (f : BlockFn) : Option Disk :=
  if b < d.blocks then
    some { d with data := fun b' => if b' = b then truncBlock f else d.data b' }
  else none

/-- The live superblock copy `fs->meta_data`. -/
structure SuperMeta where
  magic_number : Nat
  blocks : Nat
  inode_blocks : Nat
  inodes : Nat
deriving DecidableEq

/-- The engine state `FileSystem`: `disk` is `none` when the `Disk *`
member is null, `free_blocks` is `none` when the bitmap pointer is null. -/
structure FileSystem where
  disk : Option Disk
  meta_data : SuperMeta
  free_blocks : Option (Nat → Bool)

/-- A `disk_read` through a possibly-null `fs->disk`. -/
def oread (od : Option Disk) (b : Nat) : Option BlockFn :=
  od.bind (fun d => d.readBlock b)

/-- A `disk_write` through a possibly-null `fs->disk` whose result the
source checks: `none` signals `DISK_FAILURE`. -/
def owriteChk (od : Option Disk) (b : Nat) (f : BlockFn) : Option Disk :=
  od.bind (fun d => d.writeBlock b f)

/-- A `disk_write` whose result the source ignores: a failed write leaves
the disk unchanged. -/
def owriteD (od : Option Disk) (b : Nat) (f : BlockFn) : Option Disk :=
  match od with
  | none => none
  | some d =>
    match d.writeBlock b f with
    | none => some d
    | some d' => some d'

/-- Pointwise update of the free-block bitmap array. -/
def bmSet (bm : Nat → Bool) (i : Nat) (v : Bool) : Nat → Bool :=
  fun j => if j = i then v else bm j

/-- Loop of `fs_format` zero-filling blocks `1 .. blocks-1`.  The superblock
record built by the source is a local that is never written to the device,
so formatting only performs these zero writes. -/
def formatZeroGo : Nat → Nat → Disk → Bool × Disk
  | 0, _, d => (true, d)
  | fuel + 1, i, d =>
    if i < d.blocks then
      match d.writeBlock i zeroBlock with
      | none => (false, d)
      | some d' => formatZeroGo fuel (i + 1) d'
    else (true, d)

/-- Function `fs_format`: refuses a mounted engine or a live bitmap, then
zero-fills every block except block 0; block 0 itself is left untouched
(the locally built superblock record is never persisted in the source). -/
def fs_format (fs : FileSystem) (disk : Disk) : Bool × Disk :=
  if fs.disk.isSome then (false, disk)
  else if fs.free_blocks.isSome then (false, disk)
  else formatZeroGo disk.blocks 1 disk

/-- Marking loop over the direct pointers of one valid inode during the
mount-time bitmap rebuild. -/
def markDirects (blk : BlockFn) (s : Nat) : Nat → Nat → (Nat → Bool) → Nat → Bool
  | 0, _, bm => bm
  | fuel + 1, d, bm =>
    if inodeDirect blk s d ≠ 0 then
      markDirects blk s fuel (d + 1) (bmSet bm (inodeDirect blk s d) false)
    else markDirects blk s fuel (d + 1) bm

/-- Marking loop over the entries of an indirect pointer block during the
mount-time bitmap rebuild. -/
def markIndEntries (ind : BlockFn) : Nat → Nat → (Nat → Bool) → Nat → Bool
  | 0, _, bm => bm
  | fuel + 1, p, bm =>
    if blockPtr ind p ≠ 0 then
      markIndEntries ind fuel (p + 1) (bmSet bm (blockPtr ind p) false)
    else markIndEntries ind fuel (p + 1) bm

/-- Bitmap-rebuild handling of one inode slot.  A `false` first component
models the source's early `return` when reading the indirect block fails,
which abandons the whole rebuild keeping the marks made so far. -/
def rebuildSlot (od : Option Disk) (blk : BlockFn) (s : Nat) (bm : Nat → Bool) :
    Bool × (Nat → Bool) :=
  if inodeValid blk s ≠ 0 then
    let bm1 := markDirects blk s POINTERS_PER_INODE 0 bm
    if inodeIndirect blk s ≠ 0 then
      let bm2 := bmSet bm1 (inodeIndirect blk s) false
      match oread od (inodeIndirect blk s) with
      | none => (false, bm2)
      | some ind => (true, markIndEntries ind POINTERS_PER_BLOCK 0 bm2)
    else (true, bm1)
  else (true, bm)

/-- Bitmap-rebuild loop over the inode slots of one inode-table block. -/
def rebuildSlots (od : Option Disk) (blk : BlockFn) :
    Nat → Nat → (Nat → Bool) → Bool × (Nat → Bool)
  | 0, _, bm => (true, bm)
  | fuel + 1, s, bm =>
    match rebuildSlot od blk s bm with
    | (false, bm') => (false, bm')
    | (true, bm') => rebuildSlots od blk fuel (s + 1) bm'

/-- Bitmap-rebuild loop over the inode-table blocks `1 .. inode_blocks`.
Each block is marked unavailable after its slots are processed; a failed
read of an inode-table block abandons the rebuild early. -/
def rebuildGo (od : Option Disk) : Nat → Nat → (Nat → Bool) → Nat → Bool
  | 0, _, bm => bm
  | fuel + 1, bn, bm =>
    match oread od bn with
    | none => bm
    | some blk =>
      match rebuildSlots od blk INODES_PER_BLOCK 0 bm with
      | (false, bm') => bm'
      | (true, bm') => rebuildGo od fuel (bn + 1) (bmSet bm' bn false)

/-- Function `fs_initialize_free_block_bitmap`: allocate a `blocks`-long
array, mark everything available except block 0, then scan the inode table
marking reachable blocks and the inode-table blocks unavailable. -/
def fs_initialize_free_block_bitmap (od : Option Disk) (meta : SuperMeta) :
    Nat → Bool :=
  rebuildGo od meta.inode_blocks 1
    (bmSet (fun i => decide (i < meta.blocks)) 0 false)

/-- The `fs->disk == disk` pointer comparison in `fs_mount`. -/
def sameDiskRef (od : Option Disk) (disk : Disk) : Bool :=
  match od with
  | some d0 => decide (d0.ident = disk.ident)
  | none => false

/-- Function `fs_mount`: rejects only the very disk already mounted, reads
and validates block 0, then installs the metadata, the disk reference and
the rebuilt free-block bitmap.  Every failing branch returns the engine
unchanged. -/
def fs_mount (fs : FileSystem) (disk : Disk) : Bool × FileSystem :=
  if sameDiskRef fs.disk disk then (false, fs)
  else
    match disk.readBlock 0 with
    | none => (false, fs)
    | some sb =>
      if superMagic sb ≠ MAGIC_NUMBER then (false, fs)
      else if superInodes sb < superInodeBlocks sb * INODES_PER_BLOCK % U32 then
        (false, fs)
      else if superBlocks sb < 3 then (false, fs)
      else if superInodeBlocks sb < superBlocks sb / 10 then (false, fs)
      else
        let meta : SuperMeta :=
          ⟨superMagic sb, superBlocks sb, superInodeBlocks sb, superInodes sb⟩
        (true, { disk := some disk, meta_data := meta,
                 free_blocks := some (fs_initialize_free_block_bitmap (some disk) meta) })

/-- Function `fs_unmount`: clear the disk reference and drop the bitmap. -/
def fs_unmount (fs : FileSystem) : FileSystem :=
  { fs with disk := none, free_blocks := none }

/-- Inner loop of `fs_create` over the slots of one inode-table block,
carrying the running dense inode counter; returns the counter value and
slot index of the first invalid slot, if any. -/
def createInBlock (blk : BlockFn) : Nat → Nat → Nat → Option (Nat × Nat)
  | 0, _, _ => none
  | fuel + 1, s, count =>
    if inodeValid blk s = 0 then some (count, s)
    else createInBlock blk fuel (s + 1) (count + 1)

/-- Outer loop of `fs_create` over inode-table blocks `1 .. inode_blocks`. -/
def createGo (od : Option Disk) : Nat → Nat → Nat → Int × Option Disk
  | 0, _, _ => (-1, od)
  | fuel + 1, bn, count =>
    let blk := (oread od bn).getD zeroBlock
    match createInBlock blk INODES_PER_BLOCK 0 count with
    | some (c, s) => (Int.ofNat c, owriteD od bn (setInodeValid blk s 1))
    | none => createGo od fuel (bn + 1) (count + INODES_PER_BLOCK)

/-- Function `fs_create`: scan for the first invalid slot, mark it valid,
persist that inode-table block, and return the dense inode number; `-1`
when the whole table is valid. -/
def fs_create (fs : FileSystem) : Int × FileSystem :=
  let r := createGo fs.disk fs.meta_data.inode_blocks 1 0
  (r.1, { fs with disk := r.2 })

/-- Function `fs_stat`: the stored size of a valid inode, `-1` otherwise. -/
def fs_stat (fs : FileSystem) (inode_number : Nat) : Int :=
  let bnum := inode_number / INODES_PER_BLOCK + 1
  let s := inode_number % INODES_PER_BLOCK
  let blk := (oread fs.disk bnum).getD zeroBlock
  if inodeValid blk s ≠ 0 then Int.ofNat (inodeSize blk s) else -1

/-- Release loop of `fs_remove` over the direct pointers: mark each
non-zero pointer available and clear it. -/
def removeDirects (s : Nat) : Nat → Nat → BlockFn → (Nat → Bool) → BlockFn × (Nat → Bool)
  | 0, _, blk, bm => (blk, bm)
  | fuel + 1, d, blk, bm =>
    if inodeDirect blk s d ≠ 0 then
      removeDirects s fuel (d + 1) (setInodeDirect blk s d 0)
        (bmSet bm (inodeDirect blk s d) true)
    else removeDirects s fuel (d + 1) blk bm

/-- Release loop of `fs_remove` over the entries of the indirect block. -/
def removeIndEntries : Nat → Nat → BlockFn → (Nat → Bool) → BlockFn × (Nat → Bool)
  | 0, _, ind, bm => (ind, bm)
  | fuel + 1, p, ind, bm =>
    if blockPtr ind p ≠ 0 then
      removeIndEntries fuel (p + 1) (setBlockPtr ind p 0) (bmSet bm (blockPtr ind p) true)
    else removeIndEntries fuel (p + 1) ind bm

/-- Function `fs_remove`: fail on an invalid slot; otherwise release the
direct blocks, the indirect entries and the indirect block itself into the
bitmap, zero the released pointers, write back the zeroed indirect block,
clear `size` and `valid`, and persist the inode-table block. -/
def fs_remove (fs : FileSystem) (inode_number : Nat) : Bool × FileSystem :=
  let bnum := inode_number / INODES_PER_BLOCK + 1
  let s := inode_number % INODES_PER_BLOCK
  let blk := (oread fs.disk bnum).getD zeroBlock
  if inodeValid blk s = 0 then (false, fs)
  else
    let bm0 := fs.free_blocks.getD (fun _ => false)
    let dres := removeDirects s POINTERS_PER_INODE 0 blk bm0
    let ires : BlockFn × (Nat → Bool) × Option Disk :=
      if inodeIndirect dres.1 s ≠ 0 then
        let ind := inodeIndirect dres.1 s
        let indblk := (oread fs.disk ind).getD zeroBlock
        let eres := removeIndEntries POINTERS_PER_BLOCK 0 indblk dres.2
        (setInodeIndirect dres.1 s 0, bmSet eres.2 ind true,
          owriteD fs.disk ind eres.1)
      else (dres.1, dres.2, fs.disk)
    let blk3 := setInodeValid (setInodeSize ires.1 s 0) s 0
    let bmF := ires.2.1
    let odF := ires.2.2
    (true, { fs with
              disk := owriteD odF bnum blk3
              free_blocks := fs.free_blocks.map (fun _ => bmF) })

/-- Loop of `find_free_block`: linear scan below `meta_data.blocks` for the
first available index, which is claimed immediately; 0 when none exists. -/
def findFreeGo (mblocks : Nat) : Nat → Nat → (Nat → Bool) → Nat × (Nat → Bool)
  | 0, _, bm => (0, bm)
  | fuel + 1, i, bm =>
    if i < mblocks then
      if bm i then (i, bmSet bm i false) else findFreeGo mblocks fuel (i + 1) bm
    else (0, bm)

/-- Function `find_free_block`. -/
def find_free_block (mblocks : Nat) (bm : Nat → Bool) : Nat × (Nat → Bool) :=
  findFreeGo mblocks mblocks 0 bm

/-- The `size_t` length clamp at the top of `fs_read`: when
`size < length + offset` the length becomes `size - offset`, computed in
wrapping 64-bit arithmetic (`length` and `offset` already reduced mod
2^64). -/
def effLen (size len off : Nat) : Nat :=
  if size < (len + off) % U64 then (size + U64 - off) % U64 else len

/-- The first `ncopy` of both loops: a short range copies all of it, a
long one copies up to the end of the first block. -/
def firstNcopy (len doff : Nat) : Nat :=
  if len < BLOCK_SIZE then len else BLOCK_SIZE - doff

/-- The `ncopy` recomputation at the bottom of both loops. -/
def nextNcopy (len ndone : Nat) : Nat :=
  if len - ndone > BLOCK_SIZE then BLOCK_SIZE else len - ndone

/-- The `memcpy` into a block buffer at byte offset `dstOff` of `n` bytes
taken from the caller's buffer starting at `srcOff` (chars truncate). -/
def memcpyIn (dst : BlockFn) (dstOff : Nat) (src : Nat → Nat) (srcOff n : Nat) :
    BlockFn :=
  fun i =>
    if dstOff ≤ i ∧ i < dstOff + n then src (srcOff + (i - dstOff)) % 256 else dst i

/-- Loop of `fs_read`.  The fuel starts at `len + 1`, which the entry
invariant `ncopy ≥ 1` (whenever the loop continues) makes inexhaustible;
the fuel-0 branch is dead code.  Each iteration resolves the current
logical block through the direct array, or through the indirect block
re-read from disk, copies `ncopy` bytes from byte `doff` into the output,
and recomputes `ncopy`; a failing device read aborts with `-1`. -/
def readGo (od : Option Disk) (blk : BlockFn) (s len : Nat) :
    Nat → Nat → Nat → Nat → Nat → List Nat → Int × List Nat
  | 0, _, _, _, _, acc => (-1, acc)
  | fuel + 1, nread, dblock, doff, ncopy, acc =>
    if nread < len then
      let odb : Option BlockFn :=
        if dblock < POINTERS_PER_INODE then
          oread od (inodeDirect blk s dblock)
        else
          match oread od (inodeIndirect blk s) with
          | none => none
          | some ind => oread od (blockPtr ind (dblock - POINTERS_PER_INODE))
      match odb with
      | none => (-1, acc)
      | some db =>
        let acc' := acc ++ (List.range ncopy).map (fun j => db (doff + j))
        let nread' := nread + ncopy
        let ncopy' := nextNcopy len nread'
        readGo od blk s len fuel nread' (dblock + 1) 0 ncopy' acc'
    else (Int.ofNat nread, acc)

/-- Function `fs_read`: loads the inode, clamps the length in `size_t`
arithmetic (which wraps below zero when `offset` exceeds the stored size),
then walks the logical blocks copying into the caller's buffer, returned
here as the list of bytes copied alongside the byte count or `-1`. -/
def fs_read (fs : FileSystem) (inode_number length offset : Nat) : Int × List Nat :=
  let length := length % U64
  let offset := offset % U64
  let bnum := inode_number / INODES_PER_BLOCK + 1
  let s := inode_number % INODES_PER_BLOCK
  let blk := (oread fs.disk bnum).getD zeroBlock
  let size := inodeSize blk s
  let length := effLen size length offset
  let dblock := offset / BLOCK_SIZE
  let doff := offset % BLOCK_SIZE
  let ncopy := firstNcopy length doff
  readGo fs.disk blk s length (length + 1) 0 dblock doff ncopy []

/-- Loop of `fs_write`, mirroring the source iteration for iteration.  Per
iteration: resolve or allocate the target block (direct pointer, or the
indirect pointer and then its entry, persisting a freshly extended indirect
block immediately), read-modify-write the data block, then advance the
running counters, update the in-memory inode size to `offset + nwrite`
when that exceeds it, and persist the inode-table block (result ignored).
The fuel starts at `len + 1` and is inexhaustible for the same reason as
in `readGo`. -/
def writeGo (mblocks : Nat) (dat : Nat → Nat) (len off bnum s : Nat) :
    Nat → Nat → Nat → Nat → Nat → BlockFn → Option Disk → (Nat → Bool) →
    Int × Option Disk × (Nat → Bool)
  | 0, _, _, _, _, _, od, bm => (-1, od, bm)
  | fuel + 1, nwrite, dblock, doff, ncopy, blk, od, bm =>
    if nwrite < len then
      if dblock < POINTERS_PER_INODE then
        match (if inodeDirect blk s dblock = 0 then
                 let fr := find_free_block mblocks bm
                 if fr.1 = 0 then (none, fr.2)
                 else (some (setInodeDirect blk s dblock fr.1), fr.2)
               else (some blk, bm) : Option BlockFn × (Nat → Bool)) with
        | (none, bmF) => (-1, od, bmF)
        | (some blk1, bm1) =>
          match oread od (inodeDirect blk1 s dblock) with
          | none => (-1, od, bm1)
          | some db =>
            let db1 := memcpyIn db doff dat nwrite ncopy
            match owriteChk od (inodeDirect blk1 s dblock) db1 with
            | none => (-1, od, bm1)
            | some d1 =>
              let nwrite' := nwrite + ncopy
              let ncopy' := nextNcopy len nwrite'
              let blk2 :=
                if inodeSize blk1 s < (off + nwrite') % U64 then
                  setInodeSize blk1 s ((off + nwrite') % U64)
                else blk1
              let od2 := owriteD (some d1) bnum blk2
              writeGo mblocks dat len off bnum s fuel nwrite' (dblock + 1) 0 ncopy'
                blk2 od2 bm1
      else
        let ioff := dblock - POINTERS_PER_INODE
        match (if inodeIndirect blk s = 0 then
                 let fr := find_free_block mblocks bm
                 if fr.1 = 0 then (none, fr.2)
                 else (some (setInodeIndirect blk s fr.1, zeroBlock), fr.2)
               else
                 match oread od (inodeIndirect blk s) with
                 | none => (none, bm)
                 | some ind => (some (blk, ind), bm) :
               Option (BlockFn × BlockFn) × (Nat → Bool)) with
        | (none, bmF) => (-1, od, bmF)
        | (some ir, bm1) =>
          match (if blockPtr ir.2 ioff = 0 then
                   let fr := find_free_block mblocks bm1
                   if fr.1 = 0 then (none, fr.2)
                   else (some (setBlockPtr ir.2 ioff fr.1, true), fr.2)
                 else (some (ir.2, false), bm1) :
                 Option (BlockFn × Bool) × (Nat → Bool)) with
          | (none, bmF) => (-1, od, bmF)
          | (some pr, bm2) =>
            match (if pr.2 then
                     match owriteChk od (inodeIndirect ir.1 s) pr.1 with
                     | none => none
                     | some dW => some (some dW, zeroBlock)
                   else
                     match oread od (blockPtr pr.1 ioff) with
                     | none => none
                     | some db => some (od, db) :
                   Option (Option Disk × BlockFn)) with
            | none => (-1, od, bm2)
            | some ar =>
              let db1 := memcpyIn ar.2 doff dat nwrite ncopy
              match owriteChk ar.1 (blockPtr pr.1 ioff) db1 with
              | none => (-1, ar.1, bm2)
              | some d1 =>
                let nwrite' := nwrite + ncopy
                let ncopy' := nextNcopy len nwrite'
                let blk2 :=
                  if inodeSize ir.1 s < (off + nwrite') % U64 then
                    setInodeSize ir.1 s ((off + nwrite') % U64)
                  else ir.1
                let od2 := owriteD (some d1) bnum blk2
                writeGo mblocks dat len off bnum s fuel nwrite' (dblock + 1) 0 ncopy'
                  blk2 od2 bm2
    else (Int.ofNat nwrite, od, bm)

/-- Function `fs_write`: loads the inode, fails if it is invalid, then runs
the block-walk loop, threading the device state and the free-block bitmap
through each iteration. -/
def fs_write (fs : FileSystem) (inode_number : Nat) (dat : Nat → Nat)
    (length offset : Nat) : Int × FileSystem :=
  let length := length % U64
  let offset := offset % U64
  let bnum := inode_number / INODES_PER_BLOCK + 1
  let s := inode_number % INODES_PER_BLOCK
  let blk := (oread fs.disk bnum).getD zeroBlock
  let dblock := offset / BLOCK_SIZE
  let doff := offset % BLOCK_SIZE
  let ncopy := firstNcopy length doff
  if inodeValid blk s = 0 then (-1, fs)
  else
    let r := writeGo fs.meta_data.blocks dat length offset bnum s (length + 1) 0
      dblock doff ncopy blk fs.disk (fs.free_blocks.getD (fun _ => false))
    (r.1, { fs with
             disk := r.2.1
             free_blocks := fs.free_blocks.map (fun _ => r.2.2) })

/-! ### Derived definitions, well-formedness predicates and concrete states -/

/-- Maximum file size addressable through the direct and indirect pointers. -/
def maxFileSize : Nat := (POINTERS_PER_INODE + POINTERS_PER_BLOCK) * BLOCK_SIZE

/-- Number of pointer positions carried by one inode slot: five direct, the
indirect pointer itself, and the 1024 entries of the indirect block. -/
def PTRS_PER_SLOT : Nat := 6 + POINTERS_PER_BLOCK

/-- The inode-table block owning dense inode `n`, as the operations load it. -/
def tableBlockOf (fs : FileSystem) (n : Nat) : BlockFn :=
  (oread fs.disk (n / INODES_PER_BLOCK + 1)).getD zeroBlock

/-- The live free-block bitmap of an engine (all-unavailable when null). -/
def fsBitmap (fs : FileSystem) : Nat → Bool :=
  fs.free_blocks.getD (fun _ => false)

/-- Number of dense inode numbers covered by the mounted inode table. -/
def inodeCapacity (fs : FileSystem) : Nat :=
  INODES_PER_BLOCK * fs.meta_data.inode_blocks

/-- Decoded `valid` field of dense inode `n` on disk `D`. -/
def slotValid (D : Disk) (n : Nat) : Nat :=
  inodeValid (D.data (n / INODES_PER_BLOCK + 1)) (n % INODES_PER_BLOCK)

/-- Decoded `size` field of dense inode `n` on disk `D`. -/
def slotSize (D : Disk) (n : Nat) : Nat :=
  inodeSize (D.data (n / INODES_PER_BLOCK + 1)) (n % INODES_PER_BLOCK)

/-- Decoded `direct[d]` field of dense inode `n` on disk `D`. -/
def slotDirect (D : Disk) (n d : Nat) : Nat :=
  inodeDirect (D.data (n / INODES_PER_BLOCK + 1)) (n % INODES_PER_BLOCK) d

/-- Decoded `indirect` field of dense inode `n` on disk `D`. -/
def slotIndirect (D : Disk) (n : Nat) : Nat :=
  inodeIndirect (D.data (n / INODES_PER_BLOCK + 1)) (n % INODES_PER_BLOCK)

/-- Value of pointer position `idx` of dense inode `n` on disk `D`:
positions `0..4` are the direct pointers, position `5` is the indirect
pointer, positions `6..1029` are the entries of the indirect block (0 when
no indirect block is attached). -/
def ptrVal (D : Disk) (n idx : Nat) : Nat :=
  let blk := D.data (n / INODES_PER_BLOCK + 1)
  let s := n % INODES_PER_BLOCK
  if idx < POINTERS_PER_INODE then inodeDirect blk s idx
  else if idx = POINTERS_PER_INODE then inodeIndirect blk s
  else if inodeIndirect blk s ≠ 0 then
    blockPtr (D.data (inodeIndirect blk s)) (idx - 6)
  else 0

/-- Block `p` is reachable through the direct/indirect pointers of some
valid inode of the table spanning blocks `1 .. ib` of disk `D`. -/
def reaches (D : Disk) (ib p : Nat) : Prop :=
  ∃ n idx, n < INODES_PER_BLOCK * ib ∧ idx < PTRS_PER_SLOT ∧
    slotValid D n ≠ 0 ∧ ptrVal D n idx = p ∧ p ≠ 0

/-- Invariant of the running counters of both block-walk loops: the byte
counter never overshoots the length, and while the loop continues the
current chunk is non-empty and stays within the length. -/
def loopInv (len ndone ncopy : Nat) : Prop :=
  ndone ≤ len ∧ (ndone < len → ndone + ncopy ≤ len ∧ 1 ≤ ncopy)

/-- Superblock bytes describing a 20-block device with 2 inode-table
blocks and 256 inodes, as `format` would choose for 20 blocks. -/
def superBytes20 : BlockFn :=
  writeU32 (writeU32 (writeU32 (writeU32 zeroBlock 0 MAGIC_NUMBER) 4 20) 8 2) 12 256

/-- A 20-block disk holding that superblock and zeroed remaining blocks. -/
def disk20 : Disk :=
  ⟨1, 20, fun b => if b = 0 then truncBlock superBytes20 else zeroBlock⟩

/-- An engine instance that has never been mounted. -/
def fs0 : FileSystem := ⟨none, ⟨0, 0, 0, 0⟩, none⟩

/-- The engine after mounting `disk20`. -/
def fsM : FileSystem := (fs_mount fs0 disk20).2

/-- The engine after additionally creating inode 0. -/
def fsC : FileSystem := (fs_create fsM).2

/-- The disk underlying `fsC` (block 1 of `disk20` with inode slot 0
marked valid). -/
def diskC : Disk := ((fs_create fsM).2.disk).getD disk20

/-- A fresh all-zero 20-block disk (never formatted, never written). -/
def diskZero : Disk := ⟨2, 20, fun _ => zeroBlock⟩

/-- An inode-table block whose slot 0 is valid with size 5 and only zero
pointers. -/
def blkC5 : BlockFn := setInodeSize (setInodeValid zeroBlock 0 1) 0 5

/-- A disk whose inode 0 is valid with size 5 and all pointers zero. -/
def diskC5 : Disk :=
  ⟨3, 20, fun b =>
    if b = 0 then truncBlock superBytes20
    else if b = 1 then truncBlock blkC5 else zeroBlock⟩

/-- The engine after mounting `diskC5`. -/
def fsC5 : FileSystem := (fs_mount fs0 diskC5).2

/-- Raw bytes that, reinterpreted as an inode array, show slot 0 valid
with size 77. -/
def blkC10 : BlockFn := setInodeSize (setInodeValid zeroBlock 0 1) 0 77

/-- A disk whose data block 3 (outside the 2-block inode table) holds
bytes decoding to a valid inode record. -/
def diskC10 : Disk :=
  ⟨4, 20, fun b =>
    if b = 0 then truncBlock superBytes20
    else if b = 3 then truncBlock blkC10 else zeroBlock⟩

/-- The engine after mounting `diskC10`. -/
def fsC10 : FileSystem := (fs_mount fs0 diskC10).2

/-- An inode-table block whose slots 0 and 1 are both valid and share the
direct pointer to block 7 (a corrupted but mountable table). -/
def blkC2 : BlockFn :=
  setInodeDirect
    (setInodeSize
      (setInodeValid
        (setInodeDirect (setInodeSize (setInodeValid zeroBlock 0 1) 0 5) 0 0 7)
        1 1) 1 5) 1 0 7

/-- A disk carrying the corrupted table of `blkC2`. -/
def diskC2 : Disk :=
  ⟨5, 20, fun b =>
    if b = 0 then truncBlock superBytes20
    else if b = 1 then truncBlock blkC2 else zeroBlock⟩

/-- The engine after mounting `diskC2`. -/
def fsC2 : FileSystem := (fs_mount fs0 diskC2).2

/-- The engine after removing inode 0 of the corrupted table. -/
def fsC2r : FileSystem := (fs_remove fsC2 0).2

/-- A second disk object with the same valid content as `disk20` but a
distinct identity (a different `Disk *`). -/
def diskB : Disk := ⟨6, 20, disk20.data⟩

/-- Specification of `fs_create` on an engine mounted to disk `D`: either
some dense inode number `d` below the table capacity has an invalid slot,
every slot before it is valid, and the call returns `d` after marking the
slot valid and persisting its inode-table block; or every slot of the
table is valid and the call returns `-1` leaving the engine unchanged. -/
def CreateSpec (fs : FileSystem) (D : Disk) : Prop :=
  (∃ d, d < inodeCapacity fs ∧ slotValid D d = 0 ∧
      (∀ d', d' < d → slotValid D d' ≠ 0) ∧
      fs_create fs = (Int.ofNat d, FileSystem.mk
        (owriteD fs.disk (d / INODES_PER_BLOCK + 1)
          (setInodeValid (D.data (d / INODES_PER_BLOCK + 1))
            (d % INODES_PER_BLOCK) 1))
        fs.meta_data fs.free_blocks)) ∨
  ((∀ d, d < inodeCapacity fs → slotValid D d ≠ 0) ∧ fs_create fs = (-1, fs))


/-- Local well-formedness of dense inode `n` on disk `D` relative to a
free-block bitmap `bm` scanned up to `mblocks`, as the write/read
round-trip requires: genuine byte contents, per-block truncation, nonzero
pointers in range and distinct from the slot's inode-table block,
pairwise-distinct pointers, and an availability set disjoint from index
0, the table block and every pointer of the slot. -/
structure SlotWF (D : Disk) (bm : Nat → Bool) (mblocks n : Nat) : Prop where
  bn_lt : n / INODES_PER_BLOCK + 1 < D.blocks
  blocks32 : D.blocks < U32
  bytes : ∀ b o, D.data b o < 256
  trunc : ∀ b o, BLOCK_SIZE ≤ o → D.data b o = 0
  dirR : ∀ d, d < POINTERS_PER_INODE → slotDirect D n d ≠ 0 →
    slotDirect D n d ≠ n / INODES_PER_BLOCK + 1 ∧ slotDirect D n d < D.blocks
  indR : slotIndirect D n ≠ 0 →
    slotIndirect D n ≠ n / INODES_PER_BLOCK + 1 ∧ slotIndirect D n < D.blocks
  entR : slotIndirect D n ≠ 0 → ∀ j, j < POINTERS_PER_BLOCK →
    blockPtr (D.data (slotIndirect D n)) j ≠ 0 →
    blockPtr (D.data (slotIndirect D n)) j ≠ n / INODES_PER_BLOCK + 1 ∧
      blockPtr (D.data (slotIndirect D n)) j < D.blocks
  dd : ∀ d, d < POINTERS_PER_INODE → ∀ dp, dp < POINTERS_PER_INODE → d ≠ dp →
    slotDirect D n d ≠ 0 → slotDirect D n d ≠ slotDirect D n dp
  di : slotIndirect D n ≠ 0 → ∀ d, d < POINTERS_PER_INODE →
    slotDirect D n d ≠ slotIndirect D n
  de : slotIndirect D n ≠ 0 → ∀ d, d < POINTERS_PER_INODE →
    ∀ j, j < POINTERS_PER_BLOCK → slotDirect D n d ≠ 0 →
    blockPtr (D.data (slotIndirect D n)) j ≠ slotDirect D n d
  ie : slotIndirect D n ≠ 0 → ∀ j, j < POINTERS_PER_BLOCK →
    blockPtr (D.data (slotIndirect D n)) j ≠ slotIndirect D n
  ee : slotIndirect D n ≠ 0 → ∀ j, j < POINTERS_PER_BLOCK →
    ∀ jp, jp < POINTERS_PER_BLOCK → j ≠ jp →
    blockPtr (D.data (slotIndirect D n)) j ≠ 0 →
    blockPtr (D.data (slotIndirect D n)) j ≠
      blockPtr (D.data (slotIndirect D n)) jp
  bmA : ∀ p, p < mblocks → bm p = true → p ≠ 0 ∧
    p ≠ n / INODES_PER_BLOCK + 1 ∧ p < D.blocks ∧
    (∀ d, d < POINTERS_PER_INODE → slotDirect D n d ≠ p) ∧
    slotIndirect D n ≠ p ∧
    (slotIndirect D n ≠ 0 → ∀ j, j < POINTERS_PER_BLOCK →
      blockPtr (D.data (slotIndirect D n)) j ≠ p)

/-- The free-block bitmap rebuilt when `diskC5` was mounted. -/
def bmC5 : Nat → Bool := (fsC5.free_blocks).getD (fun _ => false)

/-- Invariant of the write loop carried by the write/read round-trip
proof.  It packages the counter and alignment facts of the walk, the
byte-ness and truncation discipline of the device, and the local
well-formedness of the slot being written: nonzero pointers are in range
and distinct from the inode-table block, pointers are pairwise distinct
across positions, and every block still marked available is disjoint from
all of them. -/
structure WriteLoopInv (mblocks len off bnum s nwrite dblock doff ncopy : Nat)
    (blk : BlockFn) (D0 : Disk) (bm : Nat → Bool) : Prop where
  inv : loopInv len nwrite ncopy
  doff_lt : doff < BLOCK_SIZE
  chunk : doff + ncopy ≤ BLOCK_SIZE
  chunkFull : doff + ncopy = BLOCK_SIZE ∨ nwrite + ncopy = len
  align : off + nwrite = dblock * BLOCK_SIZE + doff ∨ len ≤ nwrite
  maxfile : off + len ≤ maxFileSize
  bnum_lt : bnum < D0.blocks
  s_lt : s < INODES_PER_BLOCK
  blocks32 : D0.blocks < U32
  bytesD : ∀ b o, D0.data b o < 256
  dataTrunc : ∀ b o, BLOCK_SIZE ≤ o → D0.data b o = 0
  bytesB : ∀ o, blk o < 256
  data_bnum : 0 < nwrite → D0.data bnum = truncBlock blk
  dirR : ∀ d, d < POINTERS_PER_INODE → inodeDirect blk s d ≠ 0 →
    inodeDirect blk s d ≠ bnum ∧ inodeDirect blk s d < D0.blocks
  indR : inodeIndirect blk s ≠ 0 →
    inodeIndirect blk s ≠ bnum ∧ inodeIndirect blk s < D0.blocks
  entR : inodeIndirect blk s ≠ 0 → ∀ j, j < POINTERS_PER_BLOCK →
    blockPtr (D0.data (inodeIndirect blk s)) j ≠ 0 →
    blockPtr (D0.data (inodeIndirect blk s)) j ≠ bnum ∧
      blockPtr (D0.data (inodeIndirect blk s)) j < D0.blocks
  dd : ∀ d dp, d < POINTERS_PER_INODE → dp < POINTERS_PER_INODE → d ≠ dp →
    inodeDirect blk s d ≠ 0 → inodeDirect blk s d ≠ inodeDirect blk s dp
  di : inodeIndirect blk s ≠ 0 → ∀ d, d < POINTERS_PER_INODE →
    inodeDirect blk s d ≠ inodeIndirect blk s
  de : inodeIndirect blk s ≠ 0 → ∀ d j, d < POINTERS_PER_INODE →
    j < POINTERS_PER_BLOCK → inodeDirect blk s d ≠ 0 →
    blockPtr (D0.data (inodeIndirect blk s)) j ≠ inodeDirect blk s d
  ie : inodeIndirect blk s ≠ 0 → ∀ j, j < POINTERS_PER_BLOCK →
    blockPtr (D0.data (inodeIndirect blk s)) j ≠ inodeIndirect blk s
  ee : inodeIndirect blk s ≠ 0 → ∀ j jp, j < POINTERS_PER_BLOCK →
    jp < POINTERS_PER_BLOCK → j ≠ jp →
    blockPtr (D0.data (inodeIndirect blk s)) j ≠ 0 →
    blockPtr (D0.data (inodeIndirect blk s)) j ≠
      blockPtr (D0.data (inodeIndirect blk s)) jp
  bmA : ∀ p, p < mblocks → bm p = true → p ≠ 0 ∧ p ≠ bnum ∧ p < D0.blocks ∧
    (∀ d, d < POINTERS_PER_INODE → inodeDirect blk s d ≠ p) ∧
    inodeIndirect blk s ≠ p ∧
    (inodeIndirect blk s ≠ 0 → ∀ j, j < POINTERS_PER_BLOCK →
      blockPtr (D0.data (inodeIndirect blk s)) j ≠ p)

/-- Postcondition of the write loop established by the round-trip proof,
relative to the loop state it was entered in.  `Df` is the final device
and `blkF` the final in-memory inode-table block (also persisted at
`bnum`).  The `past` clauses say pointers already walked are stable, the
`fut` clauses say later-position pointers are either the entry values or
were still available at entry, `frame` confines device mutation to the
inode-table block and blocks hanging off the slot from the current
position on, and `readback` replays the read loop from the matching state
over the final device, returning exactly the written bytes. -/
structure WriteLoopPost (mblocks : Nat) (dat : Nat → Nat)
    (len off bnum s nwrite dblock doff ncopy : Nat)
    (blk : BlockFn) (D0 : Disk) (bm : Nat → Bool)
    (res : Int × Option Disk × (Nat → Bool)) (Df : Disk) (blkF : BlockFn) :
    Prop where
  ret : res.1 = Int.ofNat len
  odisk : res.2.1 = some Df
  blocks_eq : Df.blocks = D0.blocks
  data_bnum : Df.data bnum = truncBlock blkF
  past_dir : ∀ d, d < POINTERS_PER_INODE → d < dblock →
    inodeDirect blkF s d = inodeDirect blk s d
  past_ind : inodeIndirect blk s ≠ 0 →
    inodeIndirect blkF s = inodeIndirect blk s
  past_ent : inodeIndirect blk s ≠ 0 → ∀ j, j < POINTERS_PER_BLOCK →
    j < dblock - POINTERS_PER_INODE →
    blockPtr (Df.data (inodeIndirect blk s)) j =
      blockPtr (D0.data (inodeIndirect blk s)) j
  fut_dir : ∀ d, d < POINTERS_PER_INODE → dblock ≤ d →
    inodeDirect blkF s d = inodeDirect blk s d ∨
    (bm (inodeDirect blkF s d) = true ∧ inodeDirect blkF s d < mblocks)
  fut_ind : inodeIndirect blkF s = inodeIndirect blk s ∨
    (bm (inodeIndirect blkF s) = true ∧ inodeIndirect blkF s < mblocks)
  fut_ent : inodeIndirect blkF s ≠ 0 → ∀ j, j < POINTERS_PER_BLOCK →
    dblock - POINTERS_PER_INODE ≤ j →
    blockPtr (Df.data (inodeIndirect blkF s)) j = 0 ∨
    (bm (blockPtr (Df.data (inodeIndirect blkF s)) j) = true ∧
      blockPtr (Df.data (inodeIndirect blkF s)) j < mblocks) ∨
    (inodeIndirect blk s ≠ 0 ∧
      blockPtr (Df.data (inodeIndirect blkF s)) j =
        blockPtr (D0.data (inodeIndirect blk s)) j)
  frame : ∀ b, b ≠ bnum →
    (∀ d, d < POINTERS_PER_INODE → dblock ≤ d → b ≠ inodeDirect blkF s d) →
    b ≠ inodeIndirect blkF s →
    (inodeIndirect blkF s ≠ 0 → ∀ j, j < POINTERS_PER_BLOCK →
      dblock - POINTERS_PER_INODE ≤ j →
      b ≠ blockPtr (Df.data (inodeIndirect blkF s)) j) →
    Df.data b = D0.data b
  readback : ∀ fuelR acc, len - nwrite < fuelR →
    readGo (some Df) (truncBlock blkF) s len fuelR nwrite dblock doff ncopy acc =
      (Int.ofNat len, acc ++ (List.range (len - nwrite)).map
        (fun j => dat (nwrite + j) % 256))

/-- Global structural well-formedness of the on-disk inode table spanning
blocks `1 .. ib`: genuine bytes, per-block truncation, every nonzero
pointer of a valid slot lands strictly inside the data region, pointers
of valid slots are pairwise distinct across all slot/position pairs, and
invalid slots carry no pointers.  `fs_mount` checks none of this; the
bitmap/reachability invariant holds only for mounts of such disks. -/
structure DiskWF (D : Disk) (ib : Nat) : Prop where
  ib_lt : ib < D.blocks
  blocks32 : D.blocks < U32
  trunc : ∀ b o, BLOCK_SIZE ≤ o → D.data b o = 0
  ptrR : ∀ n idx, n < INODES_PER_BLOCK * ib → idx < PTRS_PER_SLOT →
    slotValid D n ≠ 0 → ptrVal D n idx ≠ 0 →
    ib < ptrVal D n idx ∧ ptrVal D n idx < D.blocks
  inj : ∀ n idx np idxp, n < INODES_PER_BLOCK * ib → idx < PTRS_PER_SLOT →
    np < INODES_PER_BLOCK * ib → idxp < PTRS_PER_SLOT →
    slotValid D n ≠ 0 → slotValid D np ≠ 0 →
    ptrVal D n idx ≠ 0 → ¬(n = np ∧ idx = idxp) →
    ptrVal D n idx ≠ ptrVal D np idxp
  invz : ∀ n idx, n < INODES_PER_BLOCK * ib → idx < PTRS_PER_SLOT →
    slotValid D n = 0 → ptrVal D n idx = 0

/-- The available set of bitmap `bm` stays inside the data region of `D`
and is disjoint from the set of blocks reachable through the pointers of
valid inodes. -/
def bmDisjoint (D : Disk) (bm : Nat → Bool) (ib : Nat) : Prop :=
  ∀ p, bm p = true → ib < p ∧ p < D.blocks ∧ ¬ reaches D ib p

/-- The engine is mounted to a structurally well-formed disk whose bitmap
is disjoint from the reachable set. -/
def EngineWF (fs : FileSystem) : Prop :=
  ∃ D bm, fs.disk = some D ∧ fs.free_blocks = some bm ∧
    fs.meta_data.blocks = D.blocks ∧
    DiskWF D fs.meta_data.inode_blocks ∧
    bmDisjoint D bm fs.meta_data.inode_blocks

/-- Engine states reachable by mounting a structurally well-formed disk
and then running any sequence of `fs_create`, `fs_remove` and `fs_write`
calls whose inode numbers stay below the mounted inode capacity
(`fs_read` never mutates the engine, so it needs no case). -/
inductive Reachable : FileSystem → Prop where
  | mount (fs : FileSystem) (disk : Disk)
      (hWF : DiskWF disk (superInodeBlocks (disk.data 0)))
      (hsb : superBlocks (disk.data 0) = disk.blocks)
      (hok : (fs_mount fs disk).1 = true) : Reachable (fs_mount fs disk).2
  | create (fs : FileSystem) (h : Reachable fs) : Reachable (fs_create fs).2
  | remove (fs : FileSystem) (n : Nat) (h : Reachable fs)
      (hn : n < inodeCapacity fs) : Reachable (fs_remove fs n).2
  | write (fs : FileSystem) (n : Nat) (dat : Nat → Nat) (length offset : Nat)
      (h : Reachable fs) (hn : n < inodeCapacity fs) :
      Reachable (fs_write fs n dat length offset).2

/-- The blocks one valid slot's rebuild pass marks unavailable: its
nonzero direct pointers, its indirect pointer, and the nonzero entries of
the indirect block read back from disk. -/
def SlotMark (D : Disk) (blk : BlockFn) (s q : Nat) : Prop :=
  (∃ d, d < POINTERS_PER_INODE ∧ inodeDirect blk s d ≠ 0 ∧
    inodeDirect blk s d = q) ∨
  (inodeIndirect blk s ≠ 0 ∧ (inodeIndirect blk s = q ∨
    ∃ j, j < POINTERS_PER_BLOCK ∧
      blockPtr (D.data (inodeIndirect blk s)) j ≠ 0 ∧
      blockPtr (D.data (inodeIndirect blk s)) j = q))

/-- The disk after a successful raw write of buffer `f` to block `p`. -/
def updDisk (D : Disk) (p : Nat) (f : BlockFn) : Disk :=
  ⟨D.ident, D.blocks, fun b => if b = p then truncBlock f else D.data b⟩

/-- The write loop's return state keeps a live disk of the same geometry
satisfying the structural invariant, with a bitmap disjoint from its
reachable set. -/
def GWFout (ib mblocks : Nat) (r : Int × Option Disk × (Nat → Bool)) : Prop :=
  ∃ Dr, r.2.1 = some Dr ∧ Dr.blocks = mblocks ∧ DiskWF Dr ib ∧
    bmDisjoint Dr r.2.2 ib

/-- The disk underlying the post-remove engine `fsC2r`. -/
def diskC2r : Disk := (fsC2r.disk).getD diskC2

/-! ### Theorems -/

/-- Bytes outside the four stored positions are untouched by `writeU32`. -/
theorem writeU32_apply_ne (f : BlockFn) (o v i : Nat) (h : i < o ∨ o + 4 ≤ i) :
    writeU32 f o v i = f i := by
  unfold writeU32 writeByte
  rw [if_neg (by omega), if_neg (by omega), if_neg (by omega), if_neg (by omega)]

/-- Loading a u32 from the offset it was stored at yields the value mod
2^32. -/
theorem readU32_writeU32_same (f : BlockFn) (o v : Nat) :
    readU32 (writeU32 f o v) o = v % U32 := by
  unfold readU32 writeU32 writeByte U32
  rw [if_neg (by omega), if_neg (by omega), if_neg (by omega), if_pos rfl,
    if_neg (by omega), if_neg (by omega), if_pos rfl,
    if_neg (by omega), if_pos rfl, if_pos rfl]
  omega

/-- Loading a u32 from an offset disjoint from a stored one is unchanged. -/
theorem readU32_writeU32_ne (f : BlockFn) (o o' v : Nat)
    (h : o + 4 ≤ o' ∨ o' + 4 ≤ o) :
    readU32 (writeU32 f o' v) o = readU32 f o := by
  unfold readU32
  rw [writeU32_apply_ne _ _ _ _ (by omega), writeU32_apply_ne _ _ _ _ (by omega),
    writeU32_apply_ne _ _ _ _ (by omega), writeU32_apply_ne _ _ _ _ (by omega)]

/-- Loading a u32 wholly inside the persisted range of a block sees
through the truncation. -/
theorem readU32_truncBlock (f : BlockFn) (o : Nat) (h : o + 4 ≤ BLOCK_SIZE) :
    readU32 (truncBlock f) o = readU32 f o := by
  unfold readU32 truncBlock BLOCK_SIZE at *
  rw [if_pos (by omega), if_pos (by omega), if_pos (by omega), if_pos (by omega)]

/-- Values loaded as u32 are below 2^32 when the underlying bytes are
genuine bytes; in particular this holds for every persisted block. -/
theorem readU32_lt (f : BlockFn) (o : Nat)
    (h : ∀ i, f i < 256) : readU32 f o < U32 := by
  unfold readU32 U32
  have h1 := h o
  have h2 := h (o + 1)
  have h3 := h (o + 2)
  have h4 := h (o + 3)
  omega

/-- Writing the very disk block that is later read back. -/
theorem owriteD_lt (D : Disk) (b : Nat) (f : BlockFn) (h : b < D.blocks) :
    owriteD (some D) b f =
      some ⟨D.ident, D.blocks,
        fun b' => if b' = b then truncBlock f else D.data b'⟩ := by
  simp [owriteD, Disk.writeBlock, h]

/-- An out-of-range ignored write leaves the disk untouched. -/
theorem owriteD_ge (D : Disk) (b : Nat) (f : BlockFn) (h : ¬ b < D.blocks) :
    owriteD (some D) b f = some D := by
  simp [owriteD, Disk.writeBlock, h]

/-- A checked write succeeds exactly on an in-range block. -/
theorem owriteChk_lt (D : Disk) (b : Nat) (f : BlockFn) (h : b < D.blocks) :
    owriteChk (some D) b f =
      some ⟨D.ident, D.blocks,
        fun b' => if b' = b then truncBlock f else D.data b'⟩ := by
  simp [owriteChk, Disk.writeBlock, h]

/-- Reading an in-range block of a live disk. -/
theorem oread_lt (D : Disk) (b : Nat) (h : b < D.blocks) :
    oread (some D) b = some (D.data b) := by
  simp [oread, Disk.readBlock, h]

/-- Reading an out-of-range block fails. -/
theorem oread_ge (D : Disk) (b : Nat) (h : ¬ b < D.blocks) :
    oread (some D) b = none := by
  simp [oread, Disk.readBlock, h]

/-- Field-level codec lemma relating a load to the matching store. -/
theorem inodeValid_setValid_same (f : BlockFn) (s v : Nat) :
    inodeValid (setInodeValid f s v) s = v % U32 := by
  unfold inodeValid setInodeValid; exact readU32_writeU32_same f _ v

/-- Field-level codec lemma: stores to another slot's `valid` are invisible. -/
theorem inodeValid_setValid_ne (f : BlockFn) (s s' v : Nat) (h : s ≠ s') :
    inodeValid (setInodeValid f s' v) s = inodeValid f s := by
  unfold inodeValid setInodeValid; exact readU32_writeU32_ne _ _ _ _ (by omega)

/-- Field-level codec lemma: a `size` store never hits a `valid` field. -/
theorem inodeValid_setSize (f : BlockFn) (s s' v : Nat) :
    inodeValid (setInodeSize f s' v) s = inodeValid f s := by
  unfold inodeValid setInodeSize; exact readU32_writeU32_ne _ _ _ _ (by omega)

/-- Field-level codec lemma: a direct-pointer store never hits `valid`. -/
theorem inodeValid_setDirect (f : BlockFn) (s s' d v : Nat)
    (hd : d < POINTERS_PER_INODE) :
    inodeValid (setInodeDirect f s' d v) s = inodeValid f s := by
  unfold inodeValid setInodeDirect
  unfold POINTERS_PER_INODE at hd
  exact readU32_writeU32_ne _ _ _ _ (by omega)

/-- Field-level codec lemma: an indirect-pointer store never hits `valid`. -/
theorem inodeValid_setIndirect (f : BlockFn) (s s' v : Nat) :
    inodeValid (setInodeIndirect f s' v) s = inodeValid f s := by
  unfold inodeValid setInodeIndirect; exact readU32_writeU32_ne _ _ _ _ (by omega)

/-- Field-level codec lemma relating a `size` load to its store. -/
theorem inodeSize_setSize_same (f : BlockFn) (s v : Nat) :
    inodeSize (setInodeSize f s v) s = v % U32 := by
  unfold inodeSize setInodeSize; exact readU32_writeU32_same f _ v

/-- Field-level codec lemma: stores to another slot's `size` are invisible. -/
theorem inodeSize_setSize_ne (f : BlockFn) (s s' v : Nat) (h : s ≠ s') :
    inodeSize (setInodeSize f s' v) s = inodeSize f s := by
  unfold inodeSize setInodeSize; exact readU32_writeU32_ne _ _ _ _ (by omega)

/-- Field-level codec lemma: a `valid` store never hits a `size` field. -/
theorem inodeSize_setValid (f : BlockFn) (s s' v : Nat) :
    inodeSize (setInodeValid f s' v) s = inodeSize f s := by
  unfold inodeSize setInodeValid; exact readU32_writeU32_ne _ _ _ _ (by omega)

/-- Field-level codec lemma: a direct-pointer store never hits `size`. -/
theorem inodeSize_setDirect (f : BlockFn) (s s' d v : Nat)
    (hd : d < POINTERS_PER_INODE) :
    inodeSize (setInodeDirect f s' d v) s = inodeSize f s := by
  unfold inodeSize setInodeDirect
  unfold POINTERS_PER_INODE at hd
  exact readU32_writeU32_ne _ _ _ _ (by omega)

/-- Field-level codec lemma: an indirect-pointer store never hits `size`. -/
theorem inodeSize_setIndirect (f : BlockFn) (s s' v : Nat) :
    inodeSize (setInodeIndirect f s' v) s = inodeSize f s := by
  unfold inodeSize setInodeIndirect; exact readU32_writeU32_ne _ _ _ _ (by omega)

/-- Field-level codec lemma relating a direct-pointer load to its store. -/
theorem inodeDirect_setDirect_same (f : BlockFn) (s d v : Nat) :
    inodeDirect (setInodeDirect f s d v) s d = v % U32 := by
  unfold inodeDirect setInodeDirect; exact readU32_writeU32_same f _ v

/-- Field-level codec lemma: stores to a different direct-pointer cell are
invisible. -/
theorem inodeDirect_setDirect_ne (f : BlockFn) (s s' d d' v : Nat)
    (hd : d < POINTERS_PER_INODE) (hd' : d' < POINTERS_PER_INODE)
    (h : s ≠ s' ∨ d ≠ d') :
    inodeDirect (setInodeDirect f s' d' v) s d = inodeDirect f s d := by
  unfold inodeDirect setInodeDirect
  unfold POINTERS_PER_INODE at hd hd'
  exact readU32_writeU32_ne _ _ _ _ (by omega)

/-- Field-level codec lemma: a `valid` store never hits a direct cell. -/
theorem inodeDirect_setValid (f : BlockFn) (s s' d v : Nat)
    (hd : d < POINTERS_PER_INODE) :
    inodeDirect (setInodeValid f s' v) s d = inodeDirect f s d := by
  unfold inodeDirect setInodeValid
  unfold POINTERS_PER_INODE at hd
  exact readU32_writeU32_ne _ _ _ _ (by omega)

/-- Field-level codec lemma: a `size` store never hits a direct cell. -/
theorem inodeDirect_setSize (f : BlockFn) (s s' d v : Nat)
    (hd : d < POINTERS_PER_INODE) :
    inodeDirect (setInodeSize f s' v) s d = inodeDirect f s d := by
  unfold inodeDirect setInodeSize
  unfold POINTERS_PER_INODE at hd
  exact readU32_writeU32_ne _ _ _ _ (by omega)

/-- Field-level codec lemma: an indirect store never hits a direct cell. -/
theorem inodeDirect_setIndirect (f : BlockFn) (s s' d v : Nat)
    (hd : d < POINTERS_PER_INODE) :
    inodeDirect (setInodeIndirect f s' v) s d = inodeDirect f s d := by
  unfold inodeDirect setInodeIndirect
  unfold POINTERS_PER_INODE at hd
  exact readU32_writeU32_ne _ _ _ _ (by omega)

/-- Field-level codec lemma relating an indirect load to its store. -/
theorem inodeIndirect_setIndirect_same (f : BlockFn) (s v : Nat) :
    inodeIndirect (setInodeIndirect f s v) s = v % U32 := by
  unfold inodeIndirect setInodeIndirect; exact readU32_writeU32_same f _ v

/-- Field-level codec lemma: stores to another slot's indirect pointer are
invisible. -/
theorem inodeIndirect_setIndirect_ne (f : BlockFn) (s s' v : Nat) (h : s ≠ s') :
    inodeIndirect (setInodeIndirect f s' v) s = inodeIndirect f s := by
  unfold inodeIndirect setInodeIndirect; exact readU32_writeU32_ne _ _ _ _ (by omega)

/-- Field-level codec lemma: a `valid` store never hits the indirect cell. -/
theorem inodeIndirect_setValid (f : BlockFn) (s s' v : Nat) :
    inodeIndirect (setInodeValid f s' v) s = inodeIndirect f s := by
  unfold inodeIndirect setInodeValid; exact readU32_writeU32_ne _ _ _ _ (by omega)

/-- Field-level codec lemma: a `size` store never hits the indirect cell. -/
theorem inodeIndirect_setSize (f : BlockFn) (s s' v : Nat) :
    inodeIndirect (setInodeSize f s' v) s = inodeIndirect f s := by
  unfold inodeIndirect setInodeSize; exact readU32_writeU32_ne _ _ _ _ (by omega)

/-- Field-level codec lemma: a direct store never hits the indirect cell. -/
theorem inodeIndirect_setDirect (f : BlockFn) (s s' d v : Nat)
    (hd : d < POINTERS_PER_INODE) :
    inodeIndirect (setInodeDirect f s' d v) s = inodeIndirect f s := by
  unfold inodeIndirect setInodeDirect
  unfold POINTERS_PER_INODE at hd
  exact readU32_writeU32_ne _ _ _ _ (by omega)

/-- Field-level codec lemma: same-slot stores to a different direct cell
are invisible (no index bounds needed within one slot). -/
theorem inodeDirect_setDirect_same_slot (f : BlockFn) (s d d' v : Nat)
    (h : d ≠ d') :
    inodeDirect (setInodeDirect f s d' v) s d = inodeDirect f s d := by
  unfold inodeDirect setInodeDirect
  exact readU32_writeU32_ne _ _ _ _ (by omega)

/-- Slot fields live inside the persisted range of a block: `valid`. -/
theorem inodeValid_truncBlock (f : BlockFn) (s : Nat) (hs : s < INODES_PER_BLOCK) :
    inodeValid (truncBlock f) s = inodeValid f s := by
  unfold inodeValid INODES_PER_BLOCK at *
  exact readU32_truncBlock _ _ (by unfold BLOCK_SIZE; omega)

/-- Slot fields live inside the persisted range of a block: `size`. -/
theorem inodeSize_truncBlock (f : BlockFn) (s : Nat) (hs : s < INODES_PER_BLOCK) :
    inodeSize (truncBlock f) s = inodeSize f s := by
  unfold inodeSize INODES_PER_BLOCK at *
  exact readU32_truncBlock _ _ (by unfold BLOCK_SIZE; omega)

/-- Slot fields live inside the persisted range of a block: `direct`. -/
theorem inodeDirect_truncBlock (f : BlockFn) (s d : Nat)
    (hs : s < INODES_PER_BLOCK) (hd : d < POINTERS_PER_INODE) :
    inodeDirect (truncBlock f) s d = inodeDirect f s d := by
  unfold inodeDirect INODES_PER_BLOCK POINTERS_PER_INODE at *
  exact readU32_truncBlock _ _ (by unfold BLOCK_SIZE; omega)

/-- Slot fields live inside the persisted range of a block: `indirect`. -/
theorem inodeIndirect_truncBlock (f : BlockFn) (s : Nat)
    (hs : s < INODES_PER_BLOCK) :
    inodeIndirect (truncBlock f) s = inodeIndirect f s := by
  unfold inodeIndirect INODES_PER_BLOCK at *
  exact readU32_truncBlock _ _ (by unfold BLOCK_SIZE; omega)

/-- Pointer-array entries live inside the persisted range of a block. -/
theorem blockPtr_truncBlock (f : BlockFn) (p : Nat) (hp : p < POINTERS_PER_BLOCK) :
    blockPtr (truncBlock f) p = blockPtr f p := by
  unfold blockPtr POINTERS_PER_BLOCK at *
  exact readU32_truncBlock _ _ (by unfold BLOCK_SIZE; omega)

/-- Field-level codec lemma relating a pointer-array load to its store. -/
theorem blockPtr_setBlockPtr_same (f : BlockFn) (p v : Nat) :
    blockPtr (setBlockPtr f p v) p = v % U32 := by
  unfold blockPtr setBlockPtr; exact readU32_writeU32_same f _ v

/-- Field-level codec lemma: stores to a different pointer-array entry are
invisible. -/
theorem blockPtr_setBlockPtr_ne (f : BlockFn) (p p' v : Nat) (h : p ≠ p') :
    blockPtr (setBlockPtr f p' v) p = blockPtr f p := by
  unfold blockPtr setBlockPtr; exact readU32_writeU32_ne _ _ _ _ (by omega)

/-- C1 (defect evidence): on a fresh all-zero disk of 20 blocks (at least
3), `fs_format` on an unmounted engine succeeds, yet the subsequent
`fs_mount` of the very disk it produced fails: formatting builds the
superblock record in a local and never persists it to block 0, so the
mount-time magic-number check reads zeroes and rejects the disk,
contradicting the round-trip the formatting routine's own header comment
("Write SuperBlock") promises. -/
theorem format_then_mount_fails :
    3 ≤ diskZero.blocks ∧ (fs_format fs0 diskZero).1 = true ∧
      (fs_mount fs0 (fs_format fs0 diskZero).2).1 = false := by
  decide

/-- C10: none of `fs_stat`, `fs_remove`, `fs_read`, `fs_write` checks the
inode number against the mounted inode count: on `fsC10` (256 inodes in
blocks 1-2 of a 20-block disk), inode number 256 resolves to device block
3, a data block, whose bytes each operation reinterprets as an inode
array: stat returns the decoded size 77, remove reports success, read
returns 5 bytes, and write reports 1 byte written, none of them the
failure sentinel. -/
theorem no_inode_range_check :
    fsC10.meta_data.inodes = 256 ∧ 256 / INODES_PER_BLOCK + 1 = 3 ∧
    3 < fsC10.meta_data.blocks ∧ fsC10.meta_data.inode_blocks = 2 ∧
    fs_stat fsC10 256 = 77 ∧
    (fs_remove fsC10 256).1 = true ∧
    (fs_read fsC10 256 5 0).1 = 5 ∧
    (fs_write fsC10 256 (fun _ => 1) 1 0).1 = 1 := by
  decide

/-- Entry state of a block-walk loop satisfies the counter invariant. -/
theorem loopInv_first (len doff : Nat) (hd : doff < BLOCK_SIZE) :
    loopInv len 0 (firstNcopy len doff) := by
  unfold loopInv firstNcopy BLOCK_SIZE at *
  constructor
  · exact Nat.zero_le _
  · intro h
    split <;> omega

/-- The counter invariant is preserved across one loop iteration. -/
theorem loopInv_next (len ndone ncopy : Nat) (h : loopInv len ndone ncopy)
    (hlt : ndone < len) :
    loopInv len (ndone + ncopy) (nextNcopy len (ndone + ncopy)) := by
  unfold loopInv nextNcopy BLOCK_SIZE at *
  obtain ⟨h1, h2⟩ := h
  obtain ⟨h3, h4⟩ := h2 hlt
  refine ⟨h3, fun h5 => ?_⟩
  split <;> omega

/-- The read loop either aborts with `-1` or runs to completion returning
exactly its length: no partial byte count escapes. -/
theorem readGo_result (od : Option Disk) (blk : BlockFn) (s len : Nat) :
    ∀ fuel ndone dblock doff ncopy acc,
      loopInv len ndone ncopy → len - ndone < fuel →
      (readGo od blk s len fuel ndone dblock doff ncopy acc).1 = -1 ∨
      (readGo od blk s len fuel ndone dblock doff ncopy acc).1 = Int.ofNat len := by
  intro fuel
  induction fuel with
  | zero => intro ndone dblock doff ncopy acc _ hf; omega
  | succ f ih =>
    intro ndone dblock doff ncopy acc hInv hf
    obtain ⟨h1, h2⟩ := hInv
    rw [readGo]
    by_cases h : ndone < len
    · rcases h2 h with ⟨h3, h4⟩
      rw [if_pos h]
      cases hdb : (if dblock < POINTERS_PER_INODE then
          oread od (inodeDirect blk s dblock)
        else
          match oread od (inodeIndirect blk s) with
          | none => none
          | some ind => oread od (blockPtr ind (dblock - POINTERS_PER_INODE))) with
      | none => left; rfl
      | some db =>
        exact ih (ndone + ncopy) (dblock + 1) 0 (nextNcopy len (ndone + ncopy)) _
          (loopInv_next len ndone ncopy ⟨h1, h2⟩ h) (by omega)
    · rw [if_neg h]
      right
      have : ndone = len := by omega
      rw [this]

/-- C5 (amended): a device read failure during the walk aborts the whole
`fs_read` call with `-1` and no partial byte count is ever returned: the
result is either `-1` or exactly the clamped length.  (Zero pointers are
not detected: they resolve to device block 0, see the counterexample.) -/
theorem fs_read_aborts_whole_call (fs : FileSystem) (n L O : Nat) :
    (fs_read fs n L O).1 = -1 ∨
    (fs_read fs n L O).1 =
      Int.ofNat (effLen (inodeSize (tableBlockOf fs n) (n % INODES_PER_BLOCK))
        (L % U64) (O % U64)) := by
  exact readGo_result fs.disk (tableBlockOf fs n) (n % INODES_PER_BLOCK) _ _ 0
    ((O % U64) / BLOCK_SIZE) ((O % U64) % BLOCK_SIZE) _ []
    (loopInv_first _ _ (Nat.mod_lt _ (by decide))) (by omega)

/-- C5 (counterexample): on `fsC5`, inode 0 is valid with size 5 and a
zero direct pointer; the claim demands the error sentinel, but `fs_read`
resolves the zero pointer to device block 0 and returns 5 bytes of the
superblock instead of `-1`. -/
theorem read_zero_pointer_not_error :
    inodeValid (tableBlockOf fsC5 0) 0 ≠ 0 ∧
    inodeSize (tableBlockOf fsC5 0) 0 = 5 ∧
    inodeDirect (tableBlockOf fsC5 0) 0 0 = 0 ∧
    fs_read fsC5 0 5 0 =
      (5, [superBytes20 0, superBytes20 1, superBytes20 2, superBytes20 3,
           superBytes20 4]) := by
  decide

/-- C4 (counterexample): on `fsC`, inode 0 is valid with stored size 0, so
offset 0 is at the stored size; the claim demands a failure signal, but
`fs_read` returns byte count 0, not `-1`. -/
theorem read_offset_at_size_not_failure :
    inodeValid (tableBlockOf fsC 0) 0 ≠ 0 ∧
    inodeSize (tableBlockOf fsC 0) 0 = 0 ∧
    fs_read fsC 0 1 0 = ((0 : Int), ([] : List Nat)) := by
  decide

/-- C4 (amended): with stored size `S`, `fs_read` clamps the byte range in
wrapping `size_t` arithmetic: for `O < S ≤ O + L` the call behaves exactly
like a read of `S - O` bytes; for `O = S` it returns 0 bytes, not a
failure; for `O > S` the subtraction wraps and the call behaves like a
read of `2^64 - (O - S)` bytes rather than failing. -/
theorem fs_read_clamp_characterization (fs : FileSystem) (n L O S : Nat)
    (hS : S = inodeSize (tableBlockOf fs n) (n % INODES_PER_BLOCK))
    (hS32 : S < U32) (hL : L < U64) (hO : O < U64) (hLO : L + O < U64) :
    (O < S → S ≤ O + L → fs_read fs n L O = fs_read fs n (S - O) O) ∧
    (O = S → fs_read fs n L O = ((0 : Int), ([] : List Nat))) ∧
    (S < O → fs_read fs n L O = fs_read fs n (U64 - (O - S)) O) := by
  have hred : ∀ L', L' < U64 →
      fs_read fs n L' O =
        readGo fs.disk (tableBlockOf fs n) (n % INODES_PER_BLOCK)
          (effLen S L' O) (effLen S L' O + 1) 0 (O / BLOCK_SIZE) (O % BLOCK_SIZE)
          (firstNcopy (effLen S L' O) (O % BLOCK_SIZE)) [] := by
    intro L' hL'
    have hS' := hS
    simp only [tableBlockOf] at hS'
    simp only [fs_read, tableBlockOf]
    rw [Nat.mod_eq_of_lt hL', Nat.mod_eq_of_lt hO, ← hS']
  have hS64 : S < U64 := by simp only [U32, U64] at *; omega
  refine ⟨?_, ?_, ?_⟩
  · intro h1 h2
    have e1 : effLen S L O = S - O := by
      unfold effLen; simp only [U64] at *; split <;> omega
    have e2 : effLen S (S - O) O = S - O := by
      unfold effLen; simp only [U64] at *; split <;> omega
    rw [hred L hL, hred (S - O) (by omega), e1, e2]
  · intro h1
    have e1 : effLen S L O = 0 := by
      unfold effLen; simp only [U64] at *; split <;> omega
    rw [hred L hL, e1, readGo, if_neg (by omega)]
    rfl
  · intro h1
    have e1 : effLen S L O = U64 - (O - S) := by
      unfold effLen; simp only [U64] at *; split <;> omega
    have e2 : effLen S (U64 - (O - S)) O = U64 - (O - S) := by
      unfold effLen; simp only [U64] at *; split <;> omega
    rw [hred L hL, hred (U64 - (O - S)) (by simp only [U64] at *; omega), e1, e2]

/-- Witness for `fs_read_clamp_characterization` at concrete inputs on
`fsC5` (stored size 5): a read of 10 bytes at offset 2 equals a read of 3
bytes there, a read at offset 5 returns 0 bytes, and a read at offset 7
behaves like a wrapped huge read. -/
theorem fs_read_clamp_characterization_witness :
    fs_read fsC5 0 10 2 = fs_read fsC5 0 3 2 ∧
    fs_read fsC5 0 10 5 = ((0 : Int), ([] : List Nat)) ∧
    fs_read fsC5 0 1 7 = fs_read fsC5 0 (U64 - 2) 7 := by
  refine ⟨?_, ?_, ?_⟩
  · exact (fs_read_clamp_characterization fsC5 0 10 2 5 (by decide) (by decide)
      (by decide) (by decide) (by decide)).1 (by decide) (by decide)
  · exact (fs_read_clamp_characterization fsC5 0 10 5 5 (by decide) (by decide)
      (by decide) (by decide) (by decide)).2.1 (by decide)
  · exact (fs_read_clamp_characterization fsC5 0 1 7 5 (by decide) (by decide)
      (by decide) (by decide) (by decide)).2.2 (by decide)

/-- Case split of `fs_mount`: either it reports success, or it returns
failure with the engine state untouched. -/
theorem fs_mount_cases (fs : FileSystem) (disk : Disk) :
    (fs_mount fs disk).1 = true ∨ fs_mount fs disk = (false, fs) := by
  unfold fs_mount
  split
  · right; rfl
  · split
    · right; rfl
    · split
      · right; rfl
      · split
        · right; rfl
        · split
          · right; rfl
          · split
            · right; rfl
            · left; rfl

/-- C6 (amended): `fs_mount` refuses only the very disk object the engine
is currently mounted to (`fs->disk == disk`); and whenever any of its
checks fails it returns failure with the engine state unchanged.  Mounting
a different disk while mounted is not refused (see the counterexample). -/
theorem fs_mount_guard_and_failure :
    (∀ (fs : FileSystem) (D0 disk : Disk), fs.disk = some D0 →
        D0.ident = disk.ident → fs_mount fs disk = (false, fs)) ∧
    (∀ (fs : FileSystem) (disk : Disk), (fs_mount fs disk).1 = false →
        (fs_mount fs disk).2 = fs) := by
  constructor
  · intro fs D0 disk h1 h2
    unfold fs_mount sameDiskRef
    rw [h1]
    simp [h2]
  · intro fs disk h
    rcases fs_mount_cases fs disk with hc | hc
    · rw [hc] at h; cases h
    · rw [hc]

/-- Witness for `fs_mount_guard_and_failure`: remounting the very disk
`fsM` is mounted to fails and leaves the engine unchanged. -/
theorem fs_mount_guard_and_failure_witness :
    fs_mount fsM disk20 = (false, fsM) ∧ (fs_mount fsM disk20).2 = fsM := by
  constructor
  · exact fs_mount_guard_and_failure.1 fsM disk20 disk20 rfl rfl
  · exact fs_mount_guard_and_failure.2 fsM disk20 (by decide)

/-- The dense inode number of slot `j` of inode-table block `bn` decodes
through the expected block. -/
theorem slotValid_block (D : Disk) (bn j : Nat) (h1 : 1 ≤ bn)
    (hj : j < INODES_PER_BLOCK) :
    slotValid D ((bn - 1) * INODES_PER_BLOCK + j) = inodeValid (D.data bn) j := by
  unfold slotValid INODES_PER_BLOCK at *
  have e1 : ((bn - 1) * 128 + j) / 128 + 1 = bn := by omega
  have e2 : ((bn - 1) * 128 + j) % 128 = j := by omega
  rw [e1, e2]

/-- The inner `fs_create` scan finds the first invalid slot at or after
`s` (returning the dense counter at that point), or reports that every
remaining slot is valid. -/
theorem createInBlock_spec (blk : BlockFn) :
    ∀ fuel s count, s + fuel = INODES_PER_BLOCK →
      (∃ j, s ≤ j ∧ j < INODES_PER_BLOCK ∧ inodeValid blk j = 0 ∧
        (∀ j', s ≤ j' → j' < j → inodeValid blk j' ≠ 0) ∧
        createInBlock blk fuel s count = some (count + (j - s), j)) ∨
      ((∀ j, s ≤ j → j < INODES_PER_BLOCK → inodeValid blk j ≠ 0) ∧
        createInBlock blk fuel s count = none) := by
  intro fuel
  induction fuel with
  | zero =>
    intro s count hs
    right
    refine ⟨?_, rfl⟩
    intro j h1 h2
    unfold INODES_PER_BLOCK at *
    omega
  | succ f ih =>
    intro s count hs
    rw [createInBlock]
    by_cases hv : inodeValid blk s = 0
    · rw [if_pos hv]
      left
      refine ⟨s, le_refl s, by unfold INODES_PER_BLOCK at *; omega, hv, ?_, ?_⟩
      · intro j' h1 h2; omega
      · simp [Nat.sub_self]
    · rw [if_neg hv]
      rcases ih (s + 1) (count + 1) (by omega) with
        ⟨j, h1, h2, h3, h4, h5⟩ | ⟨h1, h2⟩
      · left
        refine ⟨j, by omega, h2, h3, ?_, ?_⟩
        · intro j' ha hb
          rcases Nat.eq_or_lt_of_le ha with he | hl
          · rw [← he]; exact hv
          · exact h4 j' (by omega) hb
        · rw [h5]
          have : count + 1 + (j - (s + 1)) = count + (j - s) := by omega
          rw [this]
      · right
        refine ⟨?_, h2⟩
        intro j ha hb
        rcases Nat.eq_or_lt_of_le ha with he | hl
        · rw [← he]; exact hv
        · exact h1 j (by omega) hb

/-- The outer `fs_create` scan over blocks `bn .. ib` returns the least
free dense inode number at or above the running counter, marking and
persisting it, or `-1` when every remaining slot is valid. -/
theorem createGo_spec (D : Disk) (ib : Nat) (hib : ib < D.blocks) :
    ∀ fuel bn count, 1 ≤ bn → bn + fuel = ib + 1 →
      count = (bn - 1) * INODES_PER_BLOCK →
      (∃ d, count ≤ d ∧ d < INODES_PER_BLOCK * ib ∧ slotValid D d = 0 ∧
        (∀ d', count ≤ d' → d' < d → slotValid D d' ≠ 0) ∧
        createGo (some D) fuel bn count =
          (Int.ofNat d, owriteD (some D) (d / INODES_PER_BLOCK + 1)
            (setInodeValid (D.data (d / INODES_PER_BLOCK + 1))
              (d % INODES_PER_BLOCK) 1))) ∨
      ((∀ d, count ≤ d → d < INODES_PER_BLOCK * ib → slotValid D d ≠ 0) ∧
        createGo (some D) fuel bn count = (-1, some D)) := by
  intro fuel
  induction fuel with
  | zero =>
    intro bn count h1 h2 h3
    right
    refine ⟨?_, rfl⟩
    intro d hd1 hd2
    unfold INODES_PER_BLOCK at *
    omega
  | succ f ih =>
    intro bn count h1 h2 h3
    have hbn : bn < D.blocks := by omega
    have hble : 1 ≤ bn := h1
    have hblk : (oread (some D) bn).getD zeroBlock = D.data bn := by
      rw [oread_lt D bn hbn]; rfl
    simp only [createGo]
    rw [hblk]
    rcases createInBlock_spec (D.data bn) INODES_PER_BLOCK 0 count
        (Nat.zero_add _) with ⟨j, hj1, hj2, hj3, hj4, hj5⟩ | ⟨hall, hnone⟩
    · left
      have ed : count + j = (bn - 1) * INODES_PER_BLOCK + j := by rw [h3]
      refine ⟨count + j, Nat.le_add_right _ _, ?_, ?_, ?_, ?_⟩
      · unfold INODES_PER_BLOCK at *; omega
      · rw [ed, slotValid_block D bn j hble hj2]; exact hj3
      · intro d' ha hb
        have hd'j : d' - count < j := by omega
        have ed' : d' = (bn - 1) * INODES_PER_BLOCK + (d' - count) := by
          unfold INODES_PER_BLOCK at *; omega
        rw [ed', slotValid_block D bn (d' - count) hble
          (by unfold INODES_PER_BLOCK at *; omega)]
        exact hj4 (d' - count) (Nat.zero_le _) hd'j
      · rw [hj5]
        have e1 : (count + j) / INODES_PER_BLOCK + 1 = bn := by
          unfold INODES_PER_BLOCK at *; omega
        have e2 : (count + j) % INODES_PER_BLOCK = j := by
          unfold INODES_PER_BLOCK at *; omega
        rw [e1, e2]
        simp
    · rcases ih (bn + 1) (count + INODES_PER_BLOCK) (by omega) (by omega)
        (by unfold INODES_PER_BLOCK at *; omega) with
        ⟨d, hd1, hd2, hd3, hd4, hd5⟩ | ⟨hall2, heq⟩
      · left
        refine ⟨d, by omega, hd2, hd3, ?_, ?_⟩
        · intro d' ha hb
          by_cases hc : d' < count + INODES_PER_BLOCK
          · have ed' : d' = (bn - 1) * INODES_PER_BLOCK + (d' - count) := by
              unfold INODES_PER_BLOCK at *; omega
            rw [ed', slotValid_block D bn (d' - count) hble
              (by unfold INODES_PER_BLOCK at *; omega)]
            exact hall (d' - count) (Nat.zero_le _)
              (by unfold INODES_PER_BLOCK at *; omega)
          · exact hd4 d' (by omega) hb
        · rw [hnone]; exact hd5
      · right
        refine ⟨?_, ?_⟩
        · intro d ha hb
          by_cases hc : d < count + INODES_PER_BLOCK
          · have ed' : d = (bn - 1) * INODES_PER_BLOCK + (d - count) := by
              unfold INODES_PER_BLOCK at *; omega
            rw [ed', slotValid_block D bn (d - count) hble
              (by unfold INODES_PER_BLOCK at *; omega)]
            exact hall (d - count) (Nat.zero_le _)
              (by unfold INODES_PER_BLOCK at *; omega)
          · exact hall2 d (by omega) hb
        · rw [hnone]; exact heq

/-- C8: `fs_create` scans inode-table blocks and slots in ascending order,
marks the first invalid slot valid, persists that inode-table block, and
returns its dense inode number; with a fully valid table it returns `-1`
and leaves the engine unchanged. -/
theorem fs_create_spec (fs : FileSystem) (D : Disk)
    (hD : fs.disk = some D) (hib : fs.meta_data.inode_blocks < D.blocks) :
    CreateSpec fs D := by
  unfold CreateSpec inodeCapacity
  have h := createGo_spec D fs.meta_data.inode_blocks hib
    fs.meta_data.inode_blocks 1 0 (le_refl 1) (by omega) (by simp)
  unfold fs_create
  rw [hD]
  rcases h with ⟨d, hd1, hd2, hd3, hd4, hd5⟩ | ⟨hall, heq⟩
  · left
    refine ⟨d, hd2, hd3, fun d' hlt => hd4 d' (Nat.zero_le _) hlt, ?_⟩
    rw [hd5]
  · right
    refine ⟨fun d hlt => hall d (Nat.zero_le _) hlt, ?_⟩
    rw [heq]
    rw [← hD]

/-- Witness for `fs_create_spec` on the freshly mounted `fsM`. -/
theorem fs_create_spec_witness : CreateSpec fsM disk20 :=
  fs_create_spec fsM disk20 rfl (by decide)

/-- C6 (counterexample): `fsM` is already mounted (to `disk20`), yet
mounting the distinct valid disk `diskB` succeeds and replaces the
engine's disk reference, contradicting the claim that a mounted engine
refuses every disk argument. -/
theorem mount_different_disk_while_mounted_succeeds :
    fsM.disk.isSome = true ∧ diskB.ident ≠ disk20.ident ∧
    (fs_mount fsM diskB).1 = true ∧
    Option.map Disk.ident (fs_mount fsM diskB).2.disk = some diskB.ident := by
  decide

/-- Marking a block available keeps every already-available block. -/
theorem bmSet_mono (bm : Nat → Bool) (i p : Nat) (h : bm p = true) :
    bmSet bm i true p = true := by
  unfold bmSet
  split
  · rfl
  · exact h

/-- Marking a block available marks it. -/
theorem bmSet_self (bm : Nat → Bool) (i : Nat) : bmSet bm i true i = true := by
  unfold bmSet
  rw [if_pos rfl]

/-- The direct-release loop never clears availability. -/
theorem removeDirects_bm_mono (s : Nat) :
    ∀ fuel d0 blk bm p, bm p = true →
      (removeDirects s fuel d0 blk bm).2 p = true := by
  intro fuel
  induction fuel with
  | zero => intro d0 blk bm p h; exact h
  | succ f ih =>
    intro d0 blk bm p h
    rw [removeDirects]
    split
    · exact ih _ _ _ p (bmSet_mono _ _ _ h)
    · exact ih _ _ _ p h

/-- The indirect-entry release loop never clears availability. -/
theorem removeIndEntries_bm_mono :
    ∀ fuel p0 ind bm p, bm p = true →
      (removeIndEntries fuel p0 ind bm).2 p = true := by
  intro fuel
  induction fuel with
  | zero => intro p0 ind bm p h; exact h
  | succ f ih =>
    intro p0 ind bm p h
    rw [removeIndEntries]
    split
    · exact ih _ _ _ p (bmSet_mono _ _ _ h)
    · exact ih _ _ _ p h

/-- Every non-zero direct pointer in the scanned range ends up available
after the direct-release loop. -/
theorem removeDirects_frees (s : Nat) :
    ∀ fuel d0 blk bm d, d0 ≤ d → d < d0 + fuel →
      inodeDirect blk s d ≠ 0 →
      (removeDirects s fuel d0 blk bm).2 (inodeDirect blk s d) = true := by
  intro fuel
  induction fuel with
  | zero => intro d0 blk bm d h1 h2 h3; omega
  | succ f ih =>
    intro d0 blk bm d h1 h2 h3
    rw [removeDirects]
    by_cases he : d = d0
    · subst he
      rw [if_pos h3]
      exact removeDirects_bm_mono s f (d + 1) _ _ _ (bmSet_self _ _)
    · have hb : inodeDirect (setInodeDirect blk s d0 0) s d = inodeDirect blk s d :=
        inodeDirect_setDirect_same_slot blk s d d0 0 he
      split
      · rw [← hb]
        exact ih (d0 + 1) _ _ d (by omega) (by omega) (by rw [hb]; exact h3)
      · exact ih (d0 + 1) _ _ d (by omega) (by omega) h3

/-- Every non-zero entry of the indirect block in the scanned range ends
up available after the entry-release loop. -/
theorem removeIndEntries_frees :
    ∀ fuel p0 ind bm p, p0 ≤ p → p < p0 + fuel →
      blockPtr ind p ≠ 0 →
      (removeIndEntries fuel p0 ind bm).2 (blockPtr ind p) = true := by
  intro fuel
  induction fuel with
  | zero => intro p0 ind bm p h1 h2 h3; omega
  | succ f ih =>
    intro p0 ind bm p h1 h2 h3
    rw [removeIndEntries]
    by_cases he : p = p0
    · subst he
      rw [if_pos h3]
      exact removeIndEntries_bm_mono f (p + 1) _ _ _ (bmSet_self _ _)
    · have hb : blockPtr (setBlockPtr ind p0 0) p = blockPtr ind p :=
        blockPtr_setBlockPtr_ne ind p p0 0 he
      split
      · rw [← hb]
        exact ih (p0 + 1) _ _ p (by omega) (by omega) (by rw [hb]; exact h3)
      · exact ih (p0 + 1) _ _ p (by omega) (by omega) h3

/-- The direct-release loop never touches the indirect field. -/
theorem removeDirects_indirect (s : Nat) :
    ∀ fuel d0 blk bm, d0 + fuel ≤ POINTERS_PER_INODE →
      inodeIndirect (removeDirects s fuel d0 blk bm).1 s = inodeIndirect blk s := by
  intro fuel
  induction fuel with
  | zero => intro d0 blk bm h; rfl
  | succ f ih =>
    intro d0 blk bm h
    rw [removeDirects]
    split
    · rw [ih (d0 + 1) _ _ (by omega)]
      exact inodeIndirect_setDirect blk s s d0 0 (by omega)
    · exact ih (d0 + 1) _ _ (by omega)

/-- C7: on a mounted engine, for an inode number whose table block is
readable and whose indirect pointer (if any) is a readable block index:
when the slot is valid, `fs_remove` succeeds, a subsequent `fs_stat` of
the same inode returns `-1`, and every block reachable through the slot's
direct and indirect pointers is marked available in the bitmap; when the
slot is invalid, `fs_remove` fails and leaves the engine unchanged. -/
theorem fs_remove_spec (fs : FileSystem) (D : Disk) (bm : Nat → Bool) (n : Nat)
    (hD : fs.disk = some D) (hbm : fs.free_blocks = some bm)
    (hbn : n / INODES_PER_BLOCK + 1 < D.blocks)
    (hind : slotIndirect D n ≠ 0 → slotIndirect D n < D.blocks) :
    (slotValid D n ≠ 0 →
      (fs_remove fs n).1 = true ∧
      fs_stat (fs_remove fs n).2 n = -1 ∧
      (∀ idx, idx < PTRS_PER_SLOT → ptrVal D n idx ≠ 0 →
        fsBitmap (fs_remove fs n).2 (ptrVal D n idx) = true)) ∧
    (slotValid D n = 0 → fs_remove fs n = (false, fs)) := by
  unfold slotValid slotIndirect at *
  have hs128 : n % INODES_PER_BLOCK < INODES_PER_BLOCK := by
    unfold INODES_PER_BLOCK; omega
  have hblk : (oread (some D) (n / INODES_PER_BLOCK + 1)).getD zeroBlock =
      D.data (n / INODES_PER_BLOCK + 1) := by
    rw [oread_lt D _ hbn]; rfl
  constructor
  · intro hv
    simp only [fs_remove, hD, hbm, hblk, Option.getD_some, Option.map_some]
    rw [if_neg hv]
    have hindeq : inodeIndirect
        (removeDirects (n % INODES_PER_BLOCK) POINTERS_PER_INODE 0
          (D.data (n / INODES_PER_BLOCK + 1)) bm).1 (n % INODES_PER_BLOCK) =
        inodeIndirect (D.data (n / INODES_PER_BLOCK + 1)) (n % INODES_PER_BLOCK) :=
      removeDirects_indirect _ _ 0 _ bm (by omega)
    rw [hindeq]
    by_cases hi : inodeIndirect (D.data (n / INODES_PER_BLOCK + 1))
        (n % INODES_PER_BLOCK) = 0
    · rw [if_neg (by simp [hi])]
      refine ⟨rfl, ?_, ?_⟩
      · try dsimp only
        rw [owriteD_lt D _ _ hbn]
        simp only [fs_stat]
        rw [oread_lt _ _ (by exact hbn)]
        simp only [Option.getD_some]
        try dsimp only
        simp only [if_true]
        rw [inodeValid_truncBlock _ _ hs128, inodeValid_setValid_same]
        rw [if_neg (by simp)]
      · intro idx hidx hptr
        try dsimp only
        simp only [Option.map_some', Option.getD_some, fsBitmap]
        try dsimp only
        simp only [ptrVal] at hptr ⊢
        by_cases h5 : idx < POINTERS_PER_INODE
        · rw [if_pos h5] at hptr ⊢
          exact removeDirects_frees _ _ 0 _ bm idx (Nat.zero_le _) (by omega) hptr
        · rw [if_neg h5] at hptr
          by_cases h6 : idx = POINTERS_PER_INODE
          · rw [if_pos h6] at hptr
            exact absurd hi hptr
          · rw [if_neg h6, if_neg (by simp [hi])] at hptr
            exact absurd rfl hptr
    · rw [if_pos hi]
      have hilt := hind hi
      refine ⟨rfl, ?_, ?_⟩
      · try dsimp only
        rw [oread_lt _ _ hilt]
        simp only [Option.getD_some]
        rw [owriteD_lt D _ _ hilt]
        rw [owriteD_lt _ _ _ (by exact hbn)]
        simp only [fs_stat]
        rw [oread_lt _ _ (by exact hbn)]
        simp only [Option.getD_some]
        try dsimp only
        simp only [if_true]
        rw [inodeValid_truncBlock _ _ hs128, inodeValid_setValid_same]
        rw [if_neg (by simp)]
      · intro idx hidx hptr
        try dsimp only
        rw [oread_lt _ _ hilt]
        simp only [Option.map_some', Option.getD_some, fsBitmap]
        try dsimp only
        simp only [ptrVal] at hptr ⊢
        by_cases h5 : idx < POINTERS_PER_INODE
        · rw [if_pos h5] at hptr ⊢
          exact bmSet_mono _ _ _ (removeIndEntries_bm_mono _ 0 _ _ _
            (removeDirects_frees _ _ 0 _ bm idx (Nat.zero_le _) (by omega) hptr))
        · rw [if_neg h5] at hptr ⊢
          by_cases h6 : idx = POINTERS_PER_INODE
          · rw [if_pos h6] at hptr ⊢
            exact bmSet_self _ _
          · rw [if_neg h6] at hptr ⊢
            rw [if_pos hi] at hptr ⊢
            exact bmSet_mono _ _ _ (removeIndEntries_frees _ 0 _ _ (idx - 6)
              (Nat.zero_le _)
              (by unfold PTRS_PER_SLOT POINTERS_PER_BLOCK at *; omega) hptr)
  · intro hv
    simp only [fs_remove, hD, hbm, hblk, Option.getD_some, Option.map_some]
    rw [if_pos hv]

/-- Witness for `fs_remove_spec` on `fsC5` (valid inode 0, size 5, no
pointers). -/
theorem fs_remove_spec_witness :
    (slotValid diskC5 0 ≠ 0 →
      (fs_remove fsC5 0).1 = true ∧
      fs_stat (fs_remove fsC5 0).2 0 = -1 ∧
      (∀ idx, idx < PTRS_PER_SLOT → ptrVal diskC5 0 idx ≠ 0 →
        fsBitmap (fs_remove fsC5 0).2 (ptrVal diskC5 0 idx) = true)) ∧
    (slotValid diskC5 0 = 0 → fs_remove fsC5 0 = (false, fsC5)) :=
  fs_remove_spec fsC5 diskC5 (fsBitmap fsC5) 0 rfl rfl (by decide) (by decide)

/-- Inversion of a checked `disk_write`: success pins the block index in
range and the result disk. -/
theorem owriteChk_some_inv (D d1 : Disk) (b : Nat) (f : BlockFn)
    (h : owriteChk (some D) b f = some d1) :
    b < D.blocks ∧ d1 = ⟨D.ident, D.blocks,
      fun b' => if b' = b then truncBlock f else D.data b'⟩ := by
  unfold owriteChk Disk.writeBlock at h
  simp only [Option.some_bind] at h
  by_cases hb : b < D.blocks
  · rw [if_pos hb] at h
    refine ⟨hb, ?_⟩
    cases h
    rfl
  · rw [if_neg hb] at h
    cases h

/-- One-iteration step lemma for the size bookkeeping of the write loop:
after an iteration persists the inode-table block, the remaining loop
either fails with `-1` or ends with the stored size equal to the running
maximum. -/
theorem writeGo_size_tail (mblocks : Nat) (dat : Nat → Nat) (len off bnum s : Nat)
    (hs : s < INODES_PER_BLOCK) (hoff : off + len < U32) (f : Nat)
    (ih : ∀ nwrite dblock doff ncopy blk od D0 bm, od = some D0 → bnum < D0.blocks →
      loopInv len nwrite ncopy → (0 < nwrite → D0.data bnum = truncBlock blk) →
      (len ≤ nwrite → off + len ≤ inodeSize blk s) → inodeSize blk s < U32 →
      (writeGo mblocks dat len off bnum s f nwrite dblock doff ncopy blk od bm).1 = -1 ∨
      (∃ D', (writeGo mblocks dat len off bnum s f nwrite dblock doff ncopy blk od bm).2.1 = some D' ∧
        D'.blocks = D0.blocks ∧
        inodeSize (D'.data bnum) s = max (inodeSize blk s) (off + len) ∧
        inodeValid (D'.data bnum) s = inodeValid blk s ∧
        (writeGo mblocks dat len off bnum s f nwrite dblock doff ncopy blk od bm).1 = Int.ofNat len))
    (nwrite dblock ncopy : Nat) (blk blk1 : BlockFn) (D0 d1 : Disk) (bm1 : Nat → Bool)
    (hbn : bnum < D0.blocks) (hd1 : d1.blocks = D0.blocks)
    (hlt : nwrite < len) (h3 : nwrite + ncopy ≤ len) (h4 : 1 ≤ ncopy)
    (hsz1 : inodeSize blk1 s = inodeSize blk s)
    (hvd1 : inodeValid blk1 s = inodeValid blk s)
    (hszlt : inodeSize blk s < U32) :
    (writeGo mblocks dat len off bnum s f (nwrite + ncopy) (dblock + 1) 0
        (nextNcopy len (nwrite + ncopy))
        (if inodeSize blk1 s < (off + (nwrite + ncopy)) % U64 then
          setInodeSize blk1 s ((off + (nwrite + ncopy)) % U64) else blk1)
        (owriteD (some d1) bnum
          (if inodeSize blk1 s < (off + (nwrite + ncopy)) % U64 then
            setInodeSize blk1 s ((off + (nwrite + ncopy)) % U64) else blk1)) bm1).1 = -1 ∨
    (∃ D', (writeGo mblocks dat len off bnum s f (nwrite + ncopy) (dblock + 1) 0
        (nextNcopy len (nwrite + ncopy))
        (if inodeSize blk1 s < (off + (nwrite + ncopy)) % U64 then
          setInodeSize blk1 s ((off + (nwrite + ncopy)) % U64) else blk1)
        (owriteD (some d1) bnum
          (if inodeSize blk1 s < (off + (nwrite + ncopy)) % U64 then
            setInodeSize blk1 s ((off + (nwrite + ncopy)) % U64) else blk1)) bm1).2.1 = some D' ∧
      D'.blocks = D0.blocks ∧
      inodeSize (D'.data bnum) s = max (inodeSize blk s) (off + len) ∧
      inodeValid (D'.data bnum) s = inodeValid blk s ∧
      (writeGo mblocks dat len off bnum s f (nwrite + ncopy) (dblock + 1) 0
        (nextNcopy len (nwrite + ncopy))
        (if inodeSize blk1 s < (off + (nwrite + ncopy)) % U64 then
          setInodeSize blk1 s ((off + (nwrite + ncopy)) % U64) else blk1)
        (owriteD (some d1) bnum
          (if inodeSize blk1 s < (off + (nwrite + ncopy)) % U64 then
            setInodeSize blk1 s ((off + (nwrite + ncopy)) % U64) else blk1)) bm1).1 =
        Int.ofNat len) := by
  have hmod : (off + (nwrite + ncopy)) % U64 = off + (nwrite + ncopy) :=
    Nat.mod_eq_of_lt (by unfold U32 U64 at *; omega)
  generalize hblk2 : (if inodeSize blk1 s < (off + (nwrite + ncopy)) % U64 then
      setInodeSize blk1 s ((off + (nwrite + ncopy)) % U64) else blk1) = blk2
  have hsz2 : inodeSize blk2 s = max (inodeSize blk s) (off + (nwrite + ncopy)) := by
    rw [← hblk2]
    split
    · rename_i hc
      rw [inodeSize_setSize_same, hmod]
      rw [hsz1, hmod] at hc
      have hv32 : off + (nwrite + ncopy) < U32 := by unfold U32 at *; omega
      rw [Nat.mod_eq_of_lt hv32]
      omega
    · rename_i hc
      rw [hsz1]
      rw [hsz1, hmod] at hc
      omega
  have hvd2 : inodeValid blk2 s = inodeValid blk s := by
    rw [← hblk2]
    split
    · rw [inodeValid_setSize, hvd1]
    · rw [hvd1]
  rw [owriteD_lt d1 bnum _ (by rw [hd1]; exact hbn)]
  rcases ih (nwrite + ncopy) (dblock + 1) 0 (nextNcopy len (nwrite + ncopy)) blk2
      (some (⟨d1.ident, d1.blocks,
        fun b' => if b' = bnum then truncBlock blk2 else d1.data b'⟩ : Disk))
      (⟨d1.ident, d1.blocks,
        fun b' => if b' = bnum then truncBlock blk2 else d1.data b'⟩ : Disk) bm1
      rfl (by show bnum < d1.blocks; rw [hd1]; exact hbn)
      (by
        constructor
        · omega
        · intro h5
          unfold nextNcopy BLOCK_SIZE
          constructor
          · split <;> omega
          · split <;> omega)
      (by
        intro h5
        show (if bnum = bnum then truncBlock blk2 else d1.data bnum) = truncBlock blk2
        rw [if_pos rfl])
      (by intro h5; rw [hsz2]; omega)
      (by rw [hsz2]; unfold U32 at *; omega) with hres | ⟨D', hd', hbl, hszf, hvdf, hret⟩
  · left; exact hres
  · right
    refine ⟨D', hd', by rw [hbl]; exact hd1, ?_, by rw [hvdf, hvd2], hret⟩
    rw [hszf, hsz2]
    omega

set_option maxHeartbeats 1000000 in
/-- Size bookkeeping of the whole write loop: from any loop state on a
live disk, the loop either aborts with `-1` or succeeds returning the
full length, leaving on disk an inode whose `size` is the maximum of its
size at loop entry and `offset + length`, with `valid` untouched. -/
theorem writeGo_size_go (mblocks : Nat) (dat : Nat → Nat) (len off bnum s : Nat)
    (hs : s < INODES_PER_BLOCK) (hoff : off + len < U32) (hlen : 0 < len) :
    ∀ fuel nwrite dblock doff ncopy blk od D0 bm, od = some D0 → bnum < D0.blocks →
      loopInv len nwrite ncopy → (0 < nwrite → D0.data bnum = truncBlock blk) →
      (len ≤ nwrite → off + len ≤ inodeSize blk s) → inodeSize blk s < U32 →
      (writeGo mblocks dat len off bnum s fuel nwrite dblock doff ncopy blk od bm).1 = -1 ∨
      (∃ D', (writeGo mblocks dat len off bnum s fuel nwrite dblock doff ncopy blk od bm).2.1 = some D' ∧
        D'.blocks = D0.blocks ∧
        inodeSize (D'.data bnum) s = max (inodeSize blk s) (off + len) ∧
        inodeValid (D'.data bnum) s = inodeValid blk s ∧
        (writeGo mblocks dat len off bnum s fuel nwrite dblock doff ncopy blk od bm).1 = Int.ofNat len) := by
  intro fuel
  induction fuel with
  | zero =>
    intro nwrite dblock doff ncopy blk od D0 bm hod hbn hinv hdata hsz hszlt
    left; rfl
  | succ f ih =>
    intro nwrite dblock doff ncopy blk od D0 bm hod hbn hinv hdata hsz hszlt
    subst hod
    obtain ⟨h1, h2⟩ := hinv
    simp only [writeGo]
    by_cases hlt : nwrite < len
    case neg =>
      rw [if_neg hlt]
      right
      refine ⟨D0, rfl, rfl, ?_, ?_, ?_⟩
      · rw [hdata (by omega), inodeSize_truncBlock _ _ hs]
        have := hsz (by omega)
        omega
      · rw [hdata (by omega), inodeValid_truncBlock _ _ hs]
      · rw [show nwrite = len from by omega]
    case pos =>
      rw [if_pos hlt]
      obtain ⟨h3, h4⟩ := h2 hlt
      by_cases hdb : dblock < POINTERS_PER_INODE
      · rw [if_pos hdb]
        by_cases hc : inodeDirect blk s dblock = 0
        · rw [if_pos hc]
          by_cases hz : (find_free_block mblocks bm).1 = 0
          · rw [if_pos hz]
            left; rfl
          · rw [if_neg hz]
            try dsimp only
            split
            · left; rfl
            · rename_i db heq2
              split
              · left; rfl
              · rename_i d1 heq3
                obtain ⟨htgt, hd1eq⟩ := owriteChk_some_inv D0 d1 _ _ heq3
                subst hd1eq
                exact writeGo_size_tail mblocks dat len off bnum s hs hoff f ih
                  nwrite dblock ncopy blk _ D0 _ _ hbn rfl hlt h3 h4
                  (inodeSize_setDirect blk s s dblock _ hdb)
                  (inodeValid_setDirect blk s s dblock _ hdb) hszlt
        · rw [if_neg hc]
          try dsimp only
          split
          · left; rfl
          · rename_i db heq2
            split
            · left; rfl
            · rename_i d1 heq3
              obtain ⟨htgt, hd1eq⟩ := owriteChk_some_inv D0 d1 _ _ heq3
              subst hd1eq
              exact writeGo_size_tail mblocks dat len off bnum s hs hoff f ih
                nwrite dblock ncopy blk blk D0 _ bm hbn rfl hlt h3 h4 rfl rfl hszlt
      · rw [if_neg hdb]
        by_cases hci : inodeIndirect blk s = 0
        · rw [if_pos hci]
          by_cases hzi : (find_free_block mblocks bm).1 = 0
          · rw [if_pos hzi]
            left; rfl
          · rw [if_neg hzi]
            try dsimp only
            rw [show blockPtr zeroBlock (dblock - POINTERS_PER_INODE) = 0 from rfl]
            rw [if_pos rfl]
            by_cases hz2 : (find_free_block mblocks (find_free_block mblocks bm).2).1 = 0
            · rw [if_pos hz2]
              left; rfl
            · rw [if_neg hz2]
              try dsimp only
              rw [if_pos rfl]
              cases hW : owriteChk (some D0)
                  (inodeIndirect (setInodeIndirect blk s (find_free_block mblocks bm).1) s)
                  (setBlockPtr zeroBlock (dblock - POINTERS_PER_INODE)
                    (find_free_block mblocks (find_free_block mblocks bm).2).1) with
              | none => left; rfl
              | some dW =>
                try dsimp only
                split
                · left; rfl
                · rename_i d1 heq4
                  obtain ⟨htgtW, hdWeq⟩ := owriteChk_some_inv D0 dW _ _ hW
                  subst hdWeq
                  obtain ⟨htgt1, hd1eq⟩ := owriteChk_some_inv _ d1 _ _ heq4
                  subst hd1eq
                  exact writeGo_size_tail mblocks dat len off bnum s hs hoff f ih
                    nwrite dblock ncopy blk _ D0 _ _ hbn rfl hlt h3 h4
                    (inodeSize_setIndirect blk s s _)
                    (inodeValid_setIndirect blk s s _) hszlt
        · rw [if_neg hci]
          cases hRdI : oread (some D0) (inodeIndirect blk s) with
          | none => left; rfl
          | some ind =>
            try dsimp only
            by_cases hz2 : blockPtr ind (dblock - POINTERS_PER_INODE) = 0
            · rw [if_pos hz2]
              by_cases hz3 : (find_free_block mblocks bm).1 = 0
              · rw [if_pos hz3]
                left; rfl
              · rw [if_neg hz3]
                try dsimp only
                rw [if_pos rfl]
                cases hW : owriteChk (some D0) (inodeIndirect blk s)
                    (setBlockPtr ind (dblock - POINTERS_PER_INODE)
                      (find_free_block mblocks bm).1) with
                | none => left; rfl
                | some dW =>
                  try dsimp only
                  split
                  · left; rfl
                  · rename_i d1 heq4
                    obtain ⟨htgtW, hdWeq⟩ := owriteChk_some_inv D0 dW _ _ hW
                    subst hdWeq
                    obtain ⟨htgt1, hd1eq⟩ := owriteChk_some_inv _ d1 _ _ heq4
                    subst hd1eq
                    exact writeGo_size_tail mblocks dat len off bnum s hs hoff f ih
                      nwrite dblock ncopy blk blk D0 _ _ hbn rfl hlt h3 h4 rfl rfl hszlt
            · rw [if_neg hz2]
              try dsimp only
              rw [if_neg Bool.false_ne_true]
              cases hRd : oread (some D0) (blockPtr ind (dblock - POINTERS_PER_INODE)) with
              | none => left; rfl
              | some db =>
                try dsimp only
                split
                · left; rfl
                · rename_i d1 heq4
                  obtain ⟨htgt1, hd1eq⟩ := owriteChk_some_inv D0 d1 _ _ heq4
                  subst hd1eq
                  exact writeGo_size_tail mblocks dat len off bnum s hs hoff f ih
                    nwrite dblock ncopy blk blk D0 _ _ hbn rfl hlt h3 h4 rfl rfl hszlt

/-- C9 (amended, requiring `length ≥ 1`): after each block the write loop
raises the in-memory size to `max(size, offset + bytes_written)` and
persists the inode-table block, so a successful `fs_write` of `L ≥ 1`
bytes at offset `O` leaves `fs_stat` equal to `max(old_size, O + L)`. -/
theorem fs_write_size_spec (fs : FileSystem) (D : Disk) (n L O : Nat) (dat : Nat → Nat)
    (hD : fs.disk = some D)
    (hbn : n / INODES_PER_BLOCK + 1 < D.blocks)
    (hL : 1 ≤ L) (hO : O + L < U32) (hsz32 : slotSize D n < U32)
    (hres : (fs_write fs n dat L O).1 = Int.ofNat L) :
    fs_stat (fs_write fs n dat L O).2 n = Int.ofNat (max (slotSize D n) (O + L)) := by
  unfold slotSize at *
  have hs128 : n % INODES_PER_BLOCK < INODES_PER_BLOCK := by
    unfold INODES_PER_BLOCK; omega
  have hL64 : L < U64 := by simp only [U32, U64] at *; omega
  have hO64 : O < U64 := by simp only [U32, U64] at *; omega
  have hblk : (oread (some D) (n / INODES_PER_BLOCK + 1)).getD zeroBlock =
      D.data (n / INODES_PER_BLOCK + 1) := by
    rw [oread_lt D _ hbn]; rfl
  simp only [fs_write, hD, hblk] at hres ⊢
  rw [Nat.mod_eq_of_lt hL64, Nat.mod_eq_of_lt hO64] at hres ⊢
  by_cases hval : inodeValid (D.data (n / INODES_PER_BLOCK + 1)) (n % INODES_PER_BLOCK) = 0
  · rw [if_pos hval] at hres
    dsimp only at hres
    exact absurd hres (by simp only [Int.ofNat_eq_coe]; omega)
  · rw [if_neg hval] at hres ⊢
    dsimp only at hres ⊢
    rcases writeGo_size_go fs.meta_data.blocks dat L O (n / INODES_PER_BLOCK + 1)
        (n % INODES_PER_BLOCK) hs128 hO (by omega)
        (L + 1) 0 (O / BLOCK_SIZE) (O % BLOCK_SIZE) (firstNcopy L (O % BLOCK_SIZE))
        (D.data (n / INODES_PER_BLOCK + 1)) (some D) D
        (fs.free_blocks.getD (fun _ => false))
        rfl hbn (loopInv_first L _ (Nat.mod_lt _ (by decide)))
        (fun h => absurd h (by omega))
        (fun h => absurd h (by omega))
        hsz32 with hfail | ⟨D', hD', hbl, hsize, hvalid, hret⟩
    · rw [hfail] at hres
      exact absurd hres (by simp only [Int.ofNat_eq_coe]; omega)
    · rw [hD']
      simp only [fs_stat]
      try dsimp only
      rw [oread_lt D' _ (by rw [hbl]; exact hbn)]
      simp only [Option.getD_some]
      rw [hvalid]
      rw [if_pos hval]
      rw [hsize]

/-- Witness for `fs_write_size_spec`: a 1-byte write at offset 0 on `fsC`
leaves the stored size at `max 0 1 = 1`. -/
theorem fs_write_size_spec_witness :
    fs_stat (fs_write fsC 0 (fun _ => 9) 1 0).2 0 =
      Int.ofNat (max (slotSize diskC 0) (0 + 1)) :=
  fs_write_size_spec fsC diskC 0 1 0 (fun _ => 9) rfl (by decide) (by decide)
    (by decide) (by decide) (by decide)

/-- C9 (counterexample): a successful `fs_write` of 0 bytes at offset 100
returns 0 (success) yet leaves the stored size at 0, not
`max(old_size, offset + 0) = 100` as the claim as stated requires. -/
theorem write_zero_length_no_size_update :
    inodeSize (tableBlockOf fsC 0) 0 = 0 ∧
    (fs_write fsC 0 (fun _ => 1) 0 100).1 = 0 ∧
    fs_stat (fs_write fsC 0 (fun _ => 1) 0 100).2 0 = 0 := by
  decide


/-- Inverting a successful block read: the index is in range and the block
returned is the stored one. -/
theorem oread_some_inv (D : Disk) (b : Nat) (f : BlockFn)
    (h : oread (some D) b = some f) : b < D.blocks ∧ f = D.data b := by
  by_cases hb : b < D.blocks
  · rw [oread_lt D b hb] at h
    exact ⟨hb, (Option.some_inj.mp h).symm⟩
  · rw [oread_ge D b hb] at h
    cases h

/-- Truncation is invisible inside the persisted range. -/
theorem truncBlock_lt (f : BlockFn) (i : Nat) (h : i < BLOCK_SIZE) :
    truncBlock f i = f i := by
  unfold truncBlock
  rw [if_pos h]

/-- Truncation keeps bytes bytes. -/
theorem truncBlock_bytes (f : BlockFn) (h : ∀ o, f o < 256) (o : Nat) :
    truncBlock f o < 256 := by
  unfold truncBlock
  split
  · exact h o
  · decide

/-- Truncation zeroes everything past the persisted range. -/
theorem truncBlock_zero_ge (f : BlockFn) (o : Nat) (h : BLOCK_SIZE ≤ o) :
    truncBlock f o = 0 := by
  unfold truncBlock
  rw [if_neg (by omega)]

/-- A block function vanishing past the persisted range is fixed by
truncation. -/
theorem truncBlock_eq_self (f : BlockFn) (h : ∀ o, BLOCK_SIZE ≤ o → f o = 0) :
    truncBlock f = f := by
  funext o
  unfold truncBlock
  split
  · rfl
  · rename_i ho
    exact (h o (by omega)).symm

/-- A u32 store keeps bytes bytes. -/
theorem writeU32_bytes (f : BlockFn) (o v : Nat) (h : ∀ i, f i < 256) (i : Nat) :
    writeU32 f o v i < 256 := by
  unfold writeU32 writeByte
  split
  · exact Nat.mod_lt _ (by decide)
  · split
    · exact Nat.mod_lt _ (by decide)
    · split
      · exact Nat.mod_lt _ (by decide)
      · split
        · exact Nat.mod_lt _ (by decide)
        · exact h i

/-- The block-buffer `memcpy` keeps bytes bytes. -/
theorem memcpyIn_bytes (dst : BlockFn) (o : Nat) (src : Nat → Nat) (so n : Nat)
    (h : ∀ i, dst i < 256) (i : Nat) : memcpyIn dst o src so n i < 256 := by
  unfold memcpyIn
  split
  · exact Nat.mod_lt _ (by decide)
  · exact h i

/-- Reading back a byte covered by the block-buffer `memcpy`. -/
theorem memcpyIn_in (dst : BlockFn) (o : Nat) (src : Nat → Nat) (so n i : Nat)
    (h1 : o ≤ i) (h2 : i < o + n) :
    memcpyIn dst o src so n i = src (so + (i - o)) % 256 := by
  unfold memcpyIn
  rw [if_pos ⟨h1, h2⟩]

/-- The free-block scan either finds nothing (returning index 0 with the
bitmap untouched) or returns an available index below the scan bound with
exactly that bit cleared. -/
theorem findFreeGo_cases (mblocks fuel : Nat) : ∀ i bm,
    findFreeGo mblocks fuel i bm = (0, bm) ∨
    (bm (findFreeGo mblocks fuel i bm).1 = true ∧
      (findFreeGo mblocks fuel i bm).1 < mblocks ∧
      (findFreeGo mblocks fuel i bm).2 =
        bmSet bm (findFreeGo mblocks fuel i bm).1 false) := by
  induction fuel with
  | zero => intro i bm; exact Or.inl rfl
  | succ f ih =>
    intro i bm
    simp only [findFreeGo]
    by_cases hi : i < mblocks
    · rw [if_pos hi]
      by_cases hb : bm i = true
      · rw [if_pos hb]
        exact Or.inr ⟨hb, hi, rfl⟩
      · rw [if_neg hb]
        exact ih (i + 1) bm
    · rw [if_neg hi]
      exact Or.inl rfl

/-- `find_free_block` either finds nothing or returns an available
in-bound index with exactly that bit cleared. -/
theorem find_free_block_cases (mblocks : Nat) (bm : Nat → Bool) :
    find_free_block mblocks bm = (0, bm) ∨
    (bm (find_free_block mblocks bm).1 = true ∧
      (find_free_block mblocks bm).1 < mblocks ∧
      (find_free_block mblocks bm).2 =
        bmSet bm (find_free_block mblocks bm).1 false) :=
  findFreeGo_cases mblocks mblocks 0 bm

/-- Clearing one bit can only lose availability. -/
theorem bmSet_false_mono (bm : Nat → Bool) (i q : Nat)
    (h : bmSet bm i false q = true) : bm q = true := by
  unfold bmSet at h
  split at h
  · cases h
  · exact h

/-- An index still available after a clear is not the cleared one. -/
theorem bmSet_false_ne (bm : Nat → Bool) (i q : Nat)
    (h : bmSet bm i false q = true) : q ≠ i := by
  intro hq
  subst hq
  unfold bmSet at h
  rw [if_pos rfl] at h
  cases h

/-- The cleared bit itself reads back unavailable. -/
theorem bmSet_false_self (bm : Nat → Bool) (i : Nat) :
    bmSet bm i false i = false := by
  unfold bmSet
  rw [if_pos rfl]

/-- Splitting a mapped range at an interior point. -/
theorem range_map_split (a b : Nat) (f : Nat → Nat) :
    (List.range (a + b)).map f =
      (List.range a).map f ++ (List.range b).map (fun j => f (a + j)) := by
  rw [List.range_add, List.map_append, List.map_map]
  rfl

/-- Reassembling the returned byte list: the chunk just read followed by
the rest of the walk is the whole remaining range. -/
theorem readback_chunk_append (dat : Nat → Nat) (len nwrite ncopy : Nat)
    (acc chunk : List Nat)
    (hchunk : chunk = (List.range ncopy).map (fun j => dat (nwrite + j) % 256))
    (h3 : nwrite + ncopy ≤ len) :
    (acc ++ chunk) ++ (List.range (len - (nwrite + ncopy))).map
        (fun j => dat (nwrite + ncopy + j) % 256) =
      acc ++ (List.range (len - nwrite)).map (fun j => dat (nwrite + j) % 256) := by
  subst hchunk
  rw [List.append_assoc]
  congr 1
  rw [show len - nwrite = ncopy + (len - (nwrite + ncopy)) from by omega]
  rw [range_map_split]
  congr 1
  apply List.map_congr_left
  intro j hj
  rw [show nwrite + (ncopy + j) = nwrite + ncopy + j from by omega]

/-- Tail lemma of the write/read round-trip, direct-pointer region: after
one direct-region iteration writing the chunk to block `P` (freshly
allocated or pre-existing) and persisting the inode-table block, the rest
of the loop fails or yields the full postcondition relative to the
iteration's entry state. -/
theorem writeGo_readback_tail_dir (mblocks : Nat) (dat : Nat → Nat)
    (len off bnum s : Nat) (f : Nat)
    (ih : ∀ nwrite dblock doff ncopy blk D0 bm,
      WriteLoopInv mblocks len off bnum s nwrite dblock doff ncopy blk D0 bm →
      (writeGo mblocks dat len off bnum s f nwrite dblock doff ncopy blk
        (some D0) bm).1 = -1 ∨
      ∃ Df blkF, WriteLoopPost mblocks dat len off bnum s nwrite dblock doff
        ncopy blk D0 bm
        (writeGo mblocks dat len off bnum s f nwrite dblock doff ncopy blk
          (some D0) bm) Df blkF)
    (nwrite dblock doff ncopy : Nat) (blk blk1 db : BlockFn) (D0 : Disk)
    (bm bm1 : Nat → Bool) (P : Nat)
    (hI : WriteLoopInv mblocks len off bnum s nwrite dblock doff ncopy blk D0 bm)
    (hlt : nwrite < len) (hdb : dblock < POINTERS_PER_INODE)
    (hP1 : inodeDirect blk1 s dblock = P)
    (hb1d : ∀ d, d < POINTERS_PER_INODE → d ≠ dblock →
      inodeDirect blk1 s d = inodeDirect blk s d)
    (hb1i : inodeIndirect blk1 s = inodeIndirect blk s)
    (hb1b : ∀ o, blk1 o < 256)
    (hdbeq : db = D0.data P)
    (hP0 : P ≠ 0) (hPb : P ≠ bnum) (hPlt : P < D0.blocks)
    (hPd : ∀ d, d < POINTERS_PER_INODE → d ≠ dblock → inodeDirect blk s d ≠ P)
    (hPi : inodeIndirect blk s ≠ P)
    (hPe : inodeIndirect blk s ≠ 0 → ∀ j, j < POINTERS_PER_BLOCK →
      blockPtr (D0.data (inodeIndirect blk s)) j ≠ P)
    (hshape : (bm1 = bm ∧ inodeDirect blk s dblock = P) ∨
      (bm1 = bmSet bm P false ∧ bm P = true ∧ P < mblocks)) :
    (writeGo mblocks dat len off bnum s f (nwrite + ncopy) (dblock + 1) 0
        (nextNcopy len (nwrite + ncopy))
        (if inodeSize blk1 s < (off + (nwrite + ncopy)) % U64 then
          setInodeSize blk1 s ((off + (nwrite + ncopy)) % U64) else blk1)
        (owriteD (some (⟨D0.ident, D0.blocks, fun bp =>
            if bp = P then truncBlock (memcpyIn db doff dat nwrite ncopy)
            else D0.data bp⟩ : Disk)) bnum
          (if inodeSize blk1 s < (off + (nwrite + ncopy)) % U64 then
            setInodeSize blk1 s ((off + (nwrite + ncopy)) % U64) else blk1))
        bm1).1 = -1 ∨
    ∃ Df blkF, WriteLoopPost mblocks dat len off bnum s nwrite dblock doff ncopy
      blk D0 bm
      (writeGo mblocks dat len off bnum s f (nwrite + ncopy) (dblock + 1) 0
        (nextNcopy len (nwrite + ncopy))
        (if inodeSize blk1 s < (off + (nwrite + ncopy)) % U64 then
          setInodeSize blk1 s ((off + (nwrite + ncopy)) % U64) else blk1)
        (owriteD (some (⟨D0.ident, D0.blocks, fun bp =>
            if bp = P then truncBlock (memcpyIn db doff dat nwrite ncopy)
            else D0.data bp⟩ : Disk)) bnum
          (if inodeSize blk1 s < (off + (nwrite + ncopy)) % U64 then
            setInodeSize blk1 s ((off + (nwrite + ncopy)) % U64) else blk1))
        bm1) Df blkF := by
  obtain ⟨hle, hco⟩ := hI.inv
  obtain ⟨h3, h4⟩ := hco hlt
  have hs := hI.s_lt
  have halign : off + nwrite = dblock * BLOCK_SIZE + doff := by
    rcases hI.align with h | h
    · exact h
    · omega
  have hbm1P : ∀ q, q < mblocks → bm1 q = true → q ≠ P := by
    rcases hshape with ⟨hbe, hPex⟩ | ⟨hbe, hPT, hPm⟩
    · subst hbe
      intro q hq hqT heq
      subst heq
      obtain ⟨-, -, -, hdirs, -, -⟩ := hI.bmA q hq hqT
      exact hdirs dblock hdb hPex
    · subst hbe
      intro q hq hqT heq
      subst heq
      rw [bmSet_false_self] at hqT
      cases hqT
  have hbm1mono : ∀ q, bm1 q = true → bm q = true := by
    rcases hshape with ⟨hbe, -⟩ | ⟨hbe, -, -⟩
    · subst hbe; exact fun q h => h
    · subst hbe; exact fun q h => bmSet_false_mono bm P q h
  generalize hblk2 : (if inodeSize blk1 s < (off + (nwrite + ncopy)) % U64 then
      setInodeSize blk1 s ((off + (nwrite + ncopy)) % U64) else blk1) = blk2
  have hb2d : ∀ d, d < POINTERS_PER_INODE →
      inodeDirect blk2 s d = inodeDirect blk1 s d := by
    intro d hd
    rw [← hblk2]
    split
    · exact inodeDirect_setSize blk1 s s d _ hd
    · rfl
  have hb2i : inodeIndirect blk2 s = inodeIndirect blk s := by
    rw [← hblk2]
    split
    · rw [inodeIndirect_setSize, hb1i]
    · exact hb1i
  have hb2b : ∀ o, blk2 o < 256 := by
    intro o
    rw [← hblk2]
    split
    · exact writeU32_bytes _ _ _ hb1b o
    · exact hb1b o
  rw [owriteD_lt _ bnum blk2 (by exact hI.bnum_lt)]
  try dsimp only
  have hInv : WriteLoopInv mblocks len off bnum s (nwrite + ncopy) (dblock + 1) 0
      (nextNcopy len (nwrite + ncopy)) blk2
      (⟨D0.ident, D0.blocks, fun bp =>
        if bp = bnum then truncBlock blk2
        else if bp = P then truncBlock (memcpyIn db doff dat nwrite ncopy)
        else D0.data bp⟩ : Disk) bm1 := by
    refine {
      inv := loopInv_next len nwrite ncopy hI.inv hlt
      doff_lt := by unfold BLOCK_SIZE; omega
      chunk := by unfold nextNcopy BLOCK_SIZE; split <;> omega
      chunkFull := by
        unfold nextNcopy BLOCK_SIZE
        split
        · left; omega
        · right; omega
      align := by
        rcases hI.chunkFull with hcf | hcf
        · left
          unfold BLOCK_SIZE at *
          omega
        · right; omega
      maxfile := hI.maxfile
      bnum_lt := hI.bnum_lt
      s_lt := hI.s_lt
      blocks32 := hI.blocks32
      bytesD := ?_
      dataTrunc := ?_
      bytesB := hb2b
      data_bnum := ?_
      dirR := ?_
      indR := ?_
      entR := ?_
      dd := ?_
      di := ?_
      de := ?_
      ie := ?_
      ee := ?_
      bmA := ?_ }
    · -- bytesD
      intro b o
      try dsimp only
      by_cases h1 : b = bnum
      · rw [if_pos h1]; exact truncBlock_bytes _ hb2b o
      · rw [if_neg h1]
        by_cases h2 : b = P
        · rw [if_pos h2]
          exact truncBlock_bytes _ (memcpyIn_bytes _ _ _ _ _
            (by rw [hdbeq]; exact fun i => hI.bytesD P i)) o
        · rw [if_neg h2]; exact hI.bytesD b o
    · -- dataTrunc
      intro b o ho
      try dsimp only
      by_cases h1 : b = bnum
      · rw [if_pos h1]; exact truncBlock_zero_ge _ o ho
      · rw [if_neg h1]
        by_cases h2 : b = P
        · rw [if_pos h2]; exact truncBlock_zero_ge _ o ho
        · rw [if_neg h2]; exact hI.dataTrunc b o ho
    · -- data_bnum
      intro h
      try dsimp only
      rw [if_pos rfl]
    · -- dirR
      intro d hd hne
      rw [hb2d d hd] at hne ⊢
      by_cases hdd : d = dblock
      · subst hdd
        rw [hP1] at hne ⊢
        exact ⟨hPb, hPlt⟩
      · rw [hb1d d hd hdd] at hne ⊢
        exact hI.dirR d hd hne
    · -- indR
      intro hne
      rw [hb2i] at hne ⊢
      exact hI.indR hne
    · -- entR
      intro hne j hj
      try dsimp only
      rw [hb2i] at hne ⊢
      obtain ⟨hib, hil⟩ := hI.indR hne
      rw [if_neg hib, if_neg hPi]
      exact hI.entR hne j hj
    · -- dd
      intro d dp hd hdp hne h0
      rw [hb2d d hd] at h0 ⊢
      rw [hb2d dp hdp]
      by_cases hdd : d = dblock
      · subst hdd
        rw [hP1] at h0 ⊢
        rw [hb1d dp hdp (by omega)]
        exact fun he => hPd dp hdp (by omega) he.symm
      · rw [hb1d d hd hdd] at h0 ⊢
        by_cases hdd2 : dp = dblock
        · subst hdd2
          rw [hP1]
          exact hPd d hd hdd
        · rw [hb1d dp hdp hdd2]
          exact hI.dd d dp hd hdp hne h0
    · -- di
      intro hne d hd
      rw [hb2i] at hne ⊢
      rw [hb2d d hd]
      by_cases hdd : d = dblock
      · subst hdd
        rw [hP1]
        exact fun he => hPi he.symm
      · rw [hb1d d hd hdd]
        exact hI.di hne d hd
    · -- de
      intro hne d j hd hj h0
      try dsimp only
      rw [hb2i] at hne ⊢
      rw [hb2d d hd] at h0 ⊢
      obtain ⟨hib, hil⟩ := hI.indR hne
      rw [if_neg hib, if_neg hPi]
      by_cases hdd : d = dblock
      · subst hdd
        rw [hP1] at h0 ⊢
        exact hPe hne j hj
      · rw [hb1d d hd hdd] at h0 ⊢
        exact hI.de hne d j hd hj h0
    · -- ie
      intro hne j hj
      try dsimp only
      rw [hb2i] at hne ⊢
      obtain ⟨hib, hil⟩ := hI.indR hne
      rw [if_neg hib, if_neg hPi]
      exact hI.ie hne j hj
    · -- ee
      intro hne j jp hj hjp hjj h0
      try dsimp only at h0 ⊢
      rw [hb2i] at hne h0 ⊢
      obtain ⟨hib, hil⟩ := hI.indR hne
      rw [if_neg hib, if_neg hPi] at h0 ⊢
      exact hI.ee hne j jp hj hjp hjj h0
    · -- bmA
      intro q hq hqT
      have hqT0 : bm q = true := hbm1mono q hqT
      obtain ⟨hq0, hqb, hql, hqdirs, hqind, hqent⟩ := hI.bmA q hq hqT0
      refine ⟨hq0, hqb, hql, ?_, ?_, ?_⟩
      · intro d hd
        rw [hb2d d hd]
        by_cases hdd : d = dblock
        · subst hdd
          rw [hP1]
          exact fun he => hbm1P q hq hqT he.symm
        · rw [hb1d d hd hdd]
          exact hqdirs d hd
      · rw [hb2i]
        exact hqind
      · intro hne j hj
        try dsimp only
        rw [hb2i] at hne ⊢
        obtain ⟨hib, hil⟩ := hI.indR hne
        rw [if_neg hib, if_neg hPi]
        exact hqent hne j hj
  rcases ih _ _ _ _ _ _ _ hInv with hfail | ⟨Df, blkF, post⟩
  · left; exact hfail
  · right
    refine ⟨Df, blkF, ?_⟩
    have hvalF : inodeDirect blkF s dblock = P := by
      rw [post.past_dir dblock hdb (Nat.lt_succ_self dblock), hb2d dblock hdb, hP1]
    have hDfP : Df.data P = truncBlock (memcpyIn db doff dat nwrite ncopy) := by
      have hfr := post.frame P hPb ?_ ?_ ?_
      · rw [hfr]
        try dsimp only
        rw [if_neg hPb, if_pos rfl]
      · intro d hd5 hge
        rcases post.fut_dir d hd5 hge with hfd | ⟨hfdT, hfdm⟩
        · rw [hfd, hb2d d hd5, hb1d d hd5 (by omega)]
          exact fun he => hPd d hd5 (by omega) he.symm
        · exact fun he => hbm1P _ hfdm hfdT (by rw [← he])
      · rcases post.fut_ind with hfi | ⟨hfiT, hfim⟩
        · rw [hfi, hb2i]
          exact fun he => hPi he.symm
        · exact fun he => hbm1P _ hfim hfiT (by rw [← he])
      · intro hne j hj hge
        rcases post.fut_ent hne j hj hge with h0 | ⟨hbT, hbm⟩ | ⟨hne2, hcur⟩
        · rw [h0]
          exact hP0
        · exact fun he => hbm1P _ hbm hbT (by rw [← he])
        · rw [hcur]
          try dsimp only
          rw [hb2i] at hne2 ⊢
          obtain ⟨hib, hil⟩ := hI.indR hne2
          rw [if_neg hib, if_neg hPi]
          exact fun he => hPe hne2 j hj he.symm
    exact {
      ret := post.ret
      odisk := post.odisk
      blocks_eq := post.blocks_eq
      data_bnum := post.data_bnum
      past_dir := by
        intro d hd hdlt
        rw [post.past_dir d hd (by omega), hb2d d hd, hb1d d hd (by omega)]
      past_ind := by
        intro hne
        rw [post.past_ind (by rw [hb2i]; exact hne), hb2i]
      past_ent := by
        intro hne j hj hjlt
        have : j < dblock - POINTERS_PER_INODE := hjlt
        unfold POINTERS_PER_INODE at this hdb
        omega
      fut_dir := by
        intro d hd hge
        by_cases hdd : d = dblock
        · subst hdd
          rw [hvalF]
          rcases hshape with ⟨hbe, hPex⟩ | ⟨hbe, hPT, hPm⟩
          · exact Or.inl hPex.symm
          · exact Or.inr ⟨hPT, hPm⟩
        · rcases post.fut_dir d hd (by omega) with hfd | ⟨hfdT, hfdm⟩
          · rw [hfd, hb2d d hd, hb1d d hd hdd]
            exact Or.inl rfl
          · exact Or.inr ⟨hbm1mono _ hfdT, hfdm⟩
      fut_ind := by
        rcases post.fut_ind with hfi | ⟨hfiT, hfim⟩
        · rw [hfi, hb2i]
          exact Or.inl rfl
        · exact Or.inr ⟨hbm1mono _ hfiT, hfim⟩
      fut_ent := by
        intro hne j hj hge
        have hge2 : dblock + 1 - POINTERS_PER_INODE ≤ j := by
          unfold POINTERS_PER_INODE at *
          omega
        rcases post.fut_ent hne j hj hge2 with h0 | ⟨hbT, hbm⟩ | ⟨hne2, hcur⟩
        · exact Or.inl h0
        · exact Or.inr (Or.inl ⟨hbm1mono _ hbT, hbm⟩)
        · try dsimp only at hcur
          rw [hb2i] at hne2 hcur
          obtain ⟨hib, hil⟩ := hI.indR hne2
          rw [if_neg hib, if_neg hPi] at hcur
          exact Or.inr (Or.inr ⟨hne2, hcur⟩)
      frame := by
        intro b hbb hbdir hbind hbent
        have hbP : b ≠ P := by
          have := hbdir dblock hdb (Nat.le_refl dblock)
          rw [hvalF] at this
          exact this
        have hfr := post.frame b hbb ?_ hbind ?_
        · rw [hfr]
          try dsimp only
          rw [if_neg hbb, if_neg hbP]
        · intro d hd hge
          exact hbdir d hd (by omega)
        · intro hne j hj hge
          exact hbent hne j hj (by unfold POINTERS_PER_INODE at *; omega)
      readback := by
        intro fuelR acc hfR
        cases fuelR with
        | zero => omega
        | succ fR =>
          simp only [readGo]
          rw [if_pos hlt, if_pos hdb]
          rw [inodeDirect_truncBlock blkF s dblock hs hdb, hvalF]
          rw [oread_lt Df P (by rw [post.blocks_eq]; exact hPlt)]
          try dsimp only
          rw [hDfP]
          have hmapeq : (List.range ncopy).map
              (fun j => truncBlock (memcpyIn db doff dat nwrite ncopy) (doff + j)) =
              (List.range ncopy).map (fun j => dat (nwrite + j) % 256) := by
            apply List.map_congr_left
            intro j hj
            rw [List.mem_range] at hj
            have hlt1 : doff + j < BLOCK_SIZE := by
              have := hI.chunk
              omega
            rw [truncBlock_lt _ _ hlt1]
            rw [memcpyIn_in db doff dat nwrite ncopy (doff + j) (by omega) (by omega)]
            rw [show nwrite + (doff + j - doff) = nwrite + j from by omega]
          rw [hmapeq]
          rw [post.readback fR (acc ++ (List.range ncopy).map
            (fun j => dat (nwrite + j) % 256)) (by omega)]
          rw [readback_chunk_append dat len nwrite ncopy acc _ rfl h3] }

/-- Tail lemma of the write/read round-trip, indirect region: after one
indirect-region iteration resolving (or wiring) the indirect pointer `I`
and its entry `E`, writing the chunk to `E` and persisting the indirect
and inode-table blocks as the source does, the rest of the loop fails or
yields the full postcondition relative to the iteration's entry state. -/
theorem writeGo_readback_tail_ind (mblocks : Nat) (dat : Nat → Nat)
    (len off bnum s : Nat) (f : Nat)
    (ih : ∀ nwrite dblock doff ncopy blk D0 bm,
      WriteLoopInv mblocks len off bnum s nwrite dblock doff ncopy blk D0 bm →
      (writeGo mblocks dat len off bnum s f nwrite dblock doff ncopy blk
        (some D0) bm).1 = -1 ∨
      ∃ Df blkF, WriteLoopPost mblocks dat len off bnum s nwrite dblock doff
        ncopy blk D0 bm
        (writeGo mblocks dat len off bnum s f nwrite dblock doff ncopy blk
          (some D0) bm) Df blkF)
    (nwrite dblock doff ncopy : Nat) (blk blk1 indC1 indC2 db : BlockFn)
    (D0 DD : Disk) (bm bmI bmE : Nat → Bool) (I E : Nat)
    (hI : WriteLoopInv mblocks len off bnum s nwrite dblock doff ncopy blk D0 bm)
    (hlt : nwrite < len) (hdb : ¬ dblock < POINTERS_PER_INODE)
    (hshape : (inodeIndirect blk s = I ∧ blk1 = blk ∧ indC1 = D0.data I ∧
        bmI = bm) ∨
      (inodeIndirect blk s = 0 ∧ blk1 = setInodeIndirect blk s I ∧
        indC1 = zeroBlock ∧ bm I = true ∧ I < mblocks ∧ bmI = bmSet bm I false))
    (hI0 : I ≠ 0) (hIb : I ≠ bnum) (hIlt : I < D0.blocks)
    (hIdir : ∀ d, d < POINTERS_PER_INODE → inodeDirect blk s d ≠ I)
    (hIentOld : ∀ j, j < POINTERS_PER_BLOCK → blockPtr indC1 j ≠ I)
    (hentry : (blockPtr indC1 (dblock - POINTERS_PER_INODE) = E ∧
        db = D0.data E ∧ bmE = bmI) ∨
      (blockPtr indC1 (dblock - POINTERS_PER_INODE) = 0 ∧ db = zeroBlock ∧
        bmI E = true ∧ E < mblocks ∧ bmE = bmSet bmI E false))
    (hE0 : E ≠ 0) (hEb : E ≠ bnum) (hElt : E < D0.blocks) (hEI : E ≠ I)
    (hEdir : ∀ d, d < POINTERS_PER_INODE → inodeDirect blk s d ≠ E)
    (hEentOld : ∀ j, j < POINTERS_PER_BLOCK → j ≠ dblock - POINTERS_PER_INODE →
      blockPtr indC1 j ≠ E)
    (hC2ent : ∀ j, j < POINTERS_PER_BLOCK → blockPtr indC2 j =
      if j = dblock - POINTERS_PER_INODE then E else blockPtr indC1 j)
    (hC2bytes : ∀ o, indC2 o < 256)
    (hdbB : ∀ o, db o < 256)
    (hentROld : ∀ j, j < POINTERS_PER_BLOCK → blockPtr indC1 j ≠ 0 →
      blockPtr indC1 j ≠ bnum ∧ blockPtr indC1 j < D0.blocks)
    (heeOld : ∀ j jp, j < POINTERS_PER_BLOCK → jp < POINTERS_PER_BLOCK → j ≠ jp →
      blockPtr indC1 j ≠ 0 → blockPtr indC1 j ≠ blockPtr indC1 jp)
    (hdeOld : ∀ d j, d < POINTERS_PER_INODE → j < POINTERS_PER_BLOCK →
      inodeDirect blk s d ≠ 0 → blockPtr indC1 j ≠ inodeDirect blk s d)
    (hbmEmono : ∀ q, bmE q = true → bm q = true)
    (hbmEI : ∀ q, q < mblocks → bmE q = true → q ≠ I)
    (hbmEE : ∀ q, q < mblocks → bmE q = true → q ≠ E)
    (hbmEent : ∀ q, q < mblocks → bmE q = true → ∀ j, j < POINTERS_PER_BLOCK →
      j ≠ dblock - POINTERS_PER_INODE → blockPtr indC1 j ≠ q)
    (hb1b : ∀ o, blk1 o < 256)
    (hDDbl : DD.blocks = D0.blocks)
    (hDDdata : ∀ b, DD.data b =
      if b = E then truncBlock (memcpyIn db doff dat nwrite ncopy)
      else if b = I then truncBlock indC2 else D0.data b) :
    (writeGo mblocks dat len off bnum s f (nwrite + ncopy) (dblock + 1) 0
        (nextNcopy len (nwrite + ncopy))
        (if inodeSize blk1 s < (off + (nwrite + ncopy)) % U64 then
          setInodeSize blk1 s ((off + (nwrite + ncopy)) % U64) else blk1)
        (owriteD (some DD) bnum
          (if inodeSize blk1 s < (off + (nwrite + ncopy)) % U64 then
            setInodeSize blk1 s ((off + (nwrite + ncopy)) % U64) else blk1))
        bmE).1 = -1 ∨
    ∃ Df blkF, WriteLoopPost mblocks dat len off bnum s nwrite dblock doff ncopy
      blk D0 bm
      (writeGo mblocks dat len off bnum s f (nwrite + ncopy) (dblock + 1) 0
        (nextNcopy len (nwrite + ncopy))
        (if inodeSize blk1 s < (off + (nwrite + ncopy)) % U64 then
          setInodeSize blk1 s ((off + (nwrite + ncopy)) % U64) else blk1)
        (owriteD (some DD) bnum
          (if inodeSize blk1 s < (off + (nwrite + ncopy)) % U64 then
            setInodeSize blk1 s ((off + (nwrite + ncopy)) % U64) else blk1))
        bmE) Df blkF := by
  obtain ⟨hle, hco⟩ := hI.inv
  obtain ⟨h3, h4⟩ := hco hlt
  have hs := hI.s_lt
  have halign : off + nwrite = dblock * BLOCK_SIZE + doff := by
    rcases hI.align with h | h
    · exact h
    · omega
  have hioff : dblock - POINTERS_PER_INODE < POINTERS_PER_BLOCK := by
    have h := hI.maxfile
    unfold maxFileSize POINTERS_PER_INODE POINTERS_PER_BLOCK BLOCK_SIZE at *
    omega
  have hb1d : ∀ d, d < POINTERS_PER_INODE →
      inodeDirect blk1 s d = inodeDirect blk s d := by
    rcases hshape with ⟨-, hbe, -, -⟩ | ⟨-, hbe, -, -, -, -⟩
    · rw [hbe]; exact fun d hd => rfl
    · rw [hbe]; exact fun d hd => inodeDirect_setIndirect blk s s d I hd
  have hb1i : inodeIndirect blk1 s = I := by
    rcases hshape with ⟨hsi, hbe, -, -⟩ | ⟨-, hbe, -, -, -, -⟩
    · rw [hbe, hsi]
    · rw [hbe, inodeIndirect_setIndirect_same]
      exact Nat.mod_eq_of_lt (by have := hI.blocks32; unfold U32 at *; omega)
  have hbmImono : ∀ q, bmI q = true → bm q = true := by
    rcases hshape with ⟨-, -, -, hbe⟩ | ⟨-, -, -, -, -, hbe⟩
    · rw [hbe]; exact fun q h => h
    · rw [hbe]; exact fun q h => bmSet_false_mono bm I q h
  generalize hblk2 : (if inodeSize blk1 s < (off + (nwrite + ncopy)) % U64 then
      setInodeSize blk1 s ((off + (nwrite + ncopy)) % U64) else blk1) = blk2
  have hb2d : ∀ d, d < POINTERS_PER_INODE →
      inodeDirect blk2 s d = inodeDirect blk s d := by
    intro d hd
    rw [← hblk2]
    split
    · rw [inodeDirect_setSize blk1 s s d _ hd]
      exact hb1d d hd
    · exact hb1d d hd
  have hb2i : inodeIndirect blk2 s = I := by
    rw [← hblk2]
    split
    · rw [inodeIndirect_setSize, hb1i]
    · exact hb1i
  have hb2b : ∀ o, blk2 o < 256 := by
    intro o
    rw [← hblk2]
    split
    · exact writeU32_bytes _ _ _ hb1b o
    · exact hb1b o
  rw [owriteD_lt DD bnum blk2 (by rw [hDDbl]; exact hI.bnum_lt)]
  have hD1 : ∀ b, (if b = bnum then truncBlock blk2 else DD.data b) =
      if b = bnum then truncBlock blk2
      else if b = E then truncBlock (memcpyIn db doff dat nwrite ncopy)
      else if b = I then truncBlock indC2 else D0.data b := by
    intro b
    by_cases h1 : b = bnum
    · rw [if_pos h1, if_pos h1]
    · rw [if_neg h1, if_neg h1, hDDdata b]
  have hD1I : ∀ j, j < POINTERS_PER_BLOCK →
      blockPtr (if I = bnum then truncBlock blk2 else DD.data I) j =
      if j = dblock - POINTERS_PER_INODE then E else blockPtr indC1 j := by
    intro j hj
    rw [hD1 I, if_neg hIb, if_neg hEI.symm, if_pos rfl,
      blockPtr_truncBlock _ _ hj, hC2ent j hj]
  have hInv : WriteLoopInv mblocks len off bnum s (nwrite + ncopy) (dblock + 1) 0
      (nextNcopy len (nwrite + ncopy)) blk2
      (⟨DD.ident, DD.blocks, fun bp =>
        if bp = bnum then truncBlock blk2 else DD.data bp⟩ : Disk) bmE := by
    refine {
      inv := loopInv_next len nwrite ncopy hI.inv hlt
      doff_lt := by unfold BLOCK_SIZE; omega
      chunk := by unfold nextNcopy BLOCK_SIZE; split <;> omega
      chunkFull := by
        unfold nextNcopy BLOCK_SIZE
        split
        · left; omega
        · right; omega
      align := by
        rcases hI.chunkFull with hcf | hcf
        · left
          unfold BLOCK_SIZE at *
          omega
        · right; omega
      maxfile := hI.maxfile
      bnum_lt := by
        show bnum < DD.blocks
        rw [hDDbl]
        exact hI.bnum_lt
      s_lt := hI.s_lt
      blocks32 := by
        show DD.blocks < U32
        rw [hDDbl]
        exact hI.blocks32
      bytesD := ?_
      dataTrunc := ?_
      bytesB := hb2b
      data_bnum := ?_
      dirR := ?_
      indR := ?_
      entR := ?_
      dd := ?_
      di := ?_
      de := ?_
      ie := ?_
      ee := ?_
      bmA := ?_ }
    · -- bytesD
      intro b o
      try dsimp only
      rw [hD1 b]
      by_cases h1 : b = bnum
      · rw [if_pos h1]; exact truncBlock_bytes _ hb2b o
      · rw [if_neg h1]
        by_cases h2 : b = E
        · rw [if_pos h2]
          exact truncBlock_bytes _ (memcpyIn_bytes _ _ _ _ _ hdbB) o
        · rw [if_neg h2]
          by_cases h3x : b = I
          · rw [if_pos h3x]; exact truncBlock_bytes _ hC2bytes o
          · rw [if_neg h3x]; exact hI.bytesD b o
    · -- dataTrunc
      intro b o ho
      try dsimp only
      rw [hD1 b]
      by_cases h1 : b = bnum
      · rw [if_pos h1]; exact truncBlock_zero_ge _ o ho
      · rw [if_neg h1]
        by_cases h2 : b = E
        · rw [if_pos h2]; exact truncBlock_zero_ge _ o ho
        · rw [if_neg h2]
          by_cases h3x : b = I
          · rw [if_pos h3x]; exact truncBlock_zero_ge _ o ho
          · rw [if_neg h3x]; exact hI.dataTrunc b o ho
    · -- data_bnum
      intro h
      try dsimp only
      rw [if_pos rfl]
    · -- dirR
      intro d hd hne
      rw [hb2d d hd] at hne ⊢
      have := hI.dirR d hd hne
      exact ⟨this.1, by show _ < DD.blocks; rw [hDDbl]; exact this.2⟩
    · -- indR
      intro hne
      rw [hb2i]
      exact ⟨hIb, by show _ < DD.blocks; rw [hDDbl]; exact hIlt⟩
    · -- entR
      intro hne j hj
      try dsimp only
      rw [hb2i]
      rw [hD1I j hj]
      by_cases hjo : j = dblock - POINTERS_PER_INODE
      · rw [if_pos hjo]
        intro _
        exact ⟨hEb, by show _ < DD.blocks; rw [hDDbl]; exact hElt⟩
      · rw [if_neg hjo]
        intro h0
        have := hentROld j hj h0
        exact ⟨this.1, by show _ < DD.blocks; rw [hDDbl]; exact this.2⟩
    · -- dd
      intro d dp hd hdp hne h0
      rw [hb2d d hd] at h0 ⊢
      rw [hb2d dp hdp]
      exact hI.dd d dp hd hdp hne h0
    · -- di
      intro hne d hd
      rw [hb2i, hb2d d hd]
      exact hIdir d hd
    · -- de
      intro hne d j hd hj h0
      try dsimp only
      rw [hb2i]
      rw [hb2d d hd] at h0 ⊢
      rw [hD1I j hj]
      by_cases hjo : j = dblock - POINTERS_PER_INODE
      · rw [if_pos hjo]
        exact (hEdir d hd).symm
      · rw [if_neg hjo]
        exact hdeOld d j hd hj h0
    · -- ie
      intro hne j hj
      try dsimp only
      rw [hb2i]
      rw [hD1I j hj]
      by_cases hjo : j = dblock - POINTERS_PER_INODE
      · rw [if_pos hjo]
        exact hEI
      · rw [if_neg hjo]
        exact hIentOld j hj
    · -- ee
      intro hne j jp hj hjp hjj h0
      try dsimp only at h0 ⊢
      rw [hb2i] at h0 ⊢
      rw [hD1I j hj] at h0 ⊢
      rw [hD1I jp hjp]
      by_cases hjo : j = dblock - POINTERS_PER_INODE
      · rw [if_pos hjo] at h0 ⊢
        rw [if_neg (by omega)]
        exact (hEentOld jp hjp (by omega)).symm
      · rw [if_neg hjo] at h0 ⊢
        by_cases hjpo : jp = dblock - POINTERS_PER_INODE
        · rw [if_pos hjpo]
          exact hEentOld j hj hjo
        · rw [if_neg hjpo]
          exact heeOld j jp hj hjp hjj h0
    · -- bmA
      intro q hq hqT
      have hqT0 : bm q = true := hbmEmono q hqT
      obtain ⟨hq0, hqb, hql, hqdirs, hqind, hqent⟩ := hI.bmA q hq hqT0
      refine ⟨hq0, hqb, by show _ < DD.blocks; rw [hDDbl]; exact hql, ?_, ?_, ?_⟩
      · intro d hd
        rw [hb2d d hd]
        exact hqdirs d hd
      · rw [hb2i]
        exact fun he => hbmEI q hq hqT he.symm
      · intro hne j hj
        try dsimp only
        rw [hb2i]
        rw [hD1I j hj]
        by_cases hjo : j = dblock - POINTERS_PER_INODE
        · rw [if_pos hjo]
          exact fun he => hbmEE q hq hqT he.symm
        · rw [if_neg hjo]
          exact hbmEent q hq hqT j hj hjo
  rcases ih _ _ _ _ _ _ _ hInv with hfail | ⟨Df, blkF, post⟩
  · left; exact hfail
  · right
    refine ⟨Df, blkF, ?_⟩
    have hDfbl : Df.blocks = D0.blocks := by
      have h := post.blocks_eq
      have h2 : DD.blocks = D0.blocks := hDDbl
      exact h.trans h2
    have hind2ne : inodeIndirect blk2 s ≠ 0 := by
      rw [hb2i]; exact hI0
    have hindF : inodeIndirect blkF s = I := by
      rw [post.past_ind hind2ne, hb2i]
    have hdbk5 : POINTERS_PER_INODE ≤ dblock := by
      unfold POINTERS_PER_INODE at *
      omega
    have hioffsucc : dblock + 1 - POINTERS_PER_INODE =
        (dblock - POINTERS_PER_INODE) + 1 := by
      unfold POINTERS_PER_INODE at *
      omega
    have hentF : blockPtr (Df.data I) (dblock - POINTERS_PER_INODE) = E := by
      have h := post.past_ent hind2ne (dblock - POINTERS_PER_INODE) hioff
        (by rw [hioffsucc]; omega)
      rw [hb2i] at h
      rw [h]
      try dsimp only at h ⊢
      rw [hD1I _ hioff, if_pos rfl]
    have hDfE : Df.data E =
        truncBlock (memcpyIn db doff dat nwrite ncopy) := by
      have hfr := post.frame E hEb ?_ ?_ ?_
      · rw [hfr]
        try dsimp only
        rw [hD1 E, if_neg hEb, if_pos rfl]
      · intro d hd hge
        unfold POINTERS_PER_INODE at hd hdbk5
        omega
      · rw [hindF]
        exact hEI
      · intro hne j hj hge
        rw [hindF] at hne ⊢
        rw [hioffsucc] at hge
        rcases post.fut_ent (by rw [hindF]; exact hI0) j hj
            (by rw [hioffsucc]; omega) with h0 | ⟨hbT, hbm⟩ | ⟨hne2, hcur⟩
        · rw [hindF] at h0
          rw [h0]
          exact hE0
        · rw [hindF] at hbT hbm
          exact fun he => hbmEE _ hbm hbT he.symm
        · rw [hindF] at hcur
          rw [hcur]
          try dsimp only
          rw [hb2i] at hne2 ⊢
          rw [hD1I j hj, if_neg (by omega)]
          exact fun he => hEentOld j hj (by omega) he.symm
    exact {
      ret := post.ret
      odisk := post.odisk
      blocks_eq := hDfbl
      data_bnum := post.data_bnum
      past_dir := by
        intro d hd hdlt
        rw [post.past_dir d hd (by omega), hb2d d hd]
      past_ind := by
        intro hne
        rcases hshape with ⟨hsi, -, -, -⟩ | ⟨hsi0, -, -, -, -, -⟩
        · rw [hindF, hsi]
        · exact absurd hsi0 hne
      past_ent := by
        intro hne j hj hjlt
        rcases hshape with ⟨hsi, -, hc1, -⟩ | ⟨hsi0, -, -, -, -, -⟩
        · rw [hsi]
          have h := post.past_ent hind2ne j hj
            (by rw [hioffsucc]; unfold POINTERS_PER_INODE at *; omega)
          rw [hb2i] at h
          rw [h]
          try dsimp only
          rw [hD1I j hj, if_neg (by unfold POINTERS_PER_INODE at *; omega), hc1]
        · exact absurd hsi0 hne
      fut_dir := by
        intro d hd hge
        unfold POINTERS_PER_INODE at hd hdbk5
        omega
      fut_ind := by
        rw [hindF]
        rcases hshape with ⟨hsi, -, -, -⟩ | ⟨-, -, -, hIT, hIm, -⟩
        · exact Or.inl hsi.symm
        · exact Or.inr ⟨hIT, hIm⟩
      fut_ent := by
        intro hne j hj hge
        rw [hindF] at hne ⊢
        by_cases hjo : j = dblock - POINTERS_PER_INODE
        · subst hjo
          rw [hentF]
          rcases hentry with ⟨hJE, -, -⟩ | ⟨-, -, hbmIE, hEm, -⟩
          · rcases hshape with ⟨hsi, -, hc1, -⟩ | ⟨-, -, hc1, -, -, -⟩
            · refine Or.inr (Or.inr ⟨by rw [hsi]; exact hI0, ?_⟩)
              rw [hsi, ← hc1, hJE]
            · rw [hc1] at hJE
              exact absurd hJE.symm hE0
          · exact Or.inr (Or.inl ⟨hbmImono E hbmIE, hEm⟩)
        · rcases post.fut_ent (by rw [hindF]; exact hI0) j hj
              (by rw [hioffsucc]; omega) with h0 | ⟨hbT, hbm⟩ | ⟨hne2, hcur⟩
          · rw [hindF] at h0
            exact Or.inl h0
          · rw [hindF] at hbT hbm
            exact Or.inr (Or.inl ⟨hbmEmono _ hbT, hbm⟩)
          · rw [hindF] at hcur
            try dsimp only at hcur
            rw [hb2i] at hne2 hcur
            rw [hD1I j hj, if_neg hjo] at hcur
            rcases hshape with ⟨hsi, -, hc1, -⟩ | ⟨-, -, hc1, -, -, -⟩
            · refine Or.inr (Or.inr ⟨by rw [hsi]; exact hI0, ?_⟩)
              rw [hsi]
              rw [hc1] at hcur
              exact hcur
            · rw [hc1] at hcur
              exact Or.inl hcur
      frame := by
        intro b hbb hbdir hbind hbent
        have hbI : b ≠ I := by
          rw [hindF] at hbind
          exact hbind
        have hbE : b ≠ E := by
          have h := hbent (by rw [hindF]; exact hI0) (dblock - POINTERS_PER_INODE)
            hioff (Nat.le_refl _)
          rw [hindF, hentF] at h
          exact h
        have hfr := post.frame b hbb ?_ hbind ?_
        · rw [hfr]
          try dsimp only
          rw [hD1 b, if_neg hbb, if_neg hbE, if_neg hbI]
        · intro d hd hge
          exact hbdir d hd (by omega)
        · intro hne j hj hge
          exact hbent hne j hj (by unfold POINTERS_PER_INODE at *; omega)
      readback := by
        intro fuelR acc hfR
        cases fuelR with
        | zero => omega
        | succ fR =>
          simp only [readGo]
          rw [if_pos hlt, if_neg hdb]
          rw [inodeIndirect_truncBlock blkF s hs, hindF]
          rw [oread_lt Df I (by rw [hDfbl]; exact hIlt)]
          try dsimp only
          rw [hentF]
          rw [oread_lt Df E (by rw [hDfbl]; exact hElt)]
          try dsimp only
          rw [hDfE]
          have hmapeq : (List.range ncopy).map
              (fun j => truncBlock (memcpyIn db doff dat nwrite ncopy) (doff + j)) =
              (List.range ncopy).map (fun j => dat (nwrite + j) % 256) := by
            apply List.map_congr_left
            intro j hj
            rw [List.mem_range] at hj
            have hlt1 : doff + j < BLOCK_SIZE := by
              have := hI.chunk
              omega
            rw [truncBlock_lt _ _ hlt1]
            rw [memcpyIn_in db doff dat nwrite ncopy (doff + j) (by omega) (by omega)]
            rw [show nwrite + (doff + j - doff) = nwrite + j from by omega]
          rw [hmapeq]
          rw [post.readback fR (acc ++ (List.range ncopy).map
            (fun j => dat (nwrite + j) % 256)) (by omega)]
          rw [readback_chunk_append dat len nwrite ncopy acc _ rfl h3] }

/-- The write loop, from any state satisfying the carried invariant,
either fails with `-1` or establishes the full round-trip postcondition
relative to that state. -/
theorem writeGo_readback_go (mblocks : Nat) (dat : Nat → Nat)
    (len off bnum s : Nat) (hlen : 0 < len) :
    ∀ fuel nwrite dblock doff ncopy blk D0 bm,
      WriteLoopInv mblocks len off bnum s nwrite dblock doff ncopy blk D0 bm →
      (writeGo mblocks dat len off bnum s fuel nwrite dblock doff ncopy blk
        (some D0) bm).1 = -1 ∨
      ∃ Df blkF, WriteLoopPost mblocks dat len off bnum s nwrite dblock doff
        ncopy blk D0 bm
        (writeGo mblocks dat len off bnum s fuel nwrite dblock doff ncopy blk
          (some D0) bm) Df blkF := by
  intro fuel
  induction fuel with
  | zero =>
    intro nwrite dblock doff ncopy blk D0 bm hI
    left; rfl
  | succ f ih =>
    intro nwrite dblock doff ncopy blk D0 bm hI
    simp only [writeGo]
    by_cases hlt : nwrite < len
    case neg =>
      rw [if_neg hlt]
      right
      have hnw : nwrite = len := by
        have := hI.inv.1
        omega
      refine ⟨D0, blk, ?_⟩
      exact {
        ret := by
          try dsimp only
          rw [hnw]
        odisk := rfl
        blocks_eq := rfl
        data_bnum := hI.data_bnum (by omega)
        past_dir := fun d _ _ => rfl
        past_ind := fun _ => rfl
        past_ent := fun _ j _ _ => rfl
        fut_dir := fun d _ _ => Or.inl rfl
        fut_ind := Or.inl rfl
        fut_ent := fun hne j _ _ => Or.inr (Or.inr ⟨hne, rfl⟩)
        frame := fun b _ _ _ _ => rfl
        readback := by
          intro fuelR acc hfR
          cases fuelR with
          | zero => omega
          | succ fR =>
            simp only [readGo]
            rw [if_neg hlt, hnw, Nat.sub_self]
            simp }
    case pos =>
      rw [if_pos hlt]
      have halign : off + nwrite = dblock * BLOCK_SIZE + doff := by
        rcases hI.align with h | h
        · exact h
        · omega
      by_cases hdb : dblock < POINTERS_PER_INODE
      · rw [if_pos hdb]
        by_cases hc : inodeDirect blk s dblock = 0
        · -- fresh direct pointer
          rw [if_pos hc]
          by_cases hz : (find_free_block mblocks bm).1 = 0
          · rw [if_pos hz]
            left; rfl
          · rw [if_neg hz]
            rcases find_free_block_cases mblocks bm with hff | ⟨hffT, hffLt, hffEq⟩
            · exact absurd (congrArg Prod.fst hff) hz
            obtain ⟨hP0, hPb, hPlt, hPdirs, hPind, hPent⟩ := hI.bmA _ hffLt hffT
            try dsimp only
            rw [hffEq]
            have hPval : inodeDirect (setInodeDirect blk s dblock
                (find_free_block mblocks bm).1) s dblock =
                (find_free_block mblocks bm).1 := by
              rw [inodeDirect_setDirect_same]
              exact Nat.mod_eq_of_lt (by have := hI.blocks32; unfold U32 at *; omega)
            rw [hPval, oread_lt D0 _ hPlt]
            try dsimp only
            rw [owriteChk_lt D0 _ _ hPlt]
            try dsimp only
            exact writeGo_readback_tail_dir mblocks dat len off bnum s f ih
              nwrite dblock doff ncopy blk
              (setInodeDirect blk s dblock (find_free_block mblocks bm).1)
              (D0.data (find_free_block mblocks bm).1) D0 bm
              (bmSet bm (find_free_block mblocks bm).1 false)
              (find_free_block mblocks bm).1 hI hlt hdb hPval
              (fun d hd hdd => inodeDirect_setDirect_same_slot blk s d dblock _ hdd)
              (inodeIndirect_setDirect blk s s dblock _ hdb)
              (fun o => writeU32_bytes _ _ _ hI.bytesB o)
              rfl hP0 hPb hPlt
              (fun d hd _ => hPdirs d hd) hPind hPent
              (Or.inr ⟨rfl, hffT, hffLt⟩)
        · -- existing direct pointer
          rw [if_neg hc]
          obtain ⟨hPb, hPlt⟩ := hI.dirR dblock hdb hc
          try dsimp only
          rw [oread_lt D0 _ hPlt]
          try dsimp only
          rw [owriteChk_lt D0 _ _ hPlt]
          try dsimp only
          exact writeGo_readback_tail_dir mblocks dat len off bnum s f ih
            nwrite dblock doff ncopy blk blk
            (D0.data (inodeDirect blk s dblock)) D0 bm bm
            (inodeDirect blk s dblock) hI hlt hdb rfl
            (fun d _ _ => rfl) rfl hI.bytesB rfl hc hPb hPlt
            (fun d hd hdd => by
              by_cases h0 : inodeDirect blk s d = 0
              · rw [h0]
                exact fun he => hc he.symm
              · exact hI.dd d dblock hd hdb hdd h0)
            (by
              by_cases hi0 : inodeIndirect blk s = 0
              · rw [hi0]
                exact fun he => hc he.symm
              · exact Ne.symm (hI.di hi0 dblock hdb))
            (fun hne j hj => hI.de hne dblock j hdb hj hc)
            (Or.inl ⟨rfl, rfl⟩)
      · -- indirect region
        rw [if_neg hdb]
        have hioff : dblock - POINTERS_PER_INODE < POINTERS_PER_BLOCK := by
          have h := hI.maxfile
          unfold maxFileSize POINTERS_PER_INODE POINTERS_PER_BLOCK BLOCK_SIZE at *
          omega
        by_cases hci : inodeIndirect blk s = 0
        · -- fresh indirect pointer, necessarily fresh entry
          rw [if_pos hci]
          by_cases hzi : (find_free_block mblocks bm).1 = 0
          · rw [if_pos hzi]
            left; rfl
          · rw [if_neg hzi]
            rcases find_free_block_cases mblocks bm with hff | ⟨hIT, hILt, hIEq⟩
            · exact absurd (congrArg Prod.fst hff) hzi
            obtain ⟨hI0f, hIbf, hIltf, hIdirf, hIindf, hIentf⟩ :=
              hI.bmA _ hILt hIT
            try dsimp only
            rw [hIEq]
            rw [show blockPtr zeroBlock (dblock - POINTERS_PER_INODE) = 0 from rfl]
            rw [if_pos rfl]
            by_cases hz2 : (find_free_block mblocks
                (bmSet bm (find_free_block mblocks bm).1 false)).1 = 0
            · rw [if_pos hz2]
              left; rfl
            · rw [if_neg hz2]
              rcases find_free_block_cases mblocks
                  (bmSet bm (find_free_block mblocks bm).1 false) with
                hff2 | ⟨hET, hELt, hEEq⟩
              · exact absurd (congrArg Prod.fst hff2) hz2
              have hETbm : bm (find_free_block mblocks
                  (bmSet bm (find_free_block mblocks bm).1 false)).1 = true :=
                bmSet_false_mono _ _ _ hET
              have hEneFI : (find_free_block mblocks
                  (bmSet bm (find_free_block mblocks bm).1 false)).1 ≠
                  (find_free_block mblocks bm).1 :=
                bmSet_false_ne _ _ _ hET
              obtain ⟨hE0f, hEbf, hEltf, hEdirf, hEindf, hEentf⟩ :=
                hI.bmA _ hELt hETbm
              try dsimp only
              rw [hEEq]
              rw [if_pos rfl]
              have hIval : inodeIndirect (setInodeIndirect blk s
                  (find_free_block mblocks bm).1) s =
                  (find_free_block mblocks bm).1 := by
                rw [inodeIndirect_setIndirect_same]
                exact Nat.mod_eq_of_lt
                  (by have := hI.blocks32; unfold U32 at *; omega)
              rw [hIval]
              rw [owriteChk_lt D0 _ _ hIltf]
              try dsimp only
              have hEval : blockPtr (setBlockPtr zeroBlock
                  (dblock - POINTERS_PER_INODE)
                  (find_free_block mblocks
                    (bmSet bm (find_free_block mblocks bm).1 false)).1)
                  (dblock - POINTERS_PER_INODE) =
                  (find_free_block mblocks
                    (bmSet bm (find_free_block mblocks bm).1 false)).1 := by
                rw [blockPtr_setBlockPtr_same]
                exact Nat.mod_eq_of_lt
                  (by have := hI.blocks32; unfold U32 at *; omega)
              rw [hEval]
              rw [owriteChk_lt _ _ _ (by exact hEltf)]
              try dsimp only
              exact writeGo_readback_tail_ind mblocks dat len off bnum s f ih
                nwrite dblock doff ncopy blk
                (setInodeIndirect blk s (find_free_block mblocks bm).1)
                zeroBlock
                (setBlockPtr zeroBlock (dblock - POINTERS_PER_INODE)
                  (find_free_block mblocks
                    (bmSet bm (find_free_block mblocks bm).1 false)).1)
                zeroBlock D0
                (⟨D0.ident, D0.blocks, fun bp =>
                  if bp = (find_free_block mblocks
                      (bmSet bm (find_free_block mblocks bm).1 false)).1 then
                    truncBlock (memcpyIn zeroBlock doff dat nwrite ncopy)
                  else if bp = (find_free_block mblocks bm).1 then
                    truncBlock (setBlockPtr zeroBlock
                      (dblock - POINTERS_PER_INODE)
                      (find_free_block mblocks
                        (bmSet bm (find_free_block mblocks bm).1 false)).1)
                  else D0.data bp⟩ : Disk)
                bm (bmSet bm (find_free_block mblocks bm).1 false)
                (bmSet (bmSet bm (find_free_block mblocks bm).1 false)
                  (find_free_block mblocks
                    (bmSet bm (find_free_block mblocks bm).1 false)).1 false)
                (find_free_block mblocks bm).1
                (find_free_block mblocks
                  (bmSet bm (find_free_block mblocks bm).1 false)).1
                hI hlt hdb
                (Or.inr ⟨hci, rfl, rfl, hIT, hILt, rfl⟩)
                hI0f hIbf hIltf hIdirf
                (fun j hj => Ne.symm hI0f)
                (Or.inr ⟨rfl, rfl, hET, hELt, rfl⟩)
                hE0f hEbf hEltf hEneFI hEdirf
                (fun j hj hjo => Ne.symm hE0f)
                (fun j hj => by
                  by_cases hjo : j = dblock - POINTERS_PER_INODE
                  · rw [if_pos hjo, hjo, blockPtr_setBlockPtr_same]
                    exact Nat.mod_eq_of_lt
                      (by have := hI.blocks32; unfold U32 at *; omega)
                  · rw [if_neg hjo, blockPtr_setBlockPtr_ne _ _ _ _ hjo])
                (fun o => writeU32_bytes _ _ _ (fun i => by
                  show (0 : Nat) < 256
                  decide) o)
                (fun o => by
                  show (0 : Nat) < 256
                  decide)
                (fun j hj h0 => absurd rfl h0)
                (fun j jp hj hjp hjj h0 => absurd rfl h0)
                (fun d j hd hj h0 => Ne.symm h0)
                (fun q h => bmSet_false_mono _ _ _ (bmSet_false_mono _ _ _ h))
                (fun q hq hqT => bmSet_false_ne _ _ _ (bmSet_false_mono _ _ _ hqT))
                (fun q hq hqT => bmSet_false_ne _ _ _ hqT)
                (fun q hq hqT j hj hjo => Ne.symm
                  (hI.bmA q hq (bmSet_false_mono _ _ _
                    (bmSet_false_mono _ _ _ hqT))).1)
                (fun o => writeU32_bytes _ _ _ hI.bytesB o)
                rfl
                (fun b => rfl)
        · -- existing indirect pointer
          rw [if_neg hci]
          obtain ⟨hIb, hIlt⟩ := hI.indR hci
          rw [oread_lt D0 _ hIlt]
          try dsimp only
          by_cases hz2 : blockPtr (D0.data (inodeIndirect blk s))
              (dblock - POINTERS_PER_INODE) = 0
          · -- fresh entry
            rw [if_pos hz2]
            by_cases hz3 : (find_free_block mblocks bm).1 = 0
            · rw [if_pos hz3]
              left; rfl
            · rw [if_neg hz3]
              rcases find_free_block_cases mblocks bm with
                hff | ⟨hET, hELt, hEEq⟩
              · exact absurd (congrArg Prod.fst hff) hz3
              obtain ⟨hE0f, hEbf, hEltf, hEdirf, hEindf, hEentf⟩ :=
                hI.bmA _ hELt hET
              try dsimp only
              rw [hEEq]
              rw [if_pos rfl]
              rw [owriteChk_lt D0 _ _ hIlt]
              try dsimp only
              have hEval : blockPtr (setBlockPtr
                  (D0.data (inodeIndirect blk s)) (dblock - POINTERS_PER_INODE)
                  (find_free_block mblocks bm).1)
                  (dblock - POINTERS_PER_INODE) =
                  (find_free_block mblocks bm).1 := by
                rw [blockPtr_setBlockPtr_same]
                exact Nat.mod_eq_of_lt
                  (by have := hI.blocks32; unfold U32 at *; omega)
              rw [hEval]
              rw [owriteChk_lt _ _ _ (by exact hEltf)]
              try dsimp only
              exact writeGo_readback_tail_ind mblocks dat len off bnum s f ih
                nwrite dblock doff ncopy blk blk
                (D0.data (inodeIndirect blk s))
                (setBlockPtr (D0.data (inodeIndirect blk s))
                  (dblock - POINTERS_PER_INODE) (find_free_block mblocks bm).1)
                zeroBlock D0
                (⟨D0.ident, D0.blocks, fun bp =>
                  if bp = (find_free_block mblocks bm).1 then
                    truncBlock (memcpyIn zeroBlock doff dat nwrite ncopy)
                  else if bp = inodeIndirect blk s then
                    truncBlock (setBlockPtr (D0.data (inodeIndirect blk s))
                      (dblock - POINTERS_PER_INODE)
                      (find_free_block mblocks bm).1)
                  else D0.data bp⟩ : Disk)
                bm bm (bmSet bm (find_free_block mblocks bm).1 false)
                (inodeIndirect blk s) (find_free_block mblocks bm).1
                hI hlt hdb
                (Or.inl ⟨rfl, rfl, rfl, rfl⟩)
                hci hIb hIlt
                (fun d hd => hI.di hci d hd)
                (fun j hj => hI.ie hci j hj)
                (Or.inr ⟨hz2, rfl, hET, hELt, rfl⟩)
                hE0f hEbf hEltf
                (Ne.symm hEindf)
                hEdirf
                (fun j hj hjo => hEentf hci j hj)
                (fun j hj => by
                  by_cases hjo : j = dblock - POINTERS_PER_INODE
                  · rw [if_pos hjo, hjo, blockPtr_setBlockPtr_same]
                    exact Nat.mod_eq_of_lt
                      (by have := hI.blocks32; unfold U32 at *; omega)
                  · rw [if_neg hjo, blockPtr_setBlockPtr_ne _ _ _ _ hjo])
                (fun o => writeU32_bytes _ _ _ (fun i => hI.bytesD _ i) o)
                (fun o => by
                  show (0 : Nat) < 256
                  decide)
                (fun j hj h0 => hI.entR hci j hj h0)
                (fun j jp hj hjp hjj h0 => hI.ee hci j jp hj hjp hjj h0)
                (fun d j hd hj h0 => hI.de hci d j hd hj h0)
                (fun q h => bmSet_false_mono _ _ _ h)
                (fun q hq hqT => Ne.symm
                  (hI.bmA q hq (bmSet_false_mono _ _ _ hqT)).2.2.2.2.1)
                (fun q hq hqT => bmSet_false_ne _ _ _ hqT)
                (fun q hq hqT j hj hjo =>
                  (hI.bmA q hq (bmSet_false_mono _ _ _ hqT)).2.2.2.2.2 hci j hj)
                hI.bytesB
                rfl
                (fun b => rfl)
          · -- existing entry
            rw [if_neg hz2]
            obtain ⟨hEb2, hElt2⟩ := hI.entR hci _ hioff hz2
            try dsimp only
            rw [if_neg Bool.false_ne_true]
            rw [oread_lt D0 _ hElt2]
            try dsimp only
            rw [owriteChk_lt D0 _ _ hElt2]
            try dsimp only
            exact writeGo_readback_tail_ind mblocks dat len off bnum s f ih
              nwrite dblock doff ncopy blk blk
              (D0.data (inodeIndirect blk s))
              (D0.data (inodeIndirect blk s))
              (D0.data (blockPtr (D0.data (inodeIndirect blk s))
                (dblock - POINTERS_PER_INODE)))
              D0
              (⟨D0.ident, D0.blocks, fun bp =>
                if bp = blockPtr (D0.data (inodeIndirect blk s))
                    (dblock - POINTERS_PER_INODE) then
                  truncBlock (memcpyIn (D0.data (blockPtr
                    (D0.data (inodeIndirect blk s))
                    (dblock - POINTERS_PER_INODE))) doff dat nwrite ncopy)
                else D0.data bp⟩ : Disk)
              bm bm bm
              (inodeIndirect blk s)
              (blockPtr (D0.data (inodeIndirect blk s))
                (dblock - POINTERS_PER_INODE))
              hI hlt hdb
              (Or.inl ⟨rfl, rfl, rfl, rfl⟩)
              hci hIb hIlt
              (fun d hd => hI.di hci d hd)
              (fun j hj => hI.ie hci j hj)
              (Or.inl ⟨rfl, rfl, rfl⟩)
              hz2 hEb2 hElt2
              (hI.ie hci _ hioff)
              (fun d hd => by
                by_cases h0 : inodeDirect blk s d = 0
                · rw [h0]
                  exact Ne.symm hz2
                · exact Ne.symm (hI.de hci d _ hd hioff h0))
              (fun j hj hjo => by
                by_cases h0 : blockPtr (D0.data (inodeIndirect blk s)) j = 0
                · rw [h0]
                  exact Ne.symm hz2
                · exact hI.ee hci j _ hj hioff hjo h0)
              (fun j hj => by
                by_cases hjo : j = dblock - POINTERS_PER_INODE
                · rw [if_pos hjo, hjo]
                · rw [if_neg hjo])
              (fun o => hI.bytesD _ o)
              (fun o => hI.bytesD _ o)
              (fun j hj h0 => hI.entR hci j hj h0)
              (fun j jp hj hjp hjj h0 => hI.ee hci j jp hj hjp hjj h0)
              (fun d j hd hj h0 => hI.de hci d j hd hj h0)
              (fun q h => h)
              (fun q hq hqT => Ne.symm (hI.bmA q hq hqT).2.2.2.2.1)
              (fun q hq hqT => Ne.symm
                ((hI.bmA q hq hqT).2.2.2.2.2 hci _ hioff))
              (fun q hq hqT j hj hjo => (hI.bmA q hq hqT).2.2.2.2.2 hci j hj)
              hI.bytesB
              rfl
              (fun b => by
                try dsimp only
                by_cases h1 : b = blockPtr (D0.data (inodeIndirect blk s))
                    (dblock - POINTERS_PER_INODE)
                · rw [if_pos h1, if_pos h1]
                · rw [if_neg h1, if_neg h1]
                  by_cases h2 : b = inodeIndirect blk s
                  · rw [if_pos h2, h2, truncBlock_eq_self _
                      (fun o ho => hI.dataTrunc (inodeIndirect blk s) o ho)]
                  · rw [if_neg h2])

/-- Every byte of the all-zero block is a byte. -/
theorem zeroBlock_bytes : ∀ o, zeroBlock o < 256 := fun _ => by
  show (0 : Nat) < 256
  decide

/-- Every byte of the canned superblock is a byte. -/
theorem superBytes20_bytes : ∀ o, superBytes20 o < 256 := by
  intro o
  unfold superBytes20
  exact writeU32_bytes _ _ _ (writeU32_bytes _ _ _ (writeU32_bytes _ _ _
    (writeU32_bytes _ _ _ zeroBlock_bytes))) o

/-- Every stored byte of `diskC5` is a byte. -/
theorem diskC5_bytes : ∀ b o, diskC5.data b o < 256 := by
  intro b o
  show (if b = 0 then truncBlock superBytes20
    else if b = 1 then truncBlock blkC5 else zeroBlock) o < 256
  by_cases h0 : b = 0
  · rw [if_pos h0]
    exact truncBlock_bytes _ superBytes20_bytes o
  · rw [if_neg h0]
    by_cases h1 : b = 1
    · rw [if_pos h1]
      exact truncBlock_bytes _ (fun i =>
        writeU32_bytes _ _ _ (writeU32_bytes _ _ _ zeroBlock_bytes) i) o
    · rw [if_neg h1]
      exact zeroBlock_bytes o

/-- All blocks of `diskC5` vanish past the persisted range. -/
theorem diskC5_trunc : ∀ b o, BLOCK_SIZE ≤ o → diskC5.data b o = 0 := by
  intro b o ho
  show (if b = 0 then truncBlock superBytes20
    else if b = 1 then truncBlock blkC5 else zeroBlock) o = 0
  by_cases h0 : b = 0
  · rw [if_pos h0]
    exact truncBlock_zero_ge _ o ho
  · rw [if_neg h0]
    by_cases h1 : b = 1
    · rw [if_pos h1]
      exact truncBlock_zero_ge _ o ho
    · rw [if_neg h1]
      rfl

/-- C3 (amended): for a locally well-formed inode, a successful `fs_write`
of `L ≥ 1` bytes at offset `O` with `O + L` within the maximum file size
followed by `fs_read` of the same range returns exactly the bytes written
— for ranges inside the direct region, inside the indirect region, and
spanning both, and for unaligned starting offsets — provided the range is
not a *short* unaligned one crossing a block boundary
(`L ≥ BLOCK_SIZE ∨ O % BLOCK_SIZE + L ≤ BLOCK_SIZE`): in the excluded
case both loops run a single iteration whose `memcpy` of
`BLOCK_SIZE - O % BLOCK_SIZE`-plus-overflow bytes leaves the block, and
the bytes past the boundary are lost (see the counterexample). -/
theorem fs_write_read_roundtrip (fs : FileSystem) (D : Disk) (bm : Nat → Bool)
    (n L O : Nat) (dat : Nat → Nat)
    (hD : fs.disk = some D) (hbm : fs.free_blocks = some bm)
    (hWF : SlotWF D bm fs.meta_data.blocks n)
    (hL : 1 ≤ L) (hOL : O + L ≤ maxFileSize)
    (hside : BLOCK_SIZE ≤ L ∨ O % BLOCK_SIZE + L ≤ BLOCK_SIZE)
    (hdat : ∀ i, i < L → dat i < 256)
    (hres : (fs_write fs n dat L O).1 = Int.ofNat L) :
    fs_read (fs_write fs n dat L O).2 n L O =
      (Int.ofNat L, (List.range L).map dat) := by
  have hmaxN : O + L ≤ 4214784 := by
    have h := hOL
    unfold maxFileSize POINTERS_PER_INODE POINTERS_PER_BLOCK BLOCK_SIZE at h
    omega
  have hL64 : L < U64 := by unfold U64; omega
  have hO64 : O < U64 := by unfold U64; omega
  have hO32 : O + L < U32 := by unfold U32; omega
  have hs128 : n % INODES_PER_BLOCK < INODES_PER_BLOCK := by
    unfold INODES_PER_BLOCK
    omega
  have hblk : (oread (some D) (n / INODES_PER_BLOCK + 1)).getD zeroBlock =
      D.data (n / INODES_PER_BLOCK + 1) := by
    rw [oread_lt D _ hWF.bn_lt]
    rfl
  have hsz32 : inodeSize (D.data (n / INODES_PER_BLOCK + 1))
      (n % INODES_PER_BLOCK) < U32 :=
    readU32_lt _ _ (fun i => hWF.bytes _ i)
  simp only [fs_write, hD, hblk] at hres ⊢
  rw [Nat.mod_eq_of_lt hL64, Nat.mod_eq_of_lt hO64] at hres ⊢
  by_cases hval : inodeValid (D.data (n / INODES_PER_BLOCK + 1))
      (n % INODES_PER_BLOCK) = 0
  · rw [if_pos hval] at hres
    dsimp only at hres
    exact absurd hres (by simp only [Int.ofNat_eq_coe]; omega)
  · rw [if_neg hval] at hres ⊢
    dsimp only at hres ⊢
    rw [hbm] at hres ⊢
    simp only [Option.getD_some] at hres ⊢
    have hInv0 : WriteLoopInv fs.meta_data.blocks L O
        (n / INODES_PER_BLOCK + 1) (n % INODES_PER_BLOCK) 0 (O / BLOCK_SIZE)
        (O % BLOCK_SIZE) (firstNcopy L (O % BLOCK_SIZE))
        (D.data (n / INODES_PER_BLOCK + 1)) D bm := {
      inv := loopInv_first L _ (Nat.mod_lt _ (by decide))
      doff_lt := Nat.mod_lt _ (by decide)
      chunk := by
        rcases hside with h | h <;>
          · unfold firstNcopy BLOCK_SIZE at *
            split <;> omega
      chunkFull := by
        unfold firstNcopy BLOCK_SIZE
        split
        · right
          omega
        · left
          omega
      align := by
        left
        unfold BLOCK_SIZE
        omega
      maxfile := hOL
      bnum_lt := hWF.bn_lt
      s_lt := hs128
      blocks32 := hWF.blocks32
      bytesD := hWF.bytes
      dataTrunc := hWF.trunc
      bytesB := fun o => hWF.bytes _ o
      data_bnum := fun h => absurd h (by omega)
      dirR := hWF.dirR
      indR := hWF.indR
      entR := hWF.entR
      dd := fun d dp hd hdp => hWF.dd d hd dp hdp
      di := hWF.di
      de := fun hne d j hd hj => hWF.de hne d hd j hj
      ie := hWF.ie
      ee := fun hne j jp hj hjp => hWF.ee hne j hj jp hjp
      bmA := hWF.bmA }
    rcases writeGo_readback_go fs.meta_data.blocks dat L O
        (n / INODES_PER_BLOCK + 1) (n % INODES_PER_BLOCK) (by omega)
        (L + 1) 0 (O / BLOCK_SIZE) (O % BLOCK_SIZE)
        (firstNcopy L (O % BLOCK_SIZE)) (D.data (n / INODES_PER_BLOCK + 1))
        D bm hInv0 with hfail | ⟨Df, blkF, post⟩
    · rw [hfail] at hres
      exact absurd hres (by simp only [Int.ofNat_eq_coe]; omega)
    · rcases writeGo_size_go fs.meta_data.blocks dat L O
          (n / INODES_PER_BLOCK + 1) (n % INODES_PER_BLOCK) hs128 hO32 (by omega)
          (L + 1) 0 (O / BLOCK_SIZE) (O % BLOCK_SIZE)
          (firstNcopy L (O % BLOCK_SIZE)) (D.data (n / INODES_PER_BLOCK + 1))
          (some D) D bm rfl hWF.bn_lt
          (loopInv_first L _ (Nat.mod_lt _ (by decide)))
          (fun h => absurd h (by omega)) (fun h => absurd h (by omega))
          hsz32 with hfail2 | ⟨D2, hD2, hbl2, hsize2, hvalid2, hret2⟩
      · rw [post.ret] at hfail2
        exact absurd hfail2 (by simp only [Int.ofNat_eq_coe]; omega)
      · have hDfD2 : D2 = Df := by
          rw [post.odisk] at hD2
          exact (Option.some_inj.mp hD2).symm
        rw [hDfD2] at hsize2
        simp only [fs_read]
        try dsimp only
        rw [post.odisk]
        rw [Nat.mod_eq_of_lt hL64, Nat.mod_eq_of_lt hO64]
        rw [oread_lt Df _ (by rw [post.blocks_eq]; exact hWF.bn_lt)]
        simp only [Option.getD_some]
        rw [post.data_bnum]
        rw [inodeSize_truncBlock _ _ hs128]
        rw [post.data_bnum] at hsize2
        rw [inodeSize_truncBlock _ _ hs128] at hsize2
        have heff : effLen (inodeSize blkF (n % INODES_PER_BLOCK)) L O = L := by
          unfold effLen
          rw [Nat.mod_eq_of_lt (show L + O < U64 from by unfold U64; omega)]
          rw [if_neg (by rw [hsize2]; omega)]
        rw [heff]
        rw [post.readback (L + 1) [] (by omega)]
        rw [Nat.sub_zero, List.nil_append]
        congr 1
        apply List.map_congr_left
        intro j hj
        rw [List.mem_range] at hj
        rw [Nat.zero_add, Nat.mod_eq_of_lt (hdat j hj)]

set_option synthInstance.maxSize 2000 in
/-- Witness for `fs_write_read_roundtrip`: writing 2 bytes of value 9 at
offset 0 to the valid inode 0 of the mounted `diskC5` and reading the
range back returns exactly those bytes. -/
theorem fs_write_read_roundtrip_witness :
    fs_read (fs_write fsC5 0 (fun _ => 9) 2 0).2 0 2 0 =
      (Int.ofNat 2, (List.range 2).map (fun _ => 9)) :=
  fs_write_read_roundtrip fsC5 diskC5 bmC5 0 2 0 (fun _ => 9) rfl rfl
    { bn_lt := by decide
      blocks32 := by decide
      bytes := diskC5_bytes
      trunc := diskC5_trunc
      dirR := by decide
      indR := by decide
      entR := by decide
      dd := by decide
      di := by decide
      de := by decide
      ie := by decide
      ee := by decide
      bmA := by decide }
    (by decide) (by decide) (Or.inr (by decide))
    (fun i _ => by show (9 : Nat) < 256; decide)
    (by decide)

/-- C3 (counterexample): on the mounted 20-block disk with freshly created
valid inode 0, writing 2 bytes of value 7 at the unaligned offset 4095 (a
short range crossing the first block boundary) reports success with 2
bytes written, yet reading the same range back yields `[7, 0]` — the byte
destined past the block boundary was never stored (the source `memcpy`
runs off the end of the block buffer), contradicting the claim for ranges
whose start offset is not block-aligned. -/
theorem write_read_cross_block_mangled :
    slotValid diskC 0 ≠ 0 ∧ 4095 + 2 ≤ maxFileSize ∧
    (fs_write fsC 0 (fun _ => 7) 2 4095).1 = 2 ∧
    fs_read (fs_write fsC 0 (fun _ => 7) 2 4095).2 0 2 4095 = (2, [7, 0]) ∧
    ([7, 0] : List Nat) ≠ (List.range 2).map (fun _ => 7) := by
  decide

/-- Pointwise view of clearing one bitmap bit. -/
theorem bmSet_false_point (bm : Nat → Bool) (i q : Nat) :
    bmSet bm i false q = false ↔ q = i ∨ bm q = false := by
  unfold bmSet
  by_cases h : q = i
  · rw [if_pos h]
    simp [h]
  · rw [if_neg h]
    simp [h]

/-- Pointwise view of setting one bitmap bit. -/
theorem bmSet_true_point (bm : Nat → Bool) (i q : Nat) :
    bmSet bm i true q = true ↔ q = i ∨ bm q = true := by
  unfold bmSet
  by_cases h : q = i
  · rw [if_pos h]
    simp [h]
  · rw [if_neg h]
    simp [h]

/-- What the rebuild's direct-pointer marking loop clears: exactly the
nonzero direct pointers in the scanned window. -/
theorem markDirects_spec (blk : BlockFn) (s : Nat) : ∀ fuel d0 bm q,
    markDirects blk s fuel d0 bm q = false ↔
      bm q = false ∨ ∃ d, d0 ≤ d ∧ d < d0 + fuel ∧
        inodeDirect blk s d ≠ 0 ∧ inodeDirect blk s d = q := by
  intro fuel
  induction fuel with
  | zero =>
    intro d0 bm q
    simp only [markDirects]
    constructor
    · exact fun h => Or.inl h
    · rintro (h | ⟨d, h1, h2, -, -⟩)
      · exact h
      · omega
  | succ f ih =>
    intro d0 bm q
    simp only [markDirects]
    by_cases hg : inodeDirect blk s d0 ≠ 0
    · rw [if_pos hg, ih (d0 + 1) _ q]
      constructor
      · rintro (h | ⟨d, h1, h2, h3, h4⟩)
        · rcases (bmSet_false_point bm _ q).mp h with he | hbm
          · exact Or.inr ⟨d0, Nat.le_refl _, by omega, hg, he.symm⟩
          · exact Or.inl hbm
        · exact Or.inr ⟨d, by omega, by omega, h3, h4⟩
      · rintro (h | ⟨d, h1, h2, h3, h4⟩)
        · exact Or.inl ((bmSet_false_point bm _ q).mpr (Or.inr h))
        · by_cases hd : d = d0
          · subst hd
            exact Or.inl ((bmSet_false_point bm _ q).mpr (Or.inl h4.symm))
          · exact Or.inr ⟨d, by omega, by omega, h3, h4⟩
    · rw [if_neg hg, ih (d0 + 1) bm q]
      constructor
      · rintro (h | ⟨d, h1, h2, h3, h4⟩)
        · exact Or.inl h
        · exact Or.inr ⟨d, by omega, by omega, h3, h4⟩
      · rintro (h | ⟨d, h1, h2, h3, h4⟩)
        · exact Or.inl h
        · by_cases hd : d = d0
          · subst hd
            exact absurd (not_not.mp hg) h3
          · exact Or.inr ⟨d, by omega, by omega, h3, h4⟩

/-- What the rebuild's indirect-entry marking loop clears: exactly the
nonzero entries in the scanned window. -/
theorem markIndEntries_spec (ind : BlockFn) : ∀ fuel p0 bm q,
    markIndEntries ind fuel p0 bm q = false ↔
      bm q = false ∨ ∃ j, p0 ≤ j ∧ j < p0 + fuel ∧
        blockPtr ind j ≠ 0 ∧ blockPtr ind j = q := by
  intro fuel
  induction fuel with
  | zero =>
    intro p0 bm q
    simp only [markIndEntries]
    constructor
    · exact fun h => Or.inl h
    · rintro (h | ⟨j, h1, h2, -, -⟩)
      · exact h
      · omega
  | succ f ih =>
    intro p0 bm q
    simp only [markIndEntries]
    by_cases hg : blockPtr ind p0 ≠ 0
    · rw [if_pos hg, ih (p0 + 1) _ q]
      constructor
      · rintro (h | ⟨j, h1, h2, h3, h4⟩)
        · rcases (bmSet_false_point bm _ q).mp h with he | hbm
          · exact Or.inr ⟨p0, Nat.le_refl _, by omega, hg, he.symm⟩
          · exact Or.inl hbm
        · exact Or.inr ⟨j, by omega, by omega, h3, h4⟩
      · rintro (h | ⟨j, h1, h2, h3, h4⟩)
        · exact Or.inl ((bmSet_false_point bm _ q).mpr (Or.inr h))
        · by_cases hj : j = p0
          · subst hj
            exact Or.inl ((bmSet_false_point bm _ q).mpr (Or.inl h4.symm))
          · exact Or.inr ⟨j, by omega, by omega, h3, h4⟩
    · rw [if_neg hg, ih (p0 + 1) bm q]
      constructor
      · rintro (h | ⟨j, h1, h2, h3, h4⟩)
        · exact Or.inl h
        · exact Or.inr ⟨j, by omega, by omega, h3, h4⟩
      · rintro (h | ⟨j, h1, h2, h3, h4⟩)
        · exact Or.inl h
        · by_cases hj : j = p0
          · subst hj
            exact absurd (not_not.mp hg) h3
          · exact Or.inr ⟨j, by omega, by omega, h3, h4⟩

/-- One slot's rebuild pass never aborts when its indirect pointer is
readable, and clears exactly the blocks `SlotMark` describes (nothing
when the slot is invalid). -/
theorem rebuildSlot_spec (D : Disk) (blk : BlockFn) (s : Nat) (bm : Nat → Bool)
    (hind : inodeValid blk s ≠ 0 → inodeIndirect blk s ≠ 0 →
      inodeIndirect blk s < D.blocks) :
    (rebuildSlot (some D) blk s bm).1 = true ∧
    ∀ q, ((rebuildSlot (some D) blk s bm).2 q = false ↔
      bm q = false ∨ (inodeValid blk s ≠ 0 ∧ SlotMark D blk s q)) := by
  simp only [rebuildSlot]
  by_cases hv : inodeValid blk s ≠ 0
  · rw [if_pos hv]
    by_cases hi : inodeIndirect blk s ≠ 0
    · rw [if_pos hi, oread_lt D _ (hind hv hi)]
      refine ⟨rfl, fun q => ?_⟩
      try dsimp only
      rw [markIndEntries_spec, bmSet_false_point, markDirects_spec]
      unfold SlotMark
      constructor
      · rintro ((he | (h | ⟨d, hd1, hd2, hd3, hd4⟩)) | ⟨j, hj1, hj2, hj3, hj4⟩)
        · exact Or.inr ⟨hv, Or.inr ⟨hi, Or.inl he.symm⟩⟩
        · exact Or.inl h
        · exact Or.inr ⟨hv, Or.inl ⟨d, by omega, hd3, hd4⟩⟩
        · exact Or.inr ⟨hv, Or.inr ⟨hi, Or.inr ⟨j, by omega, hj3, hj4⟩⟩⟩
      · rintro (h | ⟨-, (⟨d, hd1, hd2, hd3⟩ | ⟨-, (he | ⟨j, hj1, hj2, hj3⟩)⟩)⟩)
        · exact Or.inl (Or.inr (Or.inl h))
        · exact Or.inl (Or.inr (Or.inr ⟨d, by omega, by omega, hd2, hd3⟩))
        · exact Or.inl (Or.inl he.symm)
        · exact Or.inr ⟨j, by omega, by omega, hj2, hj3⟩
    · rw [if_neg hi]
      refine ⟨rfl, fun q => ?_⟩
      try dsimp only
      rw [markDirects_spec]
      unfold SlotMark
      constructor
      · rintro (h | ⟨d, hd1, hd2, hd3, hd4⟩)
        · exact Or.inl h
        · exact Or.inr ⟨hv, Or.inl ⟨d, by omega, hd3, hd4⟩⟩
      · rintro (h | ⟨-, (⟨d, hd1, hd2, hd3⟩ | ⟨hi2, -⟩)⟩)
        · exact Or.inl h
        · exact Or.inr ⟨d, by omega, by omega, hd2, hd3⟩
        · exact absurd hi2 hi
  · rw [if_neg hv]
    refine ⟨rfl, fun q => ?_⟩
    constructor
    · exact fun h => Or.inl h
    · rintro (h | ⟨hv2, -⟩)
      · exact h
      · exact absurd hv2 hv

/-- The per-block slot scan of the rebuild never aborts when all indirect
pointers of its valid slots are readable, and clears exactly the union of
its slots' marks. -/
theorem rebuildSlots_spec (D : Disk) (blk : BlockFn) : ∀ fuel s0 bm,
    (∀ s, s0 ≤ s → s < s0 + fuel → inodeValid blk s ≠ 0 →
      inodeIndirect blk s ≠ 0 → inodeIndirect blk s < D.blocks) →
    (rebuildSlots (some D) blk fuel s0 bm).1 = true ∧
    ∀ q, ((rebuildSlots (some D) blk fuel s0 bm).2 q = false ↔
      bm q = false ∨ ∃ s, s0 ≤ s ∧ s < s0 + fuel ∧ inodeValid blk s ≠ 0 ∧
        SlotMark D blk s q) := by
  intro fuel
  induction fuel with
  | zero =>
    intro s0 bm hind
    refine ⟨rfl, fun q => ?_⟩
    simp only [rebuildSlots]
    constructor
    · exact fun h => Or.inl h
    · rintro (h | ⟨s, h1, h2, -, -⟩)
      · exact h
      · omega
  | succ f ih =>
    intro s0 bm hind
    simp only [rebuildSlots]
    obtain ⟨hfl, hch⟩ := rebuildSlot_spec D blk s0 bm
      (fun hv hi => hind s0 (Nat.le_refl _) (by omega) hv hi)
    generalize hrs : rebuildSlot (some D) blk s0 bm = pr
    rw [hrs] at hfl hch
    obtain ⟨fl, bm1⟩ := pr
    · dsimp only at hfl hch
      subst hfl
      try dsimp only
      obtain ⟨hfl2, hch2⟩ := ih (s0 + 1) bm1
        (fun s h1 h2 => hind s (by omega) (by omega))
      refine ⟨hfl2, fun q => ?_⟩
      rw [hch2 q]
      constructor
      · rintro (h | ⟨s, h1, h2, h3, h4⟩)
        · rcases (hch q).mp h with hbm | ⟨hv, hm⟩
          · exact Or.inl hbm
          · exact Or.inr ⟨s0, Nat.le_refl _, by omega, hv, hm⟩
        · exact Or.inr ⟨s, by omega, by omega, h3, h4⟩
      · rintro (h | ⟨s, h1, h2, h3, h4⟩)
        · exact Or.inl ((hch q).mpr (Or.inl h))
        · by_cases hs : s = s0
          · subst hs
            exact Or.inl ((hch q).mpr (Or.inr ⟨h3, h4⟩))
          · exact Or.inr ⟨s, by omega, by omega, h3, h4⟩

/-- The rebuild's block scan, when every scanned inode-table block and
every indirect pointer of its valid slots is readable, clears exactly the
table blocks themselves plus the union of all slot marks. -/
theorem rebuildGo_spec (D : Disk) : ∀ fuel bn0 bm,
    (∀ bn, bn0 ≤ bn → bn < bn0 + fuel → bn < D.blocks ∧
      ∀ s, s < INODES_PER_BLOCK → inodeValid (D.data bn) s ≠ 0 →
        inodeIndirect (D.data bn) s ≠ 0 →
        inodeIndirect (D.data bn) s < D.blocks) →
    ∀ q, (rebuildGo (some D) fuel bn0 bm q = false ↔
      bm q = false ∨ ∃ bn, bn0 ≤ bn ∧ bn < bn0 + fuel ∧
        (q = bn ∨ ∃ s, s < INODES_PER_BLOCK ∧
          inodeValid (D.data bn) s ≠ 0 ∧ SlotMark D (D.data bn) s q)) := by
  intro fuel
  induction fuel with
  | zero =>
    intro bn0 bm hh q
    simp only [rebuildGo]
    constructor
    · exact fun h => Or.inl h
    · rintro (h | ⟨bn, h1, h2, -⟩)
      · exact h
      · omega
  | succ f ih =>
    intro bn0 bm hh q
    simp only [rebuildGo]
    obtain ⟨hbn0, hslots⟩ := hh bn0 (Nat.le_refl _) (by omega)
    rw [oread_lt D bn0 hbn0]
    try dsimp only
    obtain ⟨hfl, hch⟩ := rebuildSlots_spec D (D.data bn0) INODES_PER_BLOCK 0 bm
      (fun s h1 h2 => hslots s (by omega))
    generalize hrs : rebuildSlots (some D) (D.data bn0) INODES_PER_BLOCK 0 bm = pr
    rw [hrs] at hfl hch
    obtain ⟨fl, bm1⟩ := pr
    · dsimp only at hfl hch
      subst hfl
      try dsimp only
      rw [ih (bn0 + 1) _ (fun bn h1 h2 => hh bn (by omega) (by omega)) q]
      rw [bmSet_false_point]
      constructor
      · rintro ((he | h) | ⟨bn, h1, h2, h3⟩)
        · exact Or.inr ⟨bn0, Nat.le_refl _, by omega, Or.inl he⟩
        · rcases (hch q).mp h with hbm | ⟨s, -, h2s, h3s, h4s⟩
          · exact Or.inl hbm
          · exact Or.inr ⟨bn0, Nat.le_refl _, by omega,
              Or.inr ⟨s, by omega, h3s, h4s⟩⟩
        · exact Or.inr ⟨bn, by omega, by omega, h3⟩
      · rintro (h | ⟨bn, h1, h2, h3⟩)
        · exact Or.inl (Or.inr ((hch q).mpr (Or.inl h)))
        · by_cases hbn : bn = bn0
          · subst hbn
            rcases h3 with he | ⟨s, h1s, h2s, h3s⟩
            · exact Or.inl (Or.inl he)
            · exact Or.inl (Or.inr ((hch q).mpr
                (Or.inr ⟨s, by omega, by omega, h2s, h3s⟩)))
          · exact Or.inr ⟨bn, by omega, by omega, h3⟩

/-- Reachability through the table equals existence of a valid slot in
some table block whose rebuild pass marks the block. -/
theorem reaches_iff_marks (D : Disk) (ib q : Nat) :
    reaches D ib q ↔ ∃ bn, 1 ≤ bn ∧ bn < 1 + ib ∧
      ∃ s, s < INODES_PER_BLOCK ∧ inodeValid (D.data bn) s ≠ 0 ∧
        SlotMark D (D.data bn) s q := by
  constructor
  · rintro ⟨n, idx, hn, hidx, hv, hp, hq0⟩
    have hn2 : n < 128 * ib := hn
    have hidx2 : idx < 1030 := hidx
    have e1 : 1 ≤ n / INODES_PER_BLOCK + 1 := by
      show 1 ≤ n / 128 + 1
      omega
    have e2 : n / INODES_PER_BLOCK + 1 < 1 + ib := by
      show n / 128 + 1 < 1 + ib
      omega
    have e3 : n % INODES_PER_BLOCK < INODES_PER_BLOCK := by
      show n % 128 < 128
      omega
    refine ⟨n / INODES_PER_BLOCK + 1, e1, e2, n % INODES_PER_BLOCK, e3, hv, ?_⟩
    unfold ptrVal at hp
    try dsimp only at hp
    by_cases h5 : idx < POINTERS_PER_INODE
    · rw [if_pos h5] at hp
      exact Or.inl ⟨idx, h5, by rw [hp]; exact hq0, hp⟩
    · rw [if_neg h5] at hp
      by_cases h6 : idx = POINTERS_PER_INODE
      · rw [if_pos h6] at hp
        exact Or.inr ⟨by rw [hp]; exact hq0, Or.inl hp⟩
      · rw [if_neg h6] at hp
        by_cases h7 : inodeIndirect (D.data (n / INODES_PER_BLOCK + 1))
            (n % INODES_PER_BLOCK) ≠ 0
        · rw [if_pos h7] at hp
          have h52 : ¬ idx < 5 := h5
          have h62 : ¬ idx = 5 := h6
          exact Or.inr ⟨h7, Or.inr ⟨idx - 6,
            by show idx - 6 < 1024; omega,
            by rw [hp]; exact hq0, hp⟩⟩
        · rw [if_neg h7] at hp
          exact absurd hp.symm hq0
  · rintro ⟨bn, h1, h2, s, hs, hv, hm⟩
    have hs2 : s < 128 := hs
    have hbn : ((bn - 1) * INODES_PER_BLOCK + s) / INODES_PER_BLOCK + 1 = bn := by
      show ((bn - 1) * 128 + s) / 128 + 1 = bn
      omega
    have hsn : ((bn - 1) * INODES_PER_BLOCK + s) % INODES_PER_BLOCK = s := by
      show ((bn - 1) * 128 + s) % 128 = s
      omega
    have hnlt : (bn - 1) * INODES_PER_BLOCK + s < INODES_PER_BLOCK * ib := by
      show (bn - 1) * 128 + s < 128 * ib
      omega
    rcases hm with ⟨d, hd, hnz, heq⟩ | ⟨hiz, (he | ⟨j, hj, hnz, heq⟩)⟩
    · have hd2 : d < 5 := hd
      refine ⟨(bn - 1) * INODES_PER_BLOCK + s, d, hnlt,
        by show d < 1030; omega, ?_, ?_,
        by rw [← heq]; exact hnz⟩
      · unfold slotValid
        rw [hbn, hsn]
        exact hv
      · unfold ptrVal
        try dsimp only
        rw [hbn, hsn, if_pos hd]
        exact heq
    · refine ⟨(bn - 1) * INODES_PER_BLOCK + s, POINTERS_PER_INODE, hnlt,
        by decide, ?_, ?_, by rw [← he]; exact hiz⟩
      · unfold slotValid
        rw [hbn, hsn]
        exact hv
      · unfold ptrVal
        try dsimp only
        rw [hbn, hsn, if_neg (Nat.lt_irrefl _), if_pos rfl]
        exact he
    · have hj2 : j < 1024 := hj
      refine ⟨(bn - 1) * INODES_PER_BLOCK + s, 6 + j, hnlt,
        by show 6 + j < 1030; omega, ?_, ?_,
        by rw [← heq]; exact hnz⟩
      · unfold slotValid
        rw [hbn, hsn]
        exact hv
      · unfold ptrVal
        try dsimp only
        rw [hbn, hsn, if_neg (by show ¬ 6 + j < 5; omega),
          if_neg (by show ¬ 6 + j = 5; omega), if_pos hiz]
        rw [show 6 + j - 6 = j from by omega]
        exact heq

/-- Dense coordinates: the owning block of slot `s` of table block `bn`. -/
theorem denseSplit (bn s : Nat) (h1 : 1 ≤ bn) (hs : s < INODES_PER_BLOCK) :
    ((bn - 1) * INODES_PER_BLOCK + s) / INODES_PER_BLOCK + 1 = bn ∧
    ((bn - 1) * INODES_PER_BLOCK + s) % INODES_PER_BLOCK = s := by
  have hs2 : s < 128 := hs
  constructor
  · show ((bn - 1) * 128 + s) / 128 + 1 = bn
    omega
  · show ((bn - 1) * 128 + s) % 128 = s
    omega

/-- The first five pointer positions are the direct pointers. -/
theorem ptrVal_direct (D : Disk) (n d : Nat) (hd : d < POINTERS_PER_INODE) :
    ptrVal D n d = slotDirect D n d := by
  unfold ptrVal slotDirect
  try dsimp only
  rw [if_pos hd]

/-- Pointer position five is the indirect pointer. -/
theorem ptrVal_ind (D : Disk) (n : Nat) :
    ptrVal D n POINTERS_PER_INODE = slotIndirect D n := by
  unfold ptrVal slotIndirect
  try dsimp only
  rw [if_neg (Nat.lt_irrefl _), if_pos rfl]

/-- Pointer positions six onward are the entries of the indirect block. -/
theorem ptrVal_entry (D : Disk) (n j : Nat) (hi : slotIndirect D n ≠ 0) :
    ptrVal D n (6 + j) = blockPtr (D.data (slotIndirect D n)) j := by
  unfold slotIndirect at *
  unfold ptrVal
  try dsimp only
  rw [if_neg (by show ¬ 6 + j < 5; omega), if_neg (by show ¬ 6 + j = 5; omega),
    if_pos hi]
  rw [show 6 + j - 6 = j from by omega]

/-- Pointer positions six onward read as zero without an indirect block. -/
theorem ptrVal_entry_zero (D : Disk) (n j : Nat) (hi : slotIndirect D n = 0) :
    ptrVal D n (6 + j) = 0 := by
  unfold slotIndirect at *
  unfold ptrVal
  try dsimp only
  rw [if_neg (by show ¬ 6 + j < 5; omega), if_neg (by show ¬ 6 + j = 5; omega),
    if_neg (fun hc => hc hi)]

/-- Every pointer position is a direct pointer, the indirect pointer or an
indirect-block entry. -/
theorem ptrVal_cases (D : Disk) (n idx : Nat) (hidx : idx < PTRS_PER_SLOT) :
    idx < POINTERS_PER_INODE ∨ idx = POINTERS_PER_INODE ∨
      (∃ j, j < POINTERS_PER_BLOCK ∧ idx = 6 + j) := by
  have h2 : idx < 1030 := hidx
  by_cases h5 : idx < 5
  · exact Or.inl h5
  · by_cases h6 : idx = 5
    · exact Or.inr (Or.inl h6)
    · exact Or.inr (Or.inr ⟨idx - 6, by show idx - 6 < 1024; omega,
        by show idx = 6 + (idx - 6); omega⟩)

/-- A successful raw write replaces one stored block with the truncated
buffer. -/
theorem writeBlock_eq (D : Disk) (p : Nat) (f : BlockFn) (hp : p < D.blocks) :
    D.writeBlock p f = some (updDisk D p f) := by
  unfold Disk.writeBlock updDisk
  rw [if_pos hp]

/-- An unchecked write below the block count updates the disk. -/
theorem owriteD_eq (D : Disk) (p : Nat) (f : BlockFn) (hp : p < D.blocks) :
    owriteD (some D) p f = some (updDisk D p f) := by
  show (match D.writeBlock p f with
    | none => some D
    | some dp => some dp) = some (updDisk D p f)
  rw [writeBlock_eq D p f hp]

/-- A checked write below the block count updates the disk. -/
theorem owriteChk_eq (D : Disk) (p : Nat) (f : BlockFn) (hp : p < D.blocks) :
    owriteChk (some D) p f = some (updDisk D p f) := by
  show D.writeBlock p f = some (updDisk D p f)
  exact writeBlock_eq D p f hp

/-- The raw write leaves the block count unchanged. -/
theorem updDisk_blocks (D : Disk) (p : Nat) (f : BlockFn) :
    (updDisk D p f).blocks = D.blocks := rfl

/-- The raw write leaves other blocks unchanged. -/
theorem updDisk_data_ne (D : Disk) (p : Nat) (f : BlockFn) (b : Nat)
    (h : b ≠ p) : (updDisk D p f).data b = D.data b := by
  unfold updDisk
  try dsimp only
  rw [if_neg h]

/-- The raw write stores the truncated buffer. -/
theorem updDisk_data_eq (D : Disk) (p : Nat) (f : BlockFn) :
    (updDisk D p f).data p = truncBlock f := by
  unfold updDisk
  try dsimp only
  rw [if_pos rfl]

/-- The raw write preserves the per-block truncation property. -/
theorem updDisk_trunc (D : Disk) (p : Nat) (f : BlockFn)
    (h : ∀ b o, BLOCK_SIZE ≤ o → D.data b o = 0) :
    ∀ b o, BLOCK_SIZE ≤ o → (updDisk D p f).data b o = 0 := by
  intro b o ho
  by_cases hb : b = p
  · rw [hb, updDisk_data_eq]
    exact truncBlock_zero_ge f o ho
  · rw [updDisk_data_ne D p f b hb]
    exact h b o ho

/-- A write to a block above the table region that is nobody's indirect
block leaves every decoded slot field and pointer value unchanged. -/
theorem updDisk_ptr_frame (D : Disk) (ib p : Nat) (f : BlockFn)
    (hp : ib < p)
    (hind : ∀ n, n < INODES_PER_BLOCK * ib → slotIndirect D n ≠ 0 →
      slotIndirect D n ≠ p) :
    ∀ n, n < INODES_PER_BLOCK * ib →
      slotValid (updDisk D p f) n = slotValid D n ∧
      slotSize (updDisk D p f) n = slotSize D n ∧
      ∀ idx, ptrVal (updDisk D p f) n idx = ptrVal D n idx := by
  intro n hn
  have hn2 : n < 128 * ib := hn
  have hbn : n / INODES_PER_BLOCK + 1 ≠ p := by
    show n / 128 + 1 ≠ p
    omega
  have hdat : (updDisk D p f).data (n / INODES_PER_BLOCK + 1) =
      D.data (n / INODES_PER_BLOCK + 1) := updDisk_data_ne D p f _ hbn
  refine ⟨?_, ?_, ?_⟩
  · unfold slotValid
    rw [hdat]
  · unfold slotSize
    rw [hdat]
  · intro idx
    unfold ptrVal
    try dsimp only
    rw [hdat]
    by_cases h5 : idx < POINTERS_PER_INODE
    · rw [if_pos h5, if_pos h5]
    · rw [if_neg h5, if_neg h5]
      by_cases h6 : idx = POINTERS_PER_INODE
      · rw [if_pos h6, if_pos h6]
      · rw [if_neg h6, if_neg h6]
        by_cases h7 : inodeIndirect (D.data (n / INODES_PER_BLOCK + 1))
            (n % INODES_PER_BLOCK) ≠ 0
        · rw [if_pos h7, if_pos h7]
          have hiq : inodeIndirect (D.data (n / INODES_PER_BLOCK + 1))
              (n % INODES_PER_BLOCK) ≠ p := hind n hn h7
          rw [updDisk_data_ne D p f _ hiq]
        · rw [if_neg h7, if_neg h7]

/-- Such a write also leaves the reachable set unchanged. -/
theorem updDisk_reaches_frame (D : Disk) (ib p : Nat) (f : BlockFn)
    (hp : ib < p)
    (hind : ∀ n, n < INODES_PER_BLOCK * ib → slotIndirect D n ≠ 0 →
      slotIndirect D n ≠ p) :
    ∀ q, (reaches (updDisk D p f) ib q ↔ reaches D ib q) := by
  intro q
  unfold reaches
  constructor
  · rintro ⟨n, idx, hn, hidx, hv, hpt, hq0⟩
    obtain ⟨e1, -, e3⟩ := updDisk_ptr_frame D ib p f hp hind n hn
    exact ⟨n, idx, hn, hidx, by rw [← e1]; exact hv, by rw [← e3]; exact hpt, hq0⟩
  · rintro ⟨n, idx, hn, hidx, hv, hpt, hq0⟩
    obtain ⟨e1, -, e3⟩ := updDisk_ptr_frame D ib p f hp hind n hn
    exact ⟨n, idx, hn, hidx, by rw [e1]; exact hv, by rw [e3]; exact hpt, hq0⟩

/-- Such a write preserves the whole structural invariant. -/
theorem updDisk_DiskWF (D : Disk) (ib p : Nat) (f : BlockFn)
    (hWF : DiskWF D ib) (hp : ib < p)
    (hind : ∀ n, n < INODES_PER_BLOCK * ib → slotIndirect D n ≠ 0 →
      slotIndirect D n ≠ p) :
    DiskWF (updDisk D p f) ib := by
  have hfr := updDisk_ptr_frame D ib p f hp hind
  refine ⟨hWF.ib_lt, hWF.blocks32, updDisk_trunc D p f hWF.trunc, ?_, ?_, ?_⟩
  · intro n idx hn hidx hv hnz
    rw [(hfr n hn).1] at hv
    rw [(hfr n hn).2.2 idx] at hnz ⊢
    exact hWF.ptrR n idx hn hidx hv hnz
  · intro n idx np idxp hn hidx hnp hidxp hv hvp hnz hne
    rw [(hfr n hn).1] at hv
    rw [(hfr np hnp).1] at hvp
    rw [(hfr n hn).2.2 idx] at hnz ⊢
    rw [(hfr np hnp).2.2 idxp]
    exact hWF.inj n idx np idxp hn hidx hnp hidxp hv hvp hnz hne
  · intro n idx hn hidx hv
    rw [(hfr n hn).1] at hv
    rw [(hfr n hn).2.2 idx]
    exact hWF.invz n idx hn hidx hv

/-- Coordinate form of the decoded `indirect` field. -/
theorem slotIndirect_block (D : Disk) (bn j : Nat) (h1 : 1 ≤ bn)
    (hj : j < INODES_PER_BLOCK) :
    slotIndirect D ((bn - 1) * INODES_PER_BLOCK + j) =
      inodeIndirect (D.data bn) j := by
  unfold slotIndirect INODES_PER_BLOCK at *
  have e1 : ((bn - 1) * 128 + j) / 128 + 1 = bn := by omega
  have e2 : ((bn - 1) * 128 + j) % 128 = j := by omega
  rw [e1, e2]

/-- Coordinate form of the decoded `direct` fields. -/
theorem slotDirect_block (D : Disk) (bn j d : Nat) (h1 : 1 ≤ bn)
    (hj : j < INODES_PER_BLOCK) :
    slotDirect D ((bn - 1) * INODES_PER_BLOCK + j) d =
      inodeDirect (D.data bn) j d := by
  unfold slotDirect INODES_PER_BLOCK at *
  have e1 : ((bn - 1) * 128 + j) / 128 + 1 = bn := by omega
  have e2 : ((bn - 1) * 128 + j) % 128 = j := by omega
  rw [e1, e2]

/-- The mount-time bitmap rebuild on a structurally well-formed disk marks
unavailable exactly block 0, the inode-table blocks, the out-of-range
indices and the blocks reachable through valid inodes. -/
theorem fs_initialize_spec (D : Disk) (meta : SuperMeta)
    (hWF : DiskWF D meta.inode_blocks) :
    ∀ q, fs_initialize_free_block_bitmap (some D) meta q = false ↔
      q ≤ meta.inode_blocks ∨ meta.blocks ≤ q ∨
        reaches D meta.inode_blocks q := by
  intro q
  unfold fs_initialize_free_block_bitmap
  have hh : ∀ bn, 1 ≤ bn → bn < 1 + meta.inode_blocks → bn < D.blocks ∧
      ∀ s, s < INODES_PER_BLOCK → inodeValid (D.data bn) s ≠ 0 →
        inodeIndirect (D.data bn) s ≠ 0 →
        inodeIndirect (D.data bn) s < D.blocks := by
    intro bn hb1 hb2
    have hbl : bn < D.blocks := by
      have := hWF.ib_lt
      omega
    refine ⟨hbl, fun s hs hv hi => ?_⟩
    have hs2 : s < 128 := hs
    have hn : (bn - 1) * INODES_PER_BLOCK + s <
        INODES_PER_BLOCK * meta.inode_blocks := by
      show (bn - 1) * 128 + s < 128 * meta.inode_blocks
      omega
    have hv2 : slotValid D ((bn - 1) * INODES_PER_BLOCK + s) ≠ 0 := by
      rw [slotValid_block D bn s hb1 hs]
      exact hv
    have hi2 : ptrVal D ((bn - 1) * INODES_PER_BLOCK + s)
        POINTERS_PER_INODE ≠ 0 := by
      rw [ptrVal_ind, slotIndirect_block D bn s hb1 hs]
      exact hi
    have hb := (hWF.ptrR _ POINTERS_PER_INODE hn (by decide) hv2 hi2).2
    rw [ptrVal_ind, slotIndirect_block D bn s hb1 hs] at hb
    exact hb
  rw [rebuildGo_spec D meta.inode_blocks 1 _ hh q]
  have hbm0 : (bmSet (fun i => decide (i < meta.blocks)) 0 false) q = false ↔
      q = 0 ∨ meta.blocks ≤ q := by
    rw [bmSet_false_point]
    simp only [decide_eq_false_iff_not, Nat.not_lt]
  constructor
  · rintro (h | ⟨bn, hb1, hb2, he | hm⟩)
    · rcases hbm0.mp h with h0 | hge
      · exact Or.inl (by omega)
      · exact Or.inr (Or.inl hge)
    · exact Or.inl (by omega)
    · exact Or.inr (Or.inr
        ((reaches_iff_marks D meta.inode_blocks q).mpr ⟨bn, hb1, hb2, hm⟩))
  · rintro (hle | hge | hr)
    · by_cases h0 : q = 0
      · exact Or.inl (hbm0.mpr (Or.inl h0))
      · exact Or.inr ⟨q, by omega, by omega, Or.inl rfl⟩
    · exact Or.inl (hbm0.mpr (Or.inr hge))
    · obtain ⟨bn, hb1, hb2, hm⟩ :=
        (reaches_iff_marks D meta.inode_blocks q).mp hr
      exact Or.inr ⟨bn, hb1, hb2, Or.inr hm⟩

/-- A successful mount installs the superblock copy, the disk reference
and the rebuilt bitmap. -/
theorem fs_mount_ok_shape (fs : FileSystem) (disk : Disk)
    (hok : (fs_mount fs disk).1 = true) :
    (fs_mount fs disk).2 = ⟨some disk,
      ⟨superMagic (disk.data 0), superBlocks (disk.data 0),
       superInodeBlocks (disk.data 0), superInodes (disk.data 0)⟩,
      some (fs_initialize_free_block_bitmap (some disk)
        ⟨superMagic (disk.data 0), superBlocks (disk.data 0),
         superInodeBlocks (disk.data 0), superInodes (disk.data 0)⟩)⟩ := by
  unfold fs_mount at hok ⊢
  by_cases h1 : sameDiskRef fs.disk disk = true
  · rw [if_pos h1] at hok
    exact absurd hok (fun h => Bool.noConfusion h)
  · rw [if_neg h1] at hok ⊢
    by_cases hb0 : 0 < disk.blocks
    · have hrb : disk.readBlock 0 = some (disk.data 0) := by
        unfold Disk.readBlock
        rw [if_pos hb0]
      rw [hrb] at hok ⊢
      try dsimp only at hok ⊢
      by_cases h2 : superMagic (disk.data 0) ≠ MAGIC_NUMBER
      · rw [if_pos h2] at hok
        exact absurd hok (fun h => Bool.noConfusion h)
      · rw [if_neg h2] at hok ⊢
        by_cases h3 : superInodes (disk.data 0) <
            superInodeBlocks (disk.data 0) * INODES_PER_BLOCK % U32
        · rw [if_pos h3] at hok
          exact absurd hok (fun h => Bool.noConfusion h)
        · rw [if_neg h3] at hok ⊢
          by_cases h4 : superBlocks (disk.data 0) < 3
          · rw [if_pos h4] at hok
            exact absurd hok (fun h => Bool.noConfusion h)
          · rw [if_neg h4] at hok ⊢
            by_cases h5 : superInodeBlocks (disk.data 0) <
                superBlocks (disk.data 0) / 10
            · rw [if_pos h5] at hok
              exact absurd hok (fun h => Bool.noConfusion h)
            · rw [if_neg h5]
    · have hrb : disk.readBlock 0 = none := by
        unfold Disk.readBlock
        rw [if_neg hb0]
      rw [hrb] at hok
      exact absurd hok (fun h => Bool.noConfusion h)

/-- Mounting a structurally well-formed disk whose superblock records its
own block count yields a well-formed engine. -/
theorem mount_EngineWF (fs : FileSystem) (disk : Disk)
    (hWF : DiskWF disk (superInodeBlocks (disk.data 0)))
    (hsb : superBlocks (disk.data 0) = disk.blocks)
    (hok : (fs_mount fs disk).1 = true) :
    EngineWF (fs_mount fs disk).2 := by
  have hshape := fs_mount_ok_shape fs disk hok
  rw [hshape]
  refine ⟨disk, _, rfl, rfl, hsb, hWF, ?_⟩
  intro p hp
  have hspec := fs_initialize_spec disk
    ⟨superMagic (disk.data 0), superBlocks (disk.data 0),
     superInodeBlocks (disk.data 0), superInodes (disk.data 0)⟩ hWF p
  dsimp only at hspec hp ⊢
  have hnf : ¬ (fs_initialize_free_block_bitmap (some disk)
      ⟨superMagic (disk.data 0), superBlocks (disk.data 0),
       superInodeBlocks (disk.data 0), superInodes (disk.data 0)⟩ p = false) := by
    rw [hp]
    exact fun h => Bool.noConfusion h
  rw [hspec] at hnf
  push_neg at hnf
  obtain ⟨h1, h2, h3⟩ := hnf
  rw [hsb] at h2
  exact ⟨by omega, by omega, h3⟩

/-- Pointer values only depend on the slot's decoded fields and the bytes
of its indirect block. -/
theorem ptrVal_congr (D Dp : Disk) (m : Nat)
    (hdir : ∀ d, d < POINTERS_PER_INODE → slotDirect Dp m d = slotDirect D m d)
    (hind : slotIndirect Dp m = slotIndirect D m)
    (hdat : slotIndirect D m ≠ 0 →
      Dp.data (slotIndirect D m) = D.data (slotIndirect D m)) :
    ∀ idx, ptrVal Dp m idx = ptrVal D m idx := by
  intro idx
  by_cases h5 : idx < POINTERS_PER_INODE
  · rw [ptrVal_direct Dp m idx h5, ptrVal_direct D m idx h5]
    exact hdir idx h5
  · by_cases h6 : idx = POINTERS_PER_INODE
    · rw [h6, ptrVal_ind, ptrVal_ind]
      exact hind
    · have h5b : ¬ idx < 5 := h5
      have h6b : ¬ idx = 5 := h6
      have h6e : idx = 6 + (idx - 6) := by omega
      rw [h6e]
      by_cases h7 : slotIndirect D m ≠ 0
      · rw [ptrVal_entry D m _ h7, ptrVal_entry Dp m _ (by rw [hind]; exact h7),
          hind, hdat h7]
      · have h70 : slotIndirect D m = 0 := not_not.mp h7
        rw [ptrVal_entry_zero D m _ h70,
          ptrVal_entry_zero Dp m _ (by rw [hind]; exact h70)]

/-- Decoded fields of a slot whose table block was just rewritten. -/
theorem slot_updDisk_table (D : Disk) (p : Nat) (f : BlockFn) (m : Nat)
    (h : m / INODES_PER_BLOCK + 1 = p) :
    slotValid (updDisk D p f) m = inodeValid f (m % INODES_PER_BLOCK) ∧
    slotSize (updDisk D p f) m = inodeSize f (m % INODES_PER_BLOCK) ∧
    (∀ d, d < POINTERS_PER_INODE →
      slotDirect (updDisk D p f) m d = inodeDirect f (m % INODES_PER_BLOCK) d) ∧
    slotIndirect (updDisk D p f) m = inodeIndirect f (m % INODES_PER_BLOCK) := by
  have hs : m % INODES_PER_BLOCK < INODES_PER_BLOCK := by
    show m % 128 < 128
    omega
  unfold slotValid slotSize slotDirect slotIndirect
  rw [h, updDisk_data_eq]
  exact ⟨inodeValid_truncBlock f _ hs, inodeSize_truncBlock f _ hs,
    fun d hd => inodeDirect_truncBlock f _ d hs hd,
    inodeIndirect_truncBlock f _ hs⟩

/-- Decoded fields of a slot living in a block other than the one just
rewritten. -/
theorem slot_updDisk_ne (D : Disk) (p : Nat) (f : BlockFn) (m : Nat)
    (h : m / INODES_PER_BLOCK + 1 ≠ p) :
    slotValid (updDisk D p f) m = slotValid D m ∧
    slotSize (updDisk D p f) m = slotSize D m ∧
    (∀ d, slotDirect (updDisk D p f) m d = slotDirect D m d) ∧
    slotIndirect (updDisk D p f) m = slotIndirect D m := by
  unfold slotValid slotSize slotDirect slotIndirect
  rw [updDisk_data_ne D p f _ h]
  exact ⟨rfl, rfl, fun d => rfl, rfl⟩

/-- A valid slot's nonzero indirect pointer lies above the table region. -/
theorem slotIndirect_ne_low (D : Disk) (ib m p : Nat) (hWF : DiskWF D ib)
    (hm : m < INODES_PER_BLOCK * ib) (hp : p ≤ ib)
    (hv : slotValid D m ≠ 0) (hnz : slotIndirect D m ≠ 0) :
    slotIndirect D m ≠ p := by
  have h := (hWF.ptrR m POINTERS_PER_INODE hm (by decide) hv
    (by rw [ptrVal_ind]; exact hnz)).1
  rw [ptrVal_ind] at h
  omega

/-- Invalid slots carry a zero indirect pointer. -/
theorem slotIndirect_invalid (D : Disk) (ib m : Nat) (hWF : DiskWF D ib)
    (hm : m < INODES_PER_BLOCK * ib) (hv : slotValid D m = 0) :
    slotIndirect D m = 0 := by
  have h := hWF.invz m POINTERS_PER_INODE hm (by decide) hv
  rw [ptrVal_ind] at h
  exact h

/-- Invalid slots carry zero direct pointers. -/
theorem slotDirect_invalid (D : Disk) (ib m d : Nat) (hWF : DiskWF D ib)
    (hm : m < INODES_PER_BLOCK * ib) (hd : d < POINTERS_PER_INODE)
    (hv : slotValid D m = 0) :
    slotDirect D m d = 0 := by
  have hd5 : d < 5 := hd
  have h := hWF.invz m d hm (by show d < 1030; omega) hv
  rw [ptrVal_direct D m d hd] at h
  exact h

/-- The indirect block of a slot survives a table-block rewrite. -/
theorem updDisk_table_inddat (D : Disk) (ib bn1 m : Nat) (g : BlockFn)
    (hWF : DiskWF D ib) (hbn2 : bn1 ≤ ib) (hm : m < INODES_PER_BLOCK * ib)
    (h7 : slotIndirect D m ≠ 0) :
    (updDisk D bn1 g).data (slotIndirect D m) = D.data (slotIndirect D m) := by
  by_cases hv : slotValid D m ≠ 0
  · exact updDisk_data_ne D bn1 g _
      (slotIndirect_ne_low D ib m bn1 hWF hm hbn2 hv h7)
  · exact absurd (slotIndirect_invalid D ib m hWF hm (not_not.mp hv)) h7

/-- Rewriting a table block while keeping the pointer fields of every slot
other than `s0` leaves those slots' pointer values unchanged. -/
theorem updDisk_table_frame (D : Disk) (ib bn1 : Nat) (g : BlockFn)
    (hWF : DiskWF D ib) (hbn2 : bn1 ≤ ib) (s0 : Nat)
    (hdir : ∀ t d, t < INODES_PER_BLOCK → d < POINTERS_PER_INODE → t ≠ s0 →
      inodeDirect g t d = inodeDirect (D.data bn1) t d)
    (hind : ∀ t, t < INODES_PER_BLOCK → t ≠ s0 →
      inodeIndirect g t = inodeIndirect (D.data bn1) t) :
    ∀ m, m < INODES_PER_BLOCK * ib →
      (m / INODES_PER_BLOCK + 1 ≠ bn1 ∨ m % INODES_PER_BLOCK ≠ s0) →
      ∀ idx, ptrVal (updDisk D bn1 g) m idx = ptrVal D m idx := by
  intro m hm hcase
  have hs : m % INODES_PER_BLOCK < INODES_PER_BLOCK := by
    show m % 128 < 128
    omega
  by_cases hb : m / INODES_PER_BLOCK + 1 = bn1
  · have hts : m % INODES_PER_BLOCK ≠ s0 := by
      rcases hcase with h | h
      · exact absurd hb h
      · exact h
    obtain ⟨-, -, hdirU, hindU⟩ := slot_updDisk_table D bn1 g m hb
    have eD : ∀ d, slotDirect D m d =
        inodeDirect (D.data bn1) (m % INODES_PER_BLOCK) d := by
      intro d
      unfold slotDirect
      rw [hb]
    have eI : slotIndirect D m =
        inodeIndirect (D.data bn1) (m % INODES_PER_BLOCK) := by
      unfold slotIndirect
      rw [hb]
    refine ptrVal_congr D _ m (fun d hd => ?_) ?_
      (updDisk_table_inddat D ib bn1 m g hWF hbn2 hm)
    · rw [hdirU d hd, hdir _ d hs hd hts]
      exact (eD d).symm
    · rw [hindU, hind _ hs hts]
      exact eI.symm
  · obtain ⟨-, -, hdirU, hindU⟩ := slot_updDisk_ne D bn1 g m hb
    exact ptrVal_congr D _ m (fun d hd => hdirU d) hindU
      (updDisk_table_inddat D ib bn1 m g hWF hbn2 hm)

/-- Rewriting a table block without touching any `valid` field leaves
every slot's validity unchanged. -/
theorem updDisk_table_valid (D : Disk) (bn1 : Nat) (g : BlockFn)
    (hvv : ∀ t, t < INODES_PER_BLOCK →
      inodeValid g t = inodeValid (D.data bn1) t) :
    ∀ m, slotValid (updDisk D bn1 g) m = slotValid D m := by
  intro m
  have hs : m % INODES_PER_BLOCK < INODES_PER_BLOCK := by
    show m % 128 < 128
    omega
  by_cases hb : m / INODES_PER_BLOCK + 1 = bn1
  · rw [(slot_updDisk_table D bn1 g m hb).1, hvv _ hs]
    unfold slotValid
    rw [hb]
  · exact (slot_updDisk_ne D bn1 g m hb).1

/-- `fs_create` preserves engine well-formedness: the slot it marks valid
had only zero pointers, so the reachable set and the bitmap are untouched. -/
theorem create_EngineWF (fs : FileSystem) (h : EngineWF fs) :
    EngineWF (fs_create fs).2 := by
  obtain ⟨D, bm, hD, hbm, hbl, hWF, hdis⟩ := h
  unfold fs_create
  try dsimp only
  rw [hD]
  rcases createGo_spec D fs.meta_data.inode_blocks hWF.ib_lt
      fs.meta_data.inode_blocks 1 0 (by omega) (by omega) (by simp) with
    ⟨d, -, hdlt, hinv0, -, heq⟩ | ⟨-, heq⟩
  · rw [heq]
    try dsimp only
    have hd2 : d < 128 * fs.meta_data.inode_blocks := hdlt
    have hbn2 : d / INODES_PER_BLOCK + 1 ≤ fs.meta_data.inode_blocks := by
      show d / 128 + 1 ≤ fs.meta_data.inode_blocks
      omega
    have hbnlt : d / INODES_PER_BLOCK + 1 < D.blocks := by
      have := hWF.ib_lt
      omega
    rw [owriteD_eq D _ _ hbnlt]
    set g := setInodeValid (D.data (d / INODES_PER_BLOCK + 1))
      (d % INODES_PER_BLOCK) 1 with hg
    set Dp := updDisk D (d / INODES_PER_BLOCK + 1) g with hDp
    have hptr : ∀ m, m < INODES_PER_BLOCK * fs.meta_data.inode_blocks →
        ∀ idx, ptrVal Dp m idx = ptrVal D m idx := by
      intro m hm idx
      refine updDisk_table_frame D fs.meta_data.inode_blocks
        (d / INODES_PER_BLOCK + 1) g hWF hbn2 INODES_PER_BLOCK
        (fun t dd ht hdd _ =>
          inodeDirect_setValid (D.data (d / INODES_PER_BLOCK + 1)) t
            (d % INODES_PER_BLOCK) dd 1 hdd)
        (fun t ht _ =>
          inodeIndirect_setValid (D.data (d / INODES_PER_BLOCK + 1)) t
            (d % INODES_PER_BLOCK) 1)
        m hm (Or.inr ?_) idx
      show ¬ m % 128 = 128
      omega
    have hvalne : ∀ m, m ≠ d → slotValid Dp m = slotValid D m := by
      intro m hmd
      by_cases hb : m / INODES_PER_BLOCK + 1 = d / INODES_PER_BLOCK + 1
      · rw [(slot_updDisk_table D _ g m hb).1, hg]
        have hss : m % INODES_PER_BLOCK ≠ d % INODES_PER_BLOCK := by
          show ¬ m % 128 = d % 128
          have hb2 : m / 128 + 1 = d / 128 + 1 := hb
          omega
        rw [inodeValid_setValid_ne _ _ _ 1 hss]
        unfold slotValid
        rw [hb]
      · exact (slot_updDisk_ne D _ g m hb).1
    have hvald : slotValid Dp d = 1 := by
      rw [(slot_updDisk_table D _ g d rfl).1, hg, inodeValid_setValid_same]
      show 1 % 4294967296 = 1
      decide
    refine ⟨Dp, bm, rfl, hbm, hbl, ?_, ?_⟩
    · refine ⟨hWF.ib_lt, hWF.blocks32, updDisk_trunc D _ g hWF.trunc, ?_, ?_, ?_⟩
      · intro m idx hm hidx hv hnz
        rw [hptr m hm idx] at hnz
        by_cases hmd : m = d
        · subst hmd
          exact absurd (hWF.invz m idx hm hidx hinv0) hnz
        · rw [hvalne m hmd] at hv
          have hconc := hWF.ptrR m idx hm hidx hv hnz
          rw [hptr m hm idx]
          exact hconc
      · intro m idx mp idxp hm hidx hmp hidxp hv hvp hnz hne
        rw [hptr m hm idx] at hnz
        rw [hptr m hm idx, hptr mp hmp idxp]
        by_cases hmd : m = d
        · subst hmd
          exact absurd (hWF.invz m idx hm hidx hinv0) hnz
        · by_cases hmpd : mp = d
          · subst hmpd
            rw [hWF.invz mp idxp hmp hidxp hinv0]
            exact hnz
          · rw [hvalne m hmd] at hv
            rw [hvalne mp hmpd] at hvp
            exact hWF.inj m idx mp idxp hm hidx hmp hidxp hv hvp hnz hne
      · intro m idx hm hidx hv
        rw [hptr m hm idx]
        by_cases hmd : m = d
        · subst hmd
          exact absurd (hv.symm.trans hvald) (by decide)
        · rw [hvalne m hmd] at hv
          exact hWF.invz m idx hm hidx hv
    · intro p hp
      obtain ⟨h1, h2, h3⟩ := hdis p hp
      refine ⟨h1, h2, ?_⟩
      rintro ⟨m, idx, hm, hidx, hv, hpt, hq0⟩
      rw [hptr m hm idx] at hpt
      by_cases hmd : m = d
      · subst hmd
        rw [hWF.invz m idx hm hidx hinv0] at hpt
        exact absurd hpt.symm hq0
      · rw [hvalne m hmd] at hv
        exact h3 ⟨m, idx, hm, hidx, hv, hpt, hq0⟩
  · rw [heq]
    exact ⟨D, bm, rfl, hbm, hbl, hWF, hdis⟩

/-- A disk whose valid slots' nonzero pointers all existed with the same
value on a well-formed disk inherits the structural invariant. -/
theorem DiskWF_of_sub (D Dp : Disk) (ib : Nat) (hWF : DiskWF D ib)
    (hbl : Dp.blocks = D.blocks)
    (htr : ∀ b o, BLOCK_SIZE ≤ o → Dp.data b o = 0)
    (hsub : ∀ m idx, m < INODES_PER_BLOCK * ib → idx < PTRS_PER_SLOT →
      slotValid Dp m ≠ 0 → ptrVal Dp m idx ≠ 0 →
      ptrVal Dp m idx = ptrVal D m idx ∧ slotValid D m ≠ 0)
    (hz : ∀ m idx, m < INODES_PER_BLOCK * ib → idx < PTRS_PER_SLOT →
      slotValid Dp m = 0 → ptrVal Dp m idx = 0) :
    DiskWF Dp ib := by
  refine ⟨?_, ?_, htr, ?_, ?_, hz⟩
  · rw [hbl]
    exact hWF.ib_lt
  · rw [hbl]
    exact hWF.blocks32
  · intro m idx hm hidx hv hnz
    obtain ⟨he, hvD⟩ := hsub m idx hm hidx hv hnz
    rw [he] at hnz ⊢
    rw [hbl]
    exact hWF.ptrR m idx hm hidx hvD hnz
  · intro m idx mp idxp hm hidx hmp hidxp hv hvp hnz hne
    obtain ⟨he, hvD⟩ := hsub m idx hm hidx hv hnz
    by_cases hz2 : ptrVal Dp mp idxp = 0
    · rw [hz2]
      exact hnz
    · obtain ⟨hep, hvpD⟩ := hsub mp idxp hmp hidxp hvp hz2
      rw [he, hep]
      refine hWF.inj m idx mp idxp hm hidx hmp hidxp hvD hvpD ?_ hne
      rw [← he]
      exact hnz

/-- Blocks reachable on such a disk were already reachable before. -/
theorem reaches_of_sub (D Dp : Disk) (ib : Nat)
    (hsub : ∀ m idx, m < INODES_PER_BLOCK * ib → idx < PTRS_PER_SLOT →
      slotValid Dp m ≠ 0 → ptrVal Dp m idx ≠ 0 →
      ptrVal Dp m idx = ptrVal D m idx ∧ slotValid D m ≠ 0) :
    ∀ q, reaches Dp ib q → reaches D ib q := by
  rintro q ⟨m, idx, hm, hidx, hv, hpt, hq0⟩
  obtain ⟨he, hvD⟩ := hsub m idx hm hidx hv (by rw [hpt]; exact hq0)
  exact ⟨m, idx, hm, hidx, hvD, by rw [← he]; exact hpt, hq0⟩

/-- The direct-release loop never touches cells below its window. -/
theorem removeDirects_keep_low (s : Nat) :
    ∀ fuel d0 blk bm d, d < d0 →
      inodeDirect (removeDirects s fuel d0 blk bm).1 s d =
        inodeDirect blk s d := by
  intro fuel
  induction fuel with
  | zero =>
    intro d0 blk bm d hd
    rfl
  | succ f ih =>
    intro d0 blk bm d hd
    rw [removeDirects]
    split
    · rw [ih (d0 + 1) _ _ d (by omega)]
      exact inodeDirect_setDirect_same_slot blk s d d0 0 (by omega)
    · exact ih (d0 + 1) _ _ d (by omega)

/-- The direct-release loop zeroes every cell of its window. -/
theorem removeDirects_zero (s : Nat) :
    ∀ fuel d0 blk bm d, d0 ≤ d → d < d0 + fuel →
      inodeDirect (removeDirects s fuel d0 blk bm).1 s d = 0 := by
  intro fuel
  induction fuel with
  | zero =>
    intro d0 blk bm d h1 h2
    omega
  | succ f ih =>
    intro d0 blk bm d h1 h2
    rw [removeDirects]
    by_cases he : d = d0
    · subst he
      by_cases hg : inodeDirect blk s d ≠ 0
      · rw [if_pos hg, removeDirects_keep_low s f (d + 1) _ _ d (by omega),
          inodeDirect_setDirect_same]
        show (0 : Nat) % 4294967296 = 0
        decide
      · rw [if_neg hg, removeDirects_keep_low s f (d + 1) _ _ d (by omega)]
        exact not_not.mp hg
    · split
      · exact ih (d0 + 1) _ _ d (by omega) (by omega)
      · exact ih (d0 + 1) _ _ d (by omega) (by omega)

/-- The direct-release loop leaves every other slot field alone. -/
theorem removeDirects_other (s : Nat) :
    ∀ fuel d0 blk bm, d0 + fuel ≤ POINTERS_PER_INODE →
      (∀ t, inodeValid (removeDirects s fuel d0 blk bm).1 t = inodeValid blk t) ∧
      (∀ t, inodeSize (removeDirects s fuel d0 blk bm).1 t = inodeSize blk t) ∧
      (∀ t, inodeIndirect (removeDirects s fuel d0 blk bm).1 t =
        inodeIndirect blk t) ∧
      (∀ t d, t ≠ s → d < POINTERS_PER_INODE →
        inodeDirect (removeDirects s fuel d0 blk bm).1 t d =
          inodeDirect blk t d) := by
  intro fuel
  induction fuel with
  | zero =>
    intro d0 blk bm h
    exact ⟨fun t => rfl, fun t => rfl, fun t => rfl, fun t d h1 h2 => rfl⟩
  | succ f ih =>
    intro d0 blk bm h
    rw [removeDirects]
    split
    · obtain ⟨h1, h2, h3, h4⟩ := ih (d0 + 1) (setInodeDirect blk s d0 0) _ (by omega)
      refine ⟨?_, ?_, ?_, ?_⟩
      · intro t
        rw [h1 t, inodeValid_setDirect blk t s d0 0 (by omega)]
      · intro t
        rw [h2 t, inodeSize_setDirect blk t s d0 0 (by omega)]
      · intro t
        rw [h3 t, inodeIndirect_setDirect blk t s d0 0 (by omega)]
      · intro t d ht hd
        rw [h4 t d ht hd, inodeDirect_setDirect_ne blk t s d d0 0 hd (by omega)
          (Or.inl ht)]
    · exact ih (d0 + 1) blk _ (by omega)

/-- A block marked available by the direct-release loop was available
before or is one of the slot's nonzero direct pointers. -/
theorem removeDirects_bm_cases (s : Nat) :
    ∀ fuel d0 blk bm p, (removeDirects s fuel d0 blk bm).2 p = true →
      bm p = true ∨ ∃ d, d0 ≤ d ∧ d < d0 + fuel ∧
        inodeDirect blk s d ≠ 0 ∧ inodeDirect blk s d = p := by
  intro fuel
  induction fuel with
  | zero =>
    intro d0 blk bm p h
    exact Or.inl h
  | succ f ih =>
    intro d0 blk bm p h
    rw [removeDirects] at h
    by_cases hg : inodeDirect blk s d0 ≠ 0
    · rw [if_pos hg] at h
      rcases ih (d0 + 1) _ _ p h with hb | ⟨d, h1, h2, h3, h4⟩
      · rcases (bmSet_true_point bm _ p).mp hb with he | hb2
        · exact Or.inr ⟨d0, Nat.le_refl _, by omega, hg, he.symm⟩
        · exact Or.inl hb2
      · rw [inodeDirect_setDirect_same_slot blk s d d0 0 (by omega)] at h3 h4
        exact Or.inr ⟨d, by omega, by omega, h3, h4⟩
    · rw [if_neg hg] at h
      rcases ih (d0 + 1) _ _ p h with hb | ⟨d, h1, h2, h3, h4⟩
      · exact Or.inl hb
      · exact Or.inr ⟨d, by omega, by omega, h3, h4⟩

/-- The entry-release loop never touches entries below its window. -/
theorem removeIndEntries_keep_low :
    ∀ fuel p0 ind bm j, j < p0 →
      blockPtr (removeIndEntries fuel p0 ind bm).1 j = blockPtr ind j := by
  intro fuel
  induction fuel with
  | zero =>
    intro p0 ind bm j hj
    rfl
  | succ f ih =>
    intro p0 ind bm j hj
    rw [removeIndEntries]
    split
    · rw [ih (p0 + 1) _ _ j (by omega)]
      exact blockPtr_setBlockPtr_ne ind j p0 0 (by omega)
    · exact ih (p0 + 1) _ _ j (by omega)

/-- The entry-release loop zeroes every entry of its window. -/
theorem removeIndEntries_zero :
    ∀ fuel p0 ind bm j, p0 ≤ j → j < p0 + fuel →
      blockPtr (removeIndEntries fuel p0 ind bm).1 j = 0 := by
  intro fuel
  induction fuel with
  | zero =>
    intro p0 ind bm j h1 h2
    omega
  | succ f ih =>
    intro p0 ind bm j h1 h2
    rw [removeIndEntries]
    by_cases he : j = p0
    · subst he
      by_cases hg : blockPtr ind j ≠ 0
      · rw [if_pos hg, removeIndEntries_keep_low f (j + 1) _ _ j (by omega),
          blockPtr_setBlockPtr_same]
        show (0 : Nat) % 4294967296 = 0
        decide
      · rw [if_neg hg, removeIndEntries_keep_low f (j + 1) _ _ j (by omega)]
        exact not_not.mp hg
    · split
      · exact ih (p0 + 1) _ _ j (by omega) (by omega)
      · exact ih (p0 + 1) _ _ j (by omega) (by omega)

/-- A block marked available by the entry-release loop was available
before or is one of the indirect block's nonzero entries. -/
theorem removeIndEntries_bm_cases :
    ∀ fuel p0 ind bm p, (removeIndEntries fuel p0 ind bm).2 p = true →
      bm p = true ∨ ∃ j, p0 ≤ j ∧ j < p0 + fuel ∧
        blockPtr ind j ≠ 0 ∧ blockPtr ind j = p := by
  intro fuel
  induction fuel with
  | zero =>
    intro p0 ind bm p h
    exact Or.inl h
  | succ f ih =>
    intro p0 ind bm p h
    rw [removeIndEntries] at h
    by_cases hg : blockPtr ind p0 ≠ 0
    · rw [if_pos hg] at h
      rcases ih (p0 + 1) _ _ p h with hb | ⟨j, h1, h2, h3, h4⟩
      · rcases (bmSet_true_point bm _ p).mp hb with he | hb2
        · exact Or.inr ⟨p0, Nat.le_refl _, by omega, hg, he.symm⟩
        · exact Or.inl hb2
      · rw [blockPtr_setBlockPtr_ne ind j p0 0 (by omega)] at h3 h4
        exact Or.inr ⟨j, by omega, by omega, h3, h4⟩
    · rw [if_neg hg] at h
      rcases ih (p0 + 1) _ _ p h with hb | ⟨j, h1, h2, h3, h4⟩
      · exact Or.inl hb
      · exact Or.inr ⟨j, by omega, by omega, h3, h4⟩

/-- Rewriting the indirect block of valid slot `n` leaves every other
slot's pointer values and all table fields unchanged; slot `n`'s entries
follow the new buffer. -/
theorem updDisk_ownind_frame (D : Disk) (ib n : Nat) (g : BlockFn)
    (hWF : DiskWF D ib) (hn : n < INODES_PER_BLOCK * ib)
    (hv : slotValid D n ≠ 0) (hnz : slotIndirect D n ≠ 0) :
    (∀ m, m < INODES_PER_BLOCK * ib →
      slotValid (updDisk D (slotIndirect D n) g) m = slotValid D m) ∧
    (∀ m, m < INODES_PER_BLOCK * ib → m ≠ n →
      ∀ idx, ptrVal (updDisk D (slotIndirect D n) g) m idx = ptrVal D m idx) ∧
    (∀ d, d < POINTERS_PER_INODE →
      slotDirect (updDisk D (slotIndirect D n) g) n d = slotDirect D n d) ∧
    slotIndirect (updDisk D (slotIndirect D n) g) n = slotIndirect D n ∧
    (∀ j, j < POINTERS_PER_BLOCK →
      ptrVal (updDisk D (slotIndirect D n) g) n (6 + j) = blockPtr g j) := by
  have hgt := (hWF.ptrR n POINTERS_PER_INODE hn (by decide) hv
    (by rw [ptrVal_ind]; exact hnz)).1
  rw [ptrVal_ind] at hgt
  have htab : ∀ m, m < INODES_PER_BLOCK * ib →
      m / INODES_PER_BLOCK + 1 ≠ slotIndirect D n := by
    intro m hm
    have hm2 : m < 128 * ib := hm
    show ¬ m / 128 + 1 = slotIndirect D n
    omega
  refine ⟨?_, ?_, ?_, ?_, ?_⟩
  · intro m hm
    exact (slot_updDisk_ne D _ g m (htab m hm)).1
  · intro m hm hmn
    obtain ⟨-, -, hdirU, hindU⟩ := slot_updDisk_ne D _ g m (htab m hm)
    refine ptrVal_congr D _ m (fun d hd => hdirU d) hindU ?_
    intro h7
    refine updDisk_data_ne D _ g _ ?_
    by_cases hvm : slotValid D m ≠ 0
    · intro hcontra
      have hIJ := hWF.inj m POINTERS_PER_INODE n POINTERS_PER_INODE hm
        (by decide) hn (by decide) hvm hv (by rw [ptrVal_ind]; exact h7)
        (fun hc => hmn hc.1)
      rw [ptrVal_ind, ptrVal_ind] at hIJ
      exact hIJ hcontra
    · exact absurd (slotIndirect_invalid D ib m hWF hm (not_not.mp hvm)) h7
  · intro d hd
    exact (slot_updDisk_ne D _ g n (htab n hn)).2.2.1 d
  · exact (slot_updDisk_ne D _ g n (htab n hn)).2.2.2
  · intro j hj
    have hindU := (slot_updDisk_ne D _ g n (htab n hn)).2.2.2
    rw [ptrVal_entry _ n j (by rw [hindU]; exact hnz), hindU, updDisk_data_eq,
      blockPtr_truncBlock g j hj]

/-- Equal block and slot coordinates identify the dense inode number. -/
theorem dense_eq (m n : Nat)
    (hb : m / INODES_PER_BLOCK + 1 = n / INODES_PER_BLOCK + 1)
    (hs : m % INODES_PER_BLOCK = n % INODES_PER_BLOCK) : m = n := by
  have h1 : m / 128 + 1 = n / 128 + 1 := hb
  have h2 : m % 128 = n % 128 := hs
  omega

/-- Persisting the final inode-table block of `fs_remove` (slot `n`
invalidated with all pointer fields zeroed, other slots untouched) on top
of any intermediate disk that kept every other slot intact preserves the
structural invariant, and the bitmap that only gained slot `n`'s old
pointers stays disjoint from the new reachable set. -/
theorem removeFinal_WF (D D1 : Disk) (ib n : Nat) (blk3 : BlockFn)
    (bm bmF : Nat → Bool)
    (hWF : DiskWF D ib) (hdis : bmDisjoint D bm ib)
    (hn : n < INODES_PER_BLOCK * ib) (hv : slotValid D n ≠ 0)
    (hWF1 : DiskWF D1 ib) (hbl1 : D1.blocks = D.blocks)
    (hf1 : ∀ m, m < INODES_PER_BLOCK * ib → slotValid D1 m = slotValid D m)
    (hf2 : ∀ m, m < INODES_PER_BLOCK * ib → m ≠ n →
      ∀ idx, ptrVal D1 m idx = ptrVal D m idx)
    (hD1b : D1.data (n / INODES_PER_BLOCK + 1) =
      D.data (n / INODES_PER_BLOCK + 1))
    (hb3v : ∀ t, t < INODES_PER_BLOCK → t ≠ n % INODES_PER_BLOCK →
      inodeValid blk3 t = inodeValid (D.data (n / INODES_PER_BLOCK + 1)) t)
    (hb3vs : inodeValid blk3 (n % INODES_PER_BLOCK) = 0)
    (hb3d : ∀ t d, t < INODES_PER_BLOCK → d < POINTERS_PER_INODE →
      t ≠ n % INODES_PER_BLOCK →
      inodeDirect blk3 t d = inodeDirect (D.data (n / INODES_PER_BLOCK + 1)) t d)
    (hb3ds : ∀ d, d < POINTERS_PER_INODE →
      inodeDirect blk3 (n % INODES_PER_BLOCK) d = 0)
    (hb3i : ∀ t, t < INODES_PER_BLOCK → t ≠ n % INODES_PER_BLOCK →
      inodeIndirect blk3 t = inodeIndirect (D.data (n / INODES_PER_BLOCK + 1)) t)
    (hb3is : inodeIndirect blk3 (n % INODES_PER_BLOCK) = 0)
    (hbmF : ∀ p, bmF p = true → bm p = true ∨ ∃ idxf, idxf < PTRS_PER_SLOT ∧
      ptrVal D n idxf ≠ 0 ∧ ptrVal D n idxf = p) :
    DiskWF (updDisk D1 (n / INODES_PER_BLOCK + 1) blk3) ib ∧
    bmDisjoint (updDisk D1 (n / INODES_PER_BLOCK + 1) blk3) bmF ib ∧
    (updDisk D1 (n / INODES_PER_BLOCK + 1) blk3).blocks = D.blocks := by
  have hn2 : n < 128 * ib := hn
  have hs128 : n % INODES_PER_BLOCK < INODES_PER_BLOCK := by
    show n % 128 < 128
    omega
  have hbn2 : n / INODES_PER_BLOCK + 1 ≤ ib := by
    show n / 128 + 1 ≤ ib
    omega
  obtain ⟨hVs, hSs, hDs, hIs⟩ :=
    slot_updDisk_table D1 (n / INODES_PER_BLOCK + 1) blk3 n rfl
  have hval2n : slotValid (updDisk D1 (n / INODES_PER_BLOCK + 1) blk3) n = 0 := by
    rw [hVs, hb3vs]
  have hptr2n : ∀ idx, idx < PTRS_PER_SLOT →
      ptrVal (updDisk D1 (n / INODES_PER_BLOCK + 1) blk3) n idx = 0 := by
    intro idx hidx
    have hind0 : slotIndirect (updDisk D1 (n / INODES_PER_BLOCK + 1) blk3) n = 0 := by
      rw [hIs, hb3is]
    rcases ptrVal_cases D n idx hidx with h5 | h6 | ⟨j, hj, hje⟩
    · rw [ptrVal_direct _ n idx h5, hDs idx h5, hb3ds idx h5]
    · rw [h6, ptrVal_ind]
      exact hind0
    · rw [hje]
      exact ptrVal_entry_zero _ n j hind0
  have hval2ne : ∀ m, m < INODES_PER_BLOCK * ib → m ≠ n →
      slotValid (updDisk D1 (n / INODES_PER_BLOCK + 1) blk3) m =
        slotValid D m := by
    intro m hm hmn
    have hms : m % INODES_PER_BLOCK < INODES_PER_BLOCK := by
      show m % 128 < 128
      omega
    by_cases hb : m / INODES_PER_BLOCK + 1 = n / INODES_PER_BLOCK + 1
    · have hts : m % INODES_PER_BLOCK ≠ n % INODES_PER_BLOCK :=
        fun hc => hmn (dense_eq m n hb hc)
      rw [(slot_updDisk_table D1 _ blk3 m hb).1, hb3v _ hms hts]
      show _ = inodeValid (D.data (m / INODES_PER_BLOCK + 1))
        (m % INODES_PER_BLOCK)
      rw [hb]
    · rw [(slot_updDisk_ne D1 _ blk3 m hb).1]
      exact hf1 m hm
  have hframe2 : ∀ m, m < INODES_PER_BLOCK * ib → m ≠ n →
      ∀ idx, ptrVal (updDisk D1 (n / INODES_PER_BLOCK + 1) blk3) m idx =
        ptrVal D m idx := by
    intro m hm hmn idx
    have hstep := updDisk_table_frame D1 ib (n / INODES_PER_BLOCK + 1) blk3
      hWF1 hbn2 (n % INODES_PER_BLOCK)
      (fun t d ht hd hts => by rw [hb3d t d ht hd hts, hD1b])
      (fun t ht hts => by rw [hb3i t ht hts, hD1b])
      m hm ?_ idx
    · rw [hstep]
      exact hf2 m hm hmn idx
    · by_cases hb : m / INODES_PER_BLOCK + 1 = n / INODES_PER_BLOCK + 1
      · exact Or.inr (fun hc => hmn (dense_eq m n hb hc))
      · exact Or.inl hb
  refine ⟨?_, ?_, ?_⟩
  · refine DiskWF_of_sub D _ ib hWF ?_ ?_ ?_ ?_
    · show D1.blocks = D.blocks
      exact hbl1
    · exact updDisk_trunc D1 _ blk3 hWF1.trunc
    · intro m idx hm hidx hvm hnz
      by_cases hmn : m = n
      · subst hmn
        exact absurd hval2n hvm
      · exact ⟨hframe2 m hm hmn idx, by rw [← hval2ne m hm hmn]; exact hvm⟩
    · intro m idx hm hidx hvm
      by_cases hmn : m = n
      · subst hmn
        exact hptr2n idx hidx
      · rw [hframe2 m hm hmn idx]
        rw [hval2ne m hm hmn] at hvm
        exact hWF.invz m idx hm hidx hvm
  · intro p hp
    have hnr : ¬ reaches (updDisk D1 (n / INODES_PER_BLOCK + 1) blk3) ib p →
        True := fun _ => trivial
    rcases hbmF p hp with hb | ⟨idxf, hidxf, hnzf, hpf⟩
    · obtain ⟨h1, h2, h3⟩ := hdis p hb
      refine ⟨h1, ?_, ?_⟩
      · show p < D1.blocks
        rw [hbl1]
        exact h2
      · rintro ⟨m, idx, hm, hidx, hvm, hpt, hq0⟩
        by_cases hmn : m = n
        · subst hmn
          exact absurd hval2n hvm
        · rw [hframe2 m hm hmn idx] at hpt
          rw [hval2ne m hm hmn] at hvm
          exact h3 ⟨m, idx, hm, hidx, hvm, hpt, hq0⟩
    · obtain ⟨h1, h2⟩ := hWF.ptrR n idxf hn hidxf hv hnzf
      rw [hpf] at h1 h2
      refine ⟨h1, ?_, ?_⟩
      · show p < D1.blocks
        rw [hbl1]
        exact h2
      · rintro ⟨m, idx, hm, hidx, hvm, hpt, hq0⟩
        by_cases hmn : m = n
        · subst hmn
          exact absurd hval2n hvm
        · rw [hframe2 m hm hmn idx] at hpt
          rw [hval2ne m hm hmn] at hvm
          have := hWF.inj m idx n idxf hm hidx hn hidxf hvm hv
            (by rw [hpt]; exact hq0) (fun hc => hmn hc.1)
          rw [hpt, hpf] at this
          exact this rfl
  · show D1.blocks = D.blocks
    exact hbl1

/-- `fs_remove` preserves engine well-formedness: the released blocks were
exactly the removed slot's pointers, which pointer injectivity makes
unreachable from every remaining valid slot. -/
theorem remove_EngineWF (fs : FileSystem) (n : Nat) (h : EngineWF fs)
    (hn : n < inodeCapacity fs) :
    EngineWF (fs_remove fs n).2 := by
  obtain ⟨D, bm, hD, hbm, hbl, hWF, hdis⟩ := h
  have hn2 : n < 128 * fs.meta_data.inode_blocks := hn
  have hncap : n < INODES_PER_BLOCK * fs.meta_data.inode_blocks := hn
  have hbn : n / INODES_PER_BLOCK + 1 < D.blocks := by
    have := hWF.ib_lt
    show n / 128 + 1 < D.blocks
    omega
  have hs128 : n % INODES_PER_BLOCK < INODES_PER_BLOCK := by
    show n % 128 < 128
    omega
  have hblk : (oread (some D) (n / INODES_PER_BLOCK + 1)).getD zeroBlock =
      D.data (n / INODES_PER_BLOCK + 1) := by
    rw [oread_lt D _ hbn]
    rfl
  simp only [fs_remove, hD, hbm, hblk, Option.getD_some, Option.map_some]
  by_cases hv : inodeValid (D.data (n / INODES_PER_BLOCK + 1))
      (n % INODES_PER_BLOCK) = 0
  · rw [if_pos hv]
    exact ⟨D, bm, hD, hbm, hbl, hWF, hdis⟩
  · rw [if_neg hv]
    have hindeq : inodeIndirect (removeDirects (n % INODES_PER_BLOCK)
        POINTERS_PER_INODE 0 (D.data (n / INODES_PER_BLOCK + 1)) bm).1
        (n % INODES_PER_BLOCK) =
        inodeIndirect (D.data (n / INODES_PER_BLOCK + 1))
          (n % INODES_PER_BLOCK) :=
      removeDirects_indirect _ _ 0 _ bm (by omega)
    obtain ⟨hRv, hRz, hRi, hRd⟩ := removeDirects_other (n % INODES_PER_BLOCK)
      POINTERS_PER_INODE 0 (D.data (n / INODES_PER_BLOCK + 1)) bm
      (by show 0 + 5 ≤ 5; omega)
    rw [hindeq]
    set dres := removeDirects (n % INODES_PER_BLOCK) POINTERS_PER_INODE 0
      (D.data (n / INODES_PER_BLOCK + 1)) bm with hdres
    by_cases hi : inodeIndirect (D.data (n / INODES_PER_BLOCK + 1))
        (n % INODES_PER_BLOCK) = 0
    · rw [if_neg (by simp [hi])]
      try dsimp only
      rw [owriteD_eq D _ _ hbn]
      have hfin := removeFinal_WF D D fs.meta_data.inode_blocks n
        (setInodeValid (setInodeSize dres.1 (n % INODES_PER_BLOCK) 0)
          (n % INODES_PER_BLOCK) 0) bm dres.2 hWF hdis hncap hv hWF rfl
        (fun m hm => rfl) (fun m hm hmn idx => rfl) rfl
        ?_ ?_ ?_ ?_ ?_ ?_ ?_
      · exact ⟨_, _, rfl, rfl, by rw [hfin.2.2]; exact hbl, hfin.1, hfin.2.1⟩
      · intro t ht hts
        rw [inodeValid_setValid_ne _ t _ 0 hts, inodeValid_setSize _ t _ 0,
          hRv t]
      · rw [inodeValid_setValid_same]
        show 0 % 4294967296 = 0
        decide
      · intro t d ht hd hts
        rw [inodeDirect_setValid _ t _ d 0 hd, inodeDirect_setSize _ t _ d 0 hd,
          hRd t d hts hd]
      · intro d hd
        rw [inodeDirect_setValid _ _ _ d 0 hd, inodeDirect_setSize _ _ _ d 0 hd]
        exact removeDirects_zero _ _ 0 _ bm d (Nat.zero_le _)
          (by show d < 0 + 5; have : d < 5 := hd; omega)
      · intro t ht hts
        rw [inodeIndirect_setValid _ t _ 0, inodeIndirect_setSize _ t _ 0,
          hRi t]
      · rw [inodeIndirect_setValid _ _ _ 0, inodeIndirect_setSize _ _ _ 0,
          hindeq]
        exact hi
      · intro p hp
        rcases removeDirects_bm_cases _ _ 0 _ bm p hp with hb | ⟨d, h1, h2, h3, h4⟩
        · exact Or.inl hb
        · have h2b : d < 5 := h2
          refine Or.inr ⟨d, by show d < 1030; omega, ?_, ?_⟩
          · rw [ptrVal_direct D n d (by show d < 5; omega)]
            exact h3
          · rw [ptrVal_direct D n d (by show d < 5; omega)]
            exact h4
    · rw [if_pos hi]
      try dsimp only
      have hvD : slotValid D n ≠ 0 := hv
      have hiD : slotIndirect D n ≠ 0 := hi
      have hptr5 := hWF.ptrR n POINTERS_PER_INODE hncap (by decide) hvD
        (by rw [ptrVal_ind]; exact hiD)
      rw [ptrVal_ind] at hptr5
      have hilt : inodeIndirect (D.data (n / INODES_PER_BLOCK + 1))
          (n % INODES_PER_BLOCK) < D.blocks := hptr5.2
      have higt : fs.meta_data.inode_blocks <
          inodeIndirect (D.data (n / INODES_PER_BLOCK + 1))
            (n % INODES_PER_BLOCK) := hptr5.1
      rw [oread_lt _ _ hilt]
      simp only [Option.getD_some]
      set eres := removeIndEntries POINTERS_PER_BLOCK 0
        (D.data (inodeIndirect (D.data (n / INODES_PER_BLOCK + 1))
          (n % INODES_PER_BLOCK))) dres.2 with heres
      rw [owriteD_eq D _ _ hilt]
      rw [owriteD_eq (updDisk D (inodeIndirect (D.data (n / INODES_PER_BLOCK + 1))
          (n % INODES_PER_BLOCK)) eres.1) (n / INODES_PER_BLOCK + 1) _
        (by show n / INODES_PER_BLOCK + 1 < D.blocks; exact hbn)]
      obtain ⟨hf1, hf2, hf3, hf4, hf5⟩ := updDisk_ownind_frame D
        fs.meta_data.inode_blocks n eres.1 hWF hncap hvD hiD
      rw [show slotIndirect D n = inodeIndirect
          (D.data (n / INODES_PER_BLOCK + 1)) (n % INODES_PER_BLOCK) from rfl]
        at hf1 hf2 hf3 hf4 hf5
      have hfin := removeFinal_WF D
        (updDisk D (inodeIndirect (D.data (n / INODES_PER_BLOCK + 1))
          (n % INODES_PER_BLOCK)) eres.1)
        fs.meta_data.inode_blocks n
        (setInodeValid (setInodeSize (setInodeIndirect dres.1
          (n % INODES_PER_BLOCK) 0) (n % INODES_PER_BLOCK) 0)
          (n % INODES_PER_BLOCK) 0)
        bm
        (bmSet eres.2 (inodeIndirect (D.data (n / INODES_PER_BLOCK + 1))
          (n % INODES_PER_BLOCK)) true)
        hWF hdis hncap hv ?_ rfl hf1 hf2 ?_ ?_ ?_ ?_ ?_ ?_ ?_ ?_
      · exact ⟨_, _, rfl, rfl, by rw [hfin.2.2]; exact hbl, hfin.1, hfin.2.1⟩
      · refine DiskWF_of_sub D _ fs.meta_data.inode_blocks hWF rfl
          (updDisk_trunc D _ eres.1 hWF.trunc) ?_ ?_
        · intro m idx hm hidx hvm hnzm
          rw [hf1 m hm] at hvm
          by_cases hmn : m = n
          · subst hmn
            rcases ptrVal_cases D m idx hidx with h5 | h6 | ⟨j, hj, hje⟩
            · rw [ptrVal_direct _ m idx h5, ptrVal_direct D m idx h5]
              exact ⟨hf3 idx h5, hvm⟩
            · rw [h6, ptrVal_ind, ptrVal_ind]
              exact ⟨hf4, hvm⟩
            · rw [hje, hf5 j hj] at hnzm
              have hj2 : j < 1024 := hj
              exact absurd (removeIndEntries_zero POINTERS_PER_BLOCK 0 _
                dres.2 j (Nat.zero_le _) (by show j < 0 + 1024; omega)) hnzm
          · exact ⟨hf2 m hm hmn idx, hvm⟩
        · intro m idx hm hidx hvm0
          rw [hf1 m hm] at hvm0
          have hmn : m ≠ n := fun hc => hvD (hc ▸ hvm0)
          rw [hf2 m hm hmn idx]
          exact hWF.invz m idx hm hidx hvm0
      · refine updDisk_data_ne D _ eres.1 _ ?_
        show ¬ n / 128 + 1 = inodeIndirect
          (D.data (n / INODES_PER_BLOCK + 1)) (n % INODES_PER_BLOCK)
        have hb2 : n / 128 + 1 ≤ fs.meta_data.inode_blocks := by omega
        omega
      · intro t ht hts
        rw [inodeValid_setValid_ne _ t _ 0 hts, inodeValid_setSize _ t _ 0,
          inodeValid_setIndirect _ t _ 0, hRv t]
      · rw [inodeValid_setValid_same]
        show 0 % 4294967296 = 0
        decide
      · intro t d ht hd hts
        rw [inodeDirect_setValid _ t _ d 0 hd, inodeDirect_setSize _ t _ d 0 hd,
          inodeDirect_setIndirect _ t _ d 0 hd, hRd t d hts hd]
      · intro d hd
        rw [inodeDirect_setValid _ _ _ d 0 hd, inodeDirect_setSize _ _ _ d 0 hd,
          inodeDirect_setIndirect _ _ _ d 0 hd]
        exact removeDirects_zero _ _ 0 _ bm d (Nat.zero_le _)
          (by show d < 0 + 5; have : d < 5 := hd; omega)
      · intro t ht hts
        rw [inodeIndirect_setValid _ t _ 0, inodeIndirect_setSize _ t _ 0,
          inodeIndirect_setIndirect_ne _ t _ 0 hts, hRi t]
      · rw [inodeIndirect_setValid _ _ _ 0, inodeIndirect_setSize _ _ _ 0,
          inodeIndirect_setIndirect_same]
        show 0 % 4294967296 = 0
        decide
      · intro p hp
        rcases (bmSet_true_point eres.2 _ p).mp hp with he | h2
        · refine Or.inr ⟨POINTERS_PER_INODE, by decide, ?_, ?_⟩
          · rw [ptrVal_ind]
            exact hiD
          · rw [ptrVal_ind]
            exact he.symm
        · rcases removeIndEntries_bm_cases POINTERS_PER_BLOCK 0 _ dres.2 p h2 with
            hd2 | ⟨j, hj1, hj2, hj3, hj4⟩
          · rcases removeDirects_bm_cases _ _ 0 _ bm p hd2 with
              hb | ⟨d, g1, g2, g3, g4⟩
            · exact Or.inl hb
            · have g2b : d < 5 := g2
              refine Or.inr ⟨d, by show d < 1030; omega, ?_, ?_⟩
              · rw [ptrVal_direct D n d (by show d < 5; omega)]
                exact g3
              · rw [ptrVal_direct D n d (by show d < 5; omega)]
                exact g4
          · have hj2b : j < 1024 := hj2
            refine Or.inr ⟨6 + j, by show 6 + j < 1030; omega, ?_, ?_⟩
            · rw [ptrVal_entry D n j hiD]
              exact hj3
            · rw [ptrVal_entry D n j hiD]
              exact hj4

/-- Bit updates do not affect other indices. -/
theorem bmSet_apply_ne (bm : Nat → Bool) (i : Nat) (v : Bool) (q : Nat)
    (h : q ≠ i) : bmSet bm i v q = bm q := by
  unfold bmSet
  rw [if_neg h]

/-- Clearing a bit preserves bitmap/reachability disjointness. -/
theorem bmDisjoint_clear (D : Disk) (bm : Nat → Bool) (ib i : Nat)
    (h : bmDisjoint D bm ib) : bmDisjoint D (bmSet bm i false) ib :=
  fun p hp => h p (bmSet_false_mono bm i p hp)

/-- No valid slot's indirect pointer equals an unreachable block. -/
theorem unreachable_not_ind (D : Disk) (ib p : Nat) (hWF : DiskWF D ib)
    (hnr : ¬ reaches D ib p) (hp0 : p ≠ 0) :
    ∀ m, m < INODES_PER_BLOCK * ib → slotIndirect D m ≠ 0 →
      slotIndirect D m ≠ p := by
  intro m hm hnz hcontra
  by_cases hv : slotValid D m ≠ 0
  · exact hnr ⟨m, POINTERS_PER_INODE, hm, by decide, hv,
      by rw [ptrVal_ind]; exact hcontra, hp0⟩
  · exact hnz (slotIndirect_invalid D ib m hWF hm (not_not.mp hv))

/-- No valid slot's indirect pointer equals a non-indirect pointer value
of slot `n`. -/
theorem ptr_not_ind (D : Disk) (ib n idxf : Nat) (hWF : DiskWF D ib)
    (hn : n < INODES_PER_BLOCK * ib) (hidxf : idxf < PTRS_PER_SLOT)
    (hne5 : idxf ≠ POINTERS_PER_INODE) (hv : slotValid D n ≠ 0) :
    ∀ m, m < INODES_PER_BLOCK * ib → slotIndirect D m ≠ 0 →
      slotIndirect D m ≠ ptrVal D n idxf := by
  intro m hm hnz hcontra
  by_cases hvm : slotValid D m ≠ 0
  · have hIJ := hWF.inj m POINTERS_PER_INODE n idxf hm (by decide) hn hidxf
      hvm hv (by rw [ptrVal_ind]; exact hnz) (fun hc => hne5 hc.2.symm)
    rw [ptrVal_ind] at hIJ
    exact hIJ hcontra
  · exact hnz (slotIndirect_invalid D ib m hWF hm (not_not.mp hvm))

/-- Stores inside the persisted range preserve zero-above-block-size. -/
theorem writeU32_trunc (f : BlockFn) (o v : Nat) (ho : o + 4 ≤ BLOCK_SIZE)
    (h : ∀ i, BLOCK_SIZE ≤ i → f i = 0) :
    ∀ i, BLOCK_SIZE ≤ i → writeU32 f o v i = 0 := by
  intro i hi
  rw [writeU32_apply_ne f o v i (Or.inr (by unfold BLOCK_SIZE at *; omega))]
  exact h i hi

/-- Extending valid slot `n` with up to two fresh pointers (position
`idxA` to block `pA` and position `idxB` to block `pB`, each active only
when the position is within range) preserves the structural invariant,
and any availability set that avoids the new blocks and was disjoint
before stays disjoint. -/
theorem extendTwo_WF (D Dp : Disk) (ib n idxA idxB pA pB : Nat)
    (hWF : DiskWF D ib) (hn : n < INODES_PER_BLOCK * ib)
    (hv : slotValid D n ≠ 0)
    (hA : idxA < PTRS_PER_SLOT →
      ib < pA ∧ pA < D.blocks ∧ pA ≠ 0 ∧ ¬ reaches D ib pA)
    (hB : idxB < PTRS_PER_SLOT →
      ib < pB ∧ pB < D.blocks ∧ pB ≠ 0 ∧ ¬ reaches D ib pB)
    (hABv : idxA < PTRS_PER_SLOT → idxB < PTRS_PER_SLOT → pA ≠ pB)
    (hABi : idxA ≠ idxB)
    (hbl : Dp.blocks = D.blocks)
    (htr : ∀ b o, BLOCK_SIZE ≤ o → Dp.data b o = 0)
    (hval : ∀ m, m < INODES_PER_BLOCK * ib → slotValid Dp m = slotValid D m)
    (hfr : ∀ m idx, m < INODES_PER_BLOCK * ib → idx < PTRS_PER_SLOT →
      ¬(m = n ∧ idx = idxA) → ¬(m = n ∧ idx = idxB) →
      ptrVal Dp m idx = ptrVal D m idx)
    (hnewA : idxA < PTRS_PER_SLOT → ptrVal Dp n idxA = pA)
    (hnewB : idxB < PTRS_PER_SLOT → ptrVal Dp n idxB = pB) :
    DiskWF Dp ib ∧
    ∀ bmy, (∀ q, bmy q = true → ib < q ∧ q < D.blocks ∧ ¬ reaches D ib q ∧
        (idxA < PTRS_PER_SLOT → q ≠ pA) ∧ (idxB < PTRS_PER_SLOT → q ≠ pB)) →
      bmDisjoint Dp bmy ib := by
  constructor
  · refine ⟨?_, ?_, htr, ?_, ?_, ?_⟩
    · rw [hbl]
      exact hWF.ib_lt
    · rw [hbl]
      exact hWF.blocks32
    · intro m idx hm hidx hv1 hnz
      rw [hval m hm] at hv1
      rw [hbl]
      by_cases hMA : m = n ∧ idx = idxA
      · rw [hMA.1, hMA.2, hnewA (hMA.2 ▸ hidx)]
        exact ⟨(hA (hMA.2 ▸ hidx)).1, (hA (hMA.2 ▸ hidx)).2.1⟩
      · by_cases hMB : m = n ∧ idx = idxB
        · rw [hMB.1, hMB.2, hnewB (hMB.2 ▸ hidx)]
          exact ⟨(hB (hMB.2 ▸ hidx)).1, (hB (hMB.2 ▸ hidx)).2.1⟩
        · rw [hfr m idx hm hidx hMA hMB] at hnz ⊢
          exact hWF.ptrR m idx hm hidx hv1 hnz
    · intro m idx mp idxp hm hidx hmp hidxp hv1 hv2 hnz hne
      rw [hval m hm] at hv1
      rw [hval mp hmp] at hv2
      by_cases hMA : m = n ∧ idx = idxA
      · rw [hMA.1, hMA.2, hnewA (hMA.2 ▸ hidx)]
        by_cases hPB : mp = n ∧ idxp = idxB
        · rw [hPB.1, hPB.2, hnewB (hPB.2 ▸ hidxp)]
          exact hABv (hMA.2 ▸ hidx) (hPB.2 ▸ hidxp)
        · by_cases hPA : mp = n ∧ idxp = idxA
          · exact absurd ⟨hMA.1.trans hPA.1.symm, hMA.2.trans hPA.2.symm⟩ hne
          · rw [hfr mp idxp hmp hidxp hPA hPB]
            intro hcontra
            exact (hA (hMA.2 ▸ hidx)).2.2.2 ⟨mp, idxp, hmp, hidxp, hv2,
              hcontra.symm, (hA (hMA.2 ▸ hidx)).2.2.1⟩
      · by_cases hMB : m = n ∧ idx = idxB
        · rw [hMB.1, hMB.2, hnewB (hMB.2 ▸ hidx)]
          by_cases hPA : mp = n ∧ idxp = idxA
          · rw [hPA.1, hPA.2, hnewA (hPA.2 ▸ hidxp)]
            exact fun hc => hABv (hPA.2 ▸ hidxp) (hMB.2 ▸ hidx) hc.symm
          · by_cases hPB : mp = n ∧ idxp = idxB
            · exact absurd ⟨hMB.1.trans hPB.1.symm, hMB.2.trans hPB.2.symm⟩ hne
            · rw [hfr mp idxp hmp hidxp hPA hPB]
              intro hcontra
              exact (hB (hMB.2 ▸ hidx)).2.2.2 ⟨mp, idxp, hmp, hidxp, hv2,
                hcontra.symm, (hB (hMB.2 ▸ hidx)).2.2.1⟩
        · rw [hfr m idx hm hidx hMA hMB] at hnz ⊢
          by_cases hPA : mp = n ∧ idxp = idxA
          · rw [hPA.1, hPA.2, hnewA (hPA.2 ▸ hidxp)]
            intro hcontra
            exact (hA (hPA.2 ▸ hidxp)).2.2.2 ⟨m, idx, hm, hidx, hv1, hcontra,
              (hA (hPA.2 ▸ hidxp)).2.2.1⟩
          · by_cases hPB : mp = n ∧ idxp = idxB
            · rw [hPB.1, hPB.2, hnewB (hPB.2 ▸ hidxp)]
              intro hcontra
              exact (hB (hPB.2 ▸ hidxp)).2.2.2 ⟨m, idx, hm, hidx, hv1, hcontra,
                (hB (hPB.2 ▸ hidxp)).2.2.1⟩
            · rw [hfr mp idxp hmp hidxp hPA hPB]
              exact hWF.inj m idx mp idxp hm hidx hmp hidxp hv1 hv2 hnz hne
    · intro m idx hm hidx hv0
      rw [hval m hm] at hv0
      have hmn : m ≠ n := fun hc => hv (hc ▸ hv0)
      rw [hfr m idx hm hidx (fun hc => hmn hc.1) (fun hc => hmn hc.1)]
      exact hWF.invz m idx hm hidx hv0
  · intro bmy hy p hp
    obtain ⟨h1, h2, h3, h4, h5⟩ := hy p hp
    refine ⟨h1, by rw [hbl]; exact h2, ?_⟩
    rintro ⟨m, idx, hm, hidx, hvm, hpt, hq0⟩
    rw [hval m hm] at hvm
    by_cases hMA : m = n ∧ idx = idxA
    · refine h4 (hMA.2 ▸ hidx) ?_
      rw [← hpt, hMA.1, hMA.2]
      exact hnewA (hMA.2 ▸ hidx)
    · by_cases hMB : m = n ∧ idx = idxB
      · refine h5 (hMB.2 ▸ hidx) ?_
        rw [← hpt, hMB.1, hMB.2]
        exact hnewB (hMB.2 ▸ hidx)
      · rw [hfr m idx hm hidx hMA hMB] at hpt
        exact h3 ⟨m, idx, hm, hidx, hvm, hpt, hq0⟩

/-- One-iteration step lemma for well-formedness of the write loop: after
the iteration's data write produced disk `d1` and local table buffer
`blk1` (extending slot `n` by at most a fresh table-level pointer at
position `tidx`, whose fresh indirect block carries at most the entry
`ioffB`), persisting the size-updated table block and running the rest of
the loop keeps the invariant. -/
theorem writeGo_WF_tail (ib mblocks : Nat) (dat : Nat → Nat) (len off n : Nat)
    (hcap : n < INODES_PER_BLOCK * ib) (hib : ib < mblocks) (f : Nat)
    (ih : ∀ nwrite dblock doff ncopy blk D bm,
      D.blocks = mblocks → DiskWF D ib → bmDisjoint D bm ib →
      blk = D.data (n / INODES_PER_BLOCK + 1) → slotValid D n ≠ 0 →
      GWFout ib mblocks (writeGo mblocks dat len off (n / INODES_PER_BLOCK + 1)
        (n % INODES_PER_BLOCK) f nwrite dblock doff ncopy blk (some D) bm))
    (nwrite dblock ncopy : Nat) (blk1 : BlockFn) (d1 : Disk)
    (bm1 : Nat → Bool) (tidx p ioffB pB : Nat)
    (hd1bl : d1.blocks = mblocks)
    (hWF1 : DiskWF d1 ib)
    (hdis1 : bmDisjoint d1 bm1 ib)
    (hval1 : slotValid d1 n ≠ 0)
    (htr1 : ∀ o, BLOCK_SIZE ≤ o → blk1 o = 0)
    (htv : ∀ t, t < INODES_PER_BLOCK → inodeValid blk1 t =
      inodeValid (d1.data (n / INODES_PER_BLOCK + 1)) t)
    (htd : ∀ t d, t < INODES_PER_BLOCK → d < POINTERS_PER_INODE →
      ¬(t = n % INODES_PER_BLOCK ∧ d = tidx) →
      inodeDirect blk1 t d = inodeDirect (d1.data (n / INODES_PER_BLOCK + 1)) t d)
    (hti : ∀ t, t < INODES_PER_BLOCK →
      ¬(t = n % INODES_PER_BLOCK ∧ tidx = POINTERS_PER_INODE) →
      inodeIndirect blk1 t = inodeIndirect (d1.data (n / INODES_PER_BLOCK + 1)) t)
    (htidx : tidx < 6 ∨ tidx = PTRS_PER_SLOT)
    (hABne : tidx ≠ 6 + ioffB)
    (hpA : tidx < PTRS_PER_SLOT →
      ib < p ∧ p < mblocks ∧ p ≠ 0 ∧ ¬ reaches d1 ib p ∧ bm1 p = false)
    (hnewd : tidx < POINTERS_PER_INODE →
      inodeDirect blk1 (n % INODES_PER_BLOCK) tidx = p)
    (hnewi : tidx = POINTERS_PER_INODE →
      inodeIndirect blk1 (n % INODES_PER_BLOCK) = p)
    (hold5 : tidx = POINTERS_PER_INODE → slotIndirect d1 n = 0)
    (hB5 : ioffB < POINTERS_PER_BLOCK → tidx = POINTERS_PER_INODE)
    (hent0 : tidx = POINTERS_PER_INODE → ∀ j, j < POINTERS_PER_BLOCK →
      j ≠ ioffB → blockPtr (d1.data p) j = 0)
    (hpB : ioffB < POINTERS_PER_BLOCK →
      ib < pB ∧ pB < mblocks ∧ pB ≠ 0 ∧ ¬ reaches d1 ib pB ∧
        bm1 pB = false ∧ pB ≠ p ∧ blockPtr (d1.data p) ioffB = pB) :
    GWFout ib mblocks (writeGo mblocks dat len off (n / INODES_PER_BLOCK + 1)
      (n % INODES_PER_BLOCK) f (nwrite + ncopy) (dblock + 1) 0
      (nextNcopy len (nwrite + ncopy))
      (if inodeSize blk1 (n % INODES_PER_BLOCK) < (off + (nwrite + ncopy)) % U64
       then setInodeSize blk1 (n % INODES_PER_BLOCK)
         ((off + (nwrite + ncopy)) % U64) else blk1)
      (owriteD (some d1) (n / INODES_PER_BLOCK + 1)
        (if inodeSize blk1 (n % INODES_PER_BLOCK) < (off + (nwrite + ncopy)) % U64
         then setInodeSize blk1 (n % INODES_PER_BLOCK)
           ((off + (nwrite + ncopy)) % U64) else blk1)) bm1) := by
  have hn2 : n < 128 * ib := hcap
  have hs128 : n % INODES_PER_BLOCK < INODES_PER_BLOCK := by
    show n % 128 < 128
    omega
  have hbn2 : n / INODES_PER_BLOCK + 1 ≤ ib := by
    show n / 128 + 1 ≤ ib
    omega
  have hbnlt : n / INODES_PER_BLOCK + 1 < d1.blocks := by
    rw [hd1bl]
    show n / 128 + 1 < mblocks
    omega
  generalize hblk2 : (if inodeSize blk1 (n % INODES_PER_BLOCK) <
      (off + (nwrite + ncopy)) % U64
    then setInodeSize blk1 (n % INODES_PER_BLOCK)
      ((off + (nwrite + ncopy)) % U64) else blk1) = blk2
  have hb2v : ∀ t, inodeValid blk2 t = inodeValid blk1 t := by
    rw [← hblk2]
    intro t
    split
    · exact inodeValid_setSize blk1 t _ _
    · rfl
  have hb2d : ∀ t d, d < POINTERS_PER_INODE →
      inodeDirect blk2 t d = inodeDirect blk1 t d := by
    rw [← hblk2]
    intro t d hd
    split
    · exact inodeDirect_setSize blk1 t _ d _ hd
    · rfl
  have hb2i : ∀ t, inodeIndirect blk2 t = inodeIndirect blk1 t := by
    rw [← hblk2]
    intro t
    split
    · exact inodeIndirect_setSize blk1 t _ _
    · rfl
  have hb2tr : ∀ o, BLOCK_SIZE ≤ o → blk2 o = 0 := by
    rw [← hblk2]
    split
    · exact writeU32_trunc blk1 (32 * (n % INODES_PER_BLOCK) + 4) _
        (by show 32 * (n % 128) + 4 + 4 ≤ 4096; omega) htr1
    · exact htr1
  rw [owriteD_eq d1 _ _ hbnlt]
  obtain ⟨hVs, hSs, hDs, hIs⟩ :=
    slot_updDisk_table d1 (n / INODES_PER_BLOCK + 1) blk2 n rfl
  have hval3 : ∀ m, slotValid (updDisk d1 (n / INODES_PER_BLOCK + 1) blk2) m =
      slotValid d1 m :=
    updDisk_table_valid d1 _ blk2 (fun t ht => by rw [hb2v t, htv t ht])
  have hfr3 : ∀ m, m < INODES_PER_BLOCK * ib → m ≠ n → ∀ idx,
      ptrVal (updDisk d1 (n / INODES_PER_BLOCK + 1) blk2) m idx =
        ptrVal d1 m idx := by
    intro m hm hmn idx
    refine updDisk_table_frame d1 ib (n / INODES_PER_BLOCK + 1) blk2 hWF1 hbn2
      (n % INODES_PER_BLOCK)
      (fun t d ht hd hts => by
        rw [hb2d t d hd, htd t d ht hd (fun hc => hts hc.1)])
      (fun t ht hts => by rw [hb2i t, hti t ht (fun hc => hts hc.1)])
      m hm ?_ idx
    by_cases hb : m / INODES_PER_BLOCK + 1 = n / INODES_PER_BLOCK + 1
    · exact Or.inr (fun hc => hmn (dense_eq m n hb hc))
    · exact Or.inl hb
  have hpnb : tidx < PTRS_PER_SLOT →
      p ≠ n / INODES_PER_BLOCK + 1 := by
    intro hact
    have h1 := (hpA hact).1
    show ¬ p = n / 128 + 1
    omega
  have hfrT : ∀ m idx, m < INODES_PER_BLOCK * ib → idx < PTRS_PER_SLOT →
      ¬(m = n ∧ idx = tidx) → ¬(m = n ∧ idx = 6 + ioffB) →
      ptrVal (updDisk d1 (n / INODES_PER_BLOCK + 1) blk2) m idx =
        ptrVal d1 m idx := by
    intro m idx hm hidx hxA hxB
    by_cases hmn : m = n
    · subst hmn
      rcases ptrVal_cases d1 m idx hidx with h5 | h6 | ⟨j, hj, hje⟩
      · have hdt : idx ≠ tidx := fun hc => hxA ⟨rfl, hc⟩
        rw [ptrVal_direct _ m idx h5, ptrVal_direct d1 m idx h5, hDs idx h5,
          hb2d _ idx h5, htd _ idx hs128 h5 (fun hc => hdt hc.2)]
        rfl
      · by_cases ht5 : tidx = POINTERS_PER_INODE
        · exact absurd ⟨rfl, h6.trans ht5.symm⟩ hxA
        · rw [h6, ptrVal_ind, ptrVal_ind, hIs, hb2i,
            hti _ hs128 (fun hc => ht5 hc.2)]
          rfl
      · rw [hje]
        by_cases ht5 : tidx = POINTERS_PER_INODE
        · have hj2 : j < 1024 := hj
          have hjo : j ≠ ioffB := fun hc => hxB ⟨rfl, by rw [hje, hc]⟩
          have hIs2 : slotIndirect
              (updDisk d1 (m / INODES_PER_BLOCK + 1) blk2) m = p := by
            rw [hIs, hb2i, hnewi ht5]
          have hact : tidx < PTRS_PER_SLOT := by
            rw [ht5]
            decide
          rw [ptrVal_entry _ m j (by rw [hIs2]; exact (hpA hact).2.2.1), hIs2,
            updDisk_data_ne d1 _ blk2 p (hpnb hact),
            hent0 ht5 j hj hjo,
            ptrVal_entry_zero d1 m j (hold5 ht5)]
        · have hIs3 : slotIndirect
              (updDisk d1 (m / INODES_PER_BLOCK + 1) blk2) m =
              slotIndirect d1 m := by
            rw [hIs, hb2i]
            exact hti _ hs128 (fun hc => ht5 hc.2)
          by_cases hz : slotIndirect d1 m = 0
          · rw [ptrVal_entry_zero _ m j (by rw [hIs3]; exact hz),
              ptrVal_entry_zero d1 m j hz]
          · rw [ptrVal_entry _ m j (by rw [hIs3]; exact hz),
              ptrVal_entry d1 m j hz, hIs3,
              updDisk_data_ne d1 _ blk2 _
                (slotIndirect_ne_low d1 ib m _ hWF1 hm hbn2 hval1 hz)]
    · exact hfr3 m hm hmn idx
  have hnA : tidx < PTRS_PER_SLOT →
      ptrVal (updDisk d1 (n / INODES_PER_BLOCK + 1) blk2) n tidx = p := by
    intro hact
    rcases htidx with h6 | hP
    · by_cases h5 : tidx < POINTERS_PER_INODE
      · rw [ptrVal_direct _ n tidx h5, hDs tidx h5, hb2d _ tidx h5, hnewd h5]
      · have ht5 : tidx = POINTERS_PER_INODE := by
          have h6b : tidx < 6 := h6
          have h5b : ¬ tidx < 5 := h5
          show tidx = 5
          omega
        rw [ht5, ptrVal_ind, hIs, hb2i, hnewi ht5]
    · rw [hP] at hact
      exact absurd hact (lt_irrefl _)
  have hnB : 6 + ioffB < PTRS_PER_SLOT →
      ptrVal (updDisk d1 (n / INODES_PER_BLOCK + 1) blk2) n (6 + ioffB) = pB := by
    intro hact
    have hio : ioffB < POINTERS_PER_BLOCK := by
      have hact2 : 6 + ioffB < 1030 := hact
      show ioffB < 1024
      omega
    have ht5 := hB5 hio
    have hact5 : tidx < PTRS_PER_SLOT := by
      rw [ht5]
      decide
    have hIs2 : slotIndirect
        (updDisk d1 (n / INODES_PER_BLOCK + 1) blk2) n = p := by
      rw [hIs, hb2i, hnewi ht5]
    rw [ptrVal_entry _ n ioffB (by rw [hIs2]; exact (hpA hact5).2.2.1), hIs2,
      updDisk_data_ne d1 _ blk2 p (hpnb hact5)]
    exact (hpB hio).2.2.2.2.2.2
  obtain ⟨hWF3, hbm3⟩ := extendTwo_WF d1
    (updDisk d1 (n / INODES_PER_BLOCK + 1) blk2) ib n tidx (6 + ioffB) p pB
    hWF1 hcap hval1
    (fun hact => ⟨(hpA hact).1, by rw [hd1bl]; exact (hpA hact).2.1,
      (hpA hact).2.2.1, (hpA hact).2.2.2.1⟩)
    (fun hact => by
      have hio : ioffB < POINTERS_PER_BLOCK := by
        have hact2 : 6 + ioffB < 1030 := hact
        show ioffB < 1024
        omega
      exact ⟨(hpB hio).1, by rw [hd1bl]; exact (hpB hio).2.1,
        (hpB hio).2.2.1, (hpB hio).2.2.2.1⟩)
    (fun hactA hactB => by
      have hio : ioffB < POINTERS_PER_BLOCK := by
        have hact2 : 6 + ioffB < 1030 := hactB
        show ioffB < 1024
        omega
      exact fun hc => (hpB hio).2.2.2.2.2.1 hc.symm)
    hABne rfl (updDisk_trunc d1 _ blk2 hWF1.trunc)
    (fun m hm => hval3 m) hfrT hnA hnB
  have hdis3 : bmDisjoint (updDisk d1 (n / INODES_PER_BLOCK + 1) blk2) bm1 ib := by
    refine hbm3 bm1 (fun q hq => ?_)
    obtain ⟨g1, g2, g3⟩ := hdis1 q hq
    refine ⟨g1, g2, g3, ?_, ?_⟩
    · intro hact hqe
      rw [hqe, (hpA hact).2.2.2.2] at hq
      exact Bool.noConfusion hq
    · intro hact hqe
      have hio : ioffB < POINTERS_PER_BLOCK := by
        have hact2 : 6 + ioffB < 1030 := hact
        show ioffB < 1024
        omega
      rw [hqe, (hpB hio).2.2.2.2.1] at hq
      exact Bool.noConfusion hq
  exact ih (nwrite + ncopy) (dblock + 1) 0 (nextNcopy len (nwrite + ncopy)) blk2
    (updDisk d1 (n / INODES_PER_BLOCK + 1) blk2) bm1
    (by show d1.blocks = mblocks; exact hd1bl) hWF3 hdis3
    (by rw [updDisk_data_eq, truncBlock_eq_self blk2 hb2tr])
    (by rw [hval3 n]; exact hval1)

/-- Entries past the pointer array of a truncated block read as zero. -/
theorem blockPtr_trunc_ge (f : BlockFn) (j : Nat)
    (htr : ∀ o, BLOCK_SIZE ≤ o → f o = 0) (hj : POINTERS_PER_BLOCK ≤ j) :
    blockPtr f j = 0 := by
  unfold blockPtr readU32
  have hj2 : 1024 ≤ j := hj
  rw [htr (4 * j) (by show 4096 ≤ 4 * j; omega),
    htr (4 * j + 1) (by show 4096 ≤ 4 * j + 1; omega),
    htr (4 * j + 2) (by show 4096 ≤ 4 * j + 2; omega),
    htr (4 * j + 3) (by show 4096 ≤ 4 * j + 3; omega)]

set_option maxHeartbeats 1600000 in
/-- Well-formedness of the whole write loop: from any loop state whose
local table buffer is the stored table block of a live well-formed disk
with a disjoint bitmap, every exit of the loop (success or any failure
path) leaves a live disk of the same geometry satisfying the structural
invariant with a bitmap disjoint from its reachable set. -/
theorem writeGo_WF (ib mblocks : Nat) (dat : Nat → Nat) (len off n : Nat)
    (hcap : n < INODES_PER_BLOCK * ib) (hib : ib < mblocks) :
    ∀ fuel nwrite dblock doff ncopy blk D bm,
      D.blocks = mblocks → DiskWF D ib → bmDisjoint D bm ib →
      blk = D.data (n / INODES_PER_BLOCK + 1) → slotValid D n ≠ 0 →
      GWFout ib mblocks (writeGo mblocks dat len off (n / INODES_PER_BLOCK + 1)
        (n % INODES_PER_BLOCK) fuel nwrite dblock doff ncopy blk (some D) bm) := by
  intro fuel
  induction fuel with
  | zero =>
    intro nwrite dblock doff ncopy blk D bm hbl hWF hdis hsync hval
    exact ⟨D, rfl, hbl, hWF, hdis⟩
  | succ f ih =>
    intro nwrite dblock doff ncopy blk D bm hbl hWF hdis hsync hval
    subst hsync
    have hn2 : n < 128 * ib := hcap
    have hs128 : n % INODES_PER_BLOCK < INODES_PER_BLOCK := by
      show n % 128 < 128
      omega
    have hbn2 : n / INODES_PER_BLOCK + 1 ≤ ib := by
      show n / 128 + 1 ≤ ib
      omega
    have hbnlt : n / INODES_PER_BLOCK + 1 < D.blocks := by
      rw [hbl]
      show n / 128 + 1 < mblocks
      omega
    have hfr2dis : bmDisjoint D (find_free_block mblocks bm).2 ib := by
      rcases find_free_block_cases mblocks bm with hf | ⟨-, -, hf⟩
      · rw [hf]
        exact hdis
      · rw [hf]
        exact bmDisjoint_clear D bm ib _ hdis
    simp only [writeGo]
    by_cases hlt : nwrite < len
    case neg =>
      rw [if_neg hlt]
      exact ⟨D, rfl, hbl, hWF, hdis⟩
    case pos =>
      rw [if_pos hlt]
      by_cases hdb : dblock < POINTERS_PER_INODE
      · rw [if_pos hdb]
        by_cases hc : inodeDirect (D.data (n / INODES_PER_BLOCK + 1))
            (n % INODES_PER_BLOCK) dblock = 0
        · rw [if_pos hc]
          by_cases hz : (find_free_block mblocks bm).1 = 0
          · rw [if_pos hz]
            exact ⟨D, rfl, hbl, hWF, hfr2dis⟩
          · rw [if_neg hz]
            try dsimp only
            rcases find_free_block_cases mblocks bm with hff | ⟨hfav, hflt, hfbm⟩
            · rw [hff] at hz
              exact absurd rfl hz
            · obtain ⟨hfgt, hfblt, hfnr⟩ := hdis _ hfav
              have hfblt2 : (find_free_block mblocks bm).1 < D.blocks := by
                rw [hbl]
                exact hflt
              have hfU : (find_free_block mblocks bm).1 < U32 := by
                have hb32 := hWF.blocks32
                omega
              have hP : inodeDirect (setInodeDirect
                  (D.data (n / INODES_PER_BLOCK + 1)) (n % INODES_PER_BLOCK)
                  dblock (find_free_block mblocks bm).1) (n % INODES_PER_BLOCK)
                  dblock = (find_free_block mblocks bm).1 := by
                rw [inodeDirect_setDirect_same]
                exact Nat.mod_eq_of_lt hfU
              rw [hP, oread_lt D _ hfblt2]
              try dsimp only
              generalize hdb1 : memcpyIn (D.data (find_free_block mblocks bm).1)
                doff dat nwrite ncopy = db1
              rw [owriteChk_eq D _ _ hfblt2]
              try dsimp only
              have hfnb : n / INODES_PER_BLOCK + 1 ≠
                  (find_free_block mblocks bm).1 := by
                show ¬ n / 128 + 1 = _
                omega
              have hd1b : (updDisk D (find_free_block mblocks bm).1 db1).data
                  (n / INODES_PER_BLOCK + 1) =
                  D.data (n / INODES_PER_BLOCK + 1) :=
                updDisk_data_ne D _ db1 _ hfnb
              have hindf := unreachable_not_ind D ib _ hWF hfnr hz
              have hfrA := updDisk_ptr_frame D ib _ db1 hfgt hindf
              have hreA := updDisk_reaches_frame D ib _ db1 hfgt hindf
              have hWF1 := updDisk_DiskWF D ib _ db1 hWF hfgt hindf
              refine writeGo_WF_tail ib mblocks dat len off n hcap hib f ih
                nwrite dblock ncopy _ _ _ dblock (find_free_block mblocks bm).1
                (POINTERS_PER_BLOCK + 1) 0
                ?_ hWF1 ?_ ?_ ?_ ?_ ?_ ?_ ?_ ?_ ?_ ?_ ?_ ?_ ?_ ?_ ?_
              · exact hbl
              · intro q hq
                rw [hfbm] at hq
                obtain ⟨a, b, c⟩ := hdis q (bmSet_false_mono bm _ q hq)
                exact ⟨a, b, fun hr => c ((hreA q).mp hr)⟩
              · rw [(hfrA n hcap).1]
                exact hval
              · have hdb5 : dblock < 5 := hdb
                exact writeU32_trunc _ _ _
                  (by show 32 * (n % 128) + 8 + 4 * dblock + 4 ≤ 4096; omega)
                  (fun o ho => hWF.trunc _ o ho)
              · intro t ht
                rw [hd1b]
                exact inodeValid_setDirect _ t _ dblock _ hdb
              · intro t d ht hd hts
                rw [hd1b]
                exact inodeDirect_setDirect_ne _ t _ d dblock _ hd hdb
                  (not_and_or.mp hts)
              · intro t ht hts
                rw [hd1b]
                exact inodeIndirect_setDirect _ t _ dblock _ hdb
              · refine Or.inl ?_
                have hdb5 : dblock < 5 := hdb
                show dblock < 6
                omega
              · have hdb5 : dblock < 5 := hdb
                show ¬ dblock = 1031
                omega
              · intro hact
                exact ⟨hfgt, hflt, hz, fun hr => hfnr ((hreA _).mp hr),
                  by rw [hfbm]; exact bmSet_false_self bm _⟩
              · intro h5
                exact hP
              · intro h5e
                exact absurd hdb (by rw [h5e]; exact lt_irrefl _)
              · intro h5e
                exact absurd hdb (by rw [h5e]; exact lt_irrefl _)
              · intro hio
                exact absurd hio (by decide)
              · intro h5e
                exact absurd hdb (by rw [h5e]; exact lt_irrefl _)
              · intro hio
                exact absurd hio (by decide)
        · rw [if_neg hc]
          try dsimp only
          have hnz : ptrVal D n dblock ≠ 0 := by
            rw [ptrVal_direct D n dblock hdb]
            exact hc
          have hdbP : dblock < PTRS_PER_SLOT := by
            have h5 : dblock < 5 := hdb
            show dblock < 1030
            omega
          have hrng := hWF.ptrR n dblock hcap hdbP hval hnz
          rw [ptrVal_direct D n dblock hdb] at hrng
          have hrng2 : inodeDirect (D.data (n / INODES_PER_BLOCK + 1))
              (n % INODES_PER_BLOCK) dblock < D.blocks := hrng.2
          have hrgt : ib < inodeDirect (D.data (n / INODES_PER_BLOCK + 1))
              (n % INODES_PER_BLOCK) dblock := hrng.1
          rw [oread_lt D _ hrng2]
          try dsimp only
          generalize hdb1 : memcpyIn (D.data (inodeDirect
            (D.data (n / INODES_PER_BLOCK + 1)) (n % INODES_PER_BLOCK) dblock))
            doff dat nwrite ncopy = db1
          rw [owriteChk_eq D _ _ hrng2]
          try dsimp only
          have hindf : ∀ m, m < INODES_PER_BLOCK * ib → slotIndirect D m ≠ 0 →
              slotIndirect D m ≠ inodeDirect (D.data (n / INODES_PER_BLOCK + 1))
                (n % INODES_PER_BLOCK) dblock := by
            have h := ptr_not_ind D ib n dblock hWF hcap hdbP
              (by have h5 : dblock < 5 := hdb; show ¬ dblock = 5; omega) hval
            intro m hm hz2
            have h2 := h m hm hz2
            rw [ptrVal_direct D n dblock hdb] at h2
            exact h2
          have hfrA := updDisk_ptr_frame D ib _ db1 hrgt hindf
          have hreA := updDisk_reaches_frame D ib _ db1 hrgt hindf
          have hWF1 := updDisk_DiskWF D ib _ db1 hWF hrgt hindf
          have hPnb : n / INODES_PER_BLOCK + 1 ≠ inodeDirect
              (D.data (n / INODES_PER_BLOCK + 1)) (n % INODES_PER_BLOCK)
              dblock := by
            show ¬ n / 128 + 1 = _
            omega
          have hd1b : (updDisk D (inodeDirect (D.data (n / INODES_PER_BLOCK + 1))
              (n % INODES_PER_BLOCK) dblock) db1).data
              (n / INODES_PER_BLOCK + 1) = D.data (n / INODES_PER_BLOCK + 1) :=
            updDisk_data_ne D _ db1 _ hPnb
          refine writeGo_WF_tail ib mblocks dat len off n hcap hib f ih
            nwrite dblock ncopy _ _ _ PTRS_PER_SLOT 0 (POINTERS_PER_BLOCK + 1) 0
            ?_ hWF1 ?_ ?_ ?_ ?_ ?_ ?_ ?_ ?_ ?_ ?_ ?_ ?_ ?_ ?_ ?_
          · exact hbl
          · intro q hq
            obtain ⟨a, b, c⟩ := hdis q hq
            exact ⟨a, b, fun hr => c ((hreA q).mp hr)⟩
          · rw [(hfrA n hcap).1]
            exact hval
          · exact fun o ho => hWF.trunc _ o ho
          · intro t ht
            rw [hd1b]
          · intro t d ht hd hts
            rw [hd1b]
          · intro t ht hts
            rw [hd1b]
          · exact Or.inr rfl
          · show ¬ (1030 : Nat) = 1031
            decide
          · intro hact
            exact absurd hact (lt_irrefl _)
          · intro h5
            exact absurd h5 (by decide)
          · intro h5e
            exact absurd h5e (by decide)
          · intro h5e
            exact absurd h5e (by decide)
          · intro hio
            exact absurd hio (by decide)
          · intro h5e
            exact absurd h5e (by decide)
          · intro hio
            exact absurd hio (by decide)
      · rw [if_neg hdb]
        by_cases hci : inodeIndirect (D.data (n / INODES_PER_BLOCK + 1))
            (n % INODES_PER_BLOCK) = 0
        · rw [if_pos hci]
          by_cases hzi : (find_free_block mblocks bm).1 = 0
          · rw [if_pos hzi]
            exact ⟨D, rfl, hbl, hWF, hfr2dis⟩
          · rw [if_neg hzi]
            try dsimp only
            rw [show blockPtr zeroBlock (dblock - POINTERS_PER_INODE) = 0 from rfl]
            rw [if_pos rfl]
            have hbm1dis : bmDisjoint D (find_free_block mblocks bm).2 ib :=
              hfr2dis
            have hfr3dis : bmDisjoint D
                (find_free_block mblocks (find_free_block mblocks bm).2).2 ib := by
              rcases find_free_block_cases mblocks
                  (find_free_block mblocks bm).2 with hf | ⟨-, -, hf⟩
              · rw [hf]
                exact hbm1dis
              · rw [hf]
                exact bmDisjoint_clear D _ ib _ hbm1dis
            by_cases hz2 : (find_free_block mblocks
                (find_free_block mblocks bm).2).1 = 0
            · rw [if_pos hz2]
              exact ⟨D, rfl, hbl, hWF, hfr3dis⟩
            · rw [if_neg hz2]
              try dsimp only
              rw [if_pos rfl]
              rcases find_free_block_cases mblocks bm with hff | ⟨hfav, hflt, hfbm⟩
              · rw [hff] at hzi
                exact absurd rfl hzi
              · rcases find_free_block_cases mblocks (find_free_block mblocks bm).2 with
                  hff2 | ⟨hfav2, hflt2, hfbm2⟩
                · rw [hff2] at hz2
                  exact absurd rfl hz2
                · obtain ⟨hfgt, hfblt, hfnr⟩ := hdis _ hfav
                  have hfav2b : bm (find_free_block mblocks (find_free_block mblocks bm).2).1 = true :=
                    bmSet_false_mono bm (find_free_block mblocks bm).1 (find_free_block mblocks (find_free_block mblocks bm).2).1
                      (by rw [← hfbm]; exact hfav2)
                  have hne21 : (find_free_block mblocks (find_free_block mblocks bm).2).1 ≠ (find_free_block mblocks bm).1 :=
                    bmSet_false_ne bm (find_free_block mblocks bm).1 (find_free_block mblocks (find_free_block mblocks bm).2).1
                      (by rw [← hfbm]; exact hfav2)
                  obtain ⟨hfgt2, hfblt2x, hfnr2⟩ := hdis _ hfav2b
                  have hf1D : (find_free_block mblocks bm).1 < D.blocks := by
                    rw [hbl]
                    exact hflt
                  have hf2D : (find_free_block mblocks (find_free_block mblocks bm).2).1 < D.blocks := by
                    rw [hbl]
                    exact hflt2
                  have hb32 := hWF.blocks32
                  have hfU : (find_free_block mblocks bm).1 < U32 := by omega
                  have hf2U : (find_free_block mblocks (find_free_block mblocks bm).2).1 < U32 := by omega
                  have hT : inodeIndirect (setInodeIndirect (D.data (n / INODES_PER_BLOCK + 1)) (n % INODES_PER_BLOCK) (find_free_block mblocks bm).1) (n % INODES_PER_BLOCK) =
                      (find_free_block mblocks bm).1 := by
                    rw [inodeIndirect_setIndirect_same]
                    exact Nat.mod_eq_of_lt hfU
                  rw [hT, owriteChk_eq D _ _ hf1D]
                  try dsimp only
                  have hP2 : blockPtr (setBlockPtr zeroBlock (dblock - POINTERS_PER_INODE) (find_free_block mblocks (find_free_block mblocks bm).2).1) (dblock - POINTERS_PER_INODE) = (find_free_block mblocks (find_free_block mblocks bm).2).1 := by
                    rw [blockPtr_setBlockPtr_same]
                    exact Nat.mod_eq_of_lt hf2U
                  rw [hP2]
                  generalize hdb1 : memcpyIn zeroBlock doff dat nwrite ncopy = db1
                  rw [owriteChk_eq (updDisk D (find_free_block mblocks bm).1 (setBlockPtr zeroBlock (dblock - POINTERS_PER_INODE) (find_free_block mblocks (find_free_block mblocks bm).2).1)) _ _
                    (show (find_free_block mblocks (find_free_block mblocks bm).2).1 < (updDisk D (find_free_block mblocks bm).1 (setBlockPtr zeroBlock (dblock - POINTERS_PER_INODE) (find_free_block mblocks (find_free_block mblocks bm).2).1)).blocks from hf2D)]
                  try dsimp only
                  have hindf1 := unreachable_not_ind D ib _ hWF hfnr hzi
                  have hfrA := updDisk_ptr_frame D ib (find_free_block mblocks bm).1 (setBlockPtr zeroBlock (dblock - POINTERS_PER_INODE) (find_free_block mblocks (find_free_block mblocks bm).2).1) hfgt hindf1
                  have hreA := updDisk_reaches_frame D ib (find_free_block mblocks bm).1 (setBlockPtr zeroBlock (dblock - POINTERS_PER_INODE) (find_free_block mblocks (find_free_block mblocks bm).2).1) hfgt hindf1
                  have hWFa := updDisk_DiskWF D ib (find_free_block mblocks bm).1 (setBlockPtr zeroBlock (dblock - POINTERS_PER_INODE) (find_free_block mblocks (find_free_block mblocks bm).2).1) hWF hfgt hindf1
                  have hindf2 : ∀ m, m < INODES_PER_BLOCK * ib →
                      slotIndirect (updDisk D (find_free_block mblocks bm).1 (setBlockPtr zeroBlock (dblock - POINTERS_PER_INODE) (find_free_block mblocks (find_free_block mblocks bm).2).1)) m ≠ 0 →
                      slotIndirect (updDisk D (find_free_block mblocks bm).1 (setBlockPtr zeroBlock (dblock - POINTERS_PER_INODE) (find_free_block mblocks (find_free_block mblocks bm).2).1)) m ≠ (find_free_block mblocks (find_free_block mblocks bm).2).1 := by
                    intro m hm hz3
                    have he : slotIndirect (updDisk D (find_free_block mblocks bm).1 (setBlockPtr zeroBlock (dblock - POINTERS_PER_INODE) (find_free_block mblocks (find_free_block mblocks bm).2).1)) m = slotIndirect D m := by
                      have h := (hfrA m hm).2.2 POINTERS_PER_INODE
                      rw [ptrVal_ind, ptrVal_ind] at h
                      exact h
                    rw [he] at hz3 ⊢
                    exact unreachable_not_ind D ib _ hWF hfnr2 hz2 m hm hz3
                  have hfrB := updDisk_ptr_frame (updDisk D (find_free_block mblocks bm).1 (setBlockPtr zeroBlock (dblock - POINTERS_PER_INODE) (find_free_block mblocks (find_free_block mblocks bm).2).1)) ib (find_free_block mblocks (find_free_block mblocks bm).2).1 db1 hfgt2 hindf2
                  have hreB := updDisk_reaches_frame (updDisk D (find_free_block mblocks bm).1 (setBlockPtr zeroBlock (dblock - POINTERS_PER_INODE) (find_free_block mblocks (find_free_block mblocks bm).2).1)) ib (find_free_block mblocks (find_free_block mblocks bm).2).1 db1 hfgt2 hindf2
                  have hWF1 := updDisk_DiskWF (updDisk D (find_free_block mblocks bm).1 (setBlockPtr zeroBlock (dblock - POINTERS_PER_INODE) (find_free_block mblocks (find_free_block mblocks bm).2).1)) ib (find_free_block mblocks (find_free_block mblocks bm).2).1 db1 hWFa hfgt2 hindf2
                  have hfnb1 : n / INODES_PER_BLOCK + 1 ≠ (find_free_block mblocks bm).1 := by
                    show ¬ n / 128 + 1 = _
                    omega
                  have hfnb2 : n / INODES_PER_BLOCK + 1 ≠ (find_free_block mblocks (find_free_block mblocks bm).2).1 := by
                    show ¬ n / 128 + 1 = _
                    omega
                  have hd1b : (updDisk (updDisk D (find_free_block mblocks bm).1 (setBlockPtr zeroBlock (dblock - POINTERS_PER_INODE) (find_free_block mblocks (find_free_block mblocks bm).2).1)) (find_free_block mblocks (find_free_block mblocks bm).2).1 db1).data
                      (n / INODES_PER_BLOCK + 1) =
                      D.data (n / INODES_PER_BLOCK + 1) := by
                    rw [updDisk_data_ne (updDisk D (find_free_block mblocks bm).1 (setBlockPtr zeroBlock (dblock - POINTERS_PER_INODE) (find_free_block mblocks (find_free_block mblocks bm).2).1)) (find_free_block mblocks (find_free_block mblocks bm).2).1 db1 _ hfnb2,
                      updDisk_data_ne D (find_free_block mblocks bm).1 (setBlockPtr zeroBlock (dblock - POINTERS_PER_INODE) (find_free_block mblocks (find_free_block mblocks bm).2).1) _ hfnb1]
                  have hsi : slotIndirect (updDisk (updDisk D (find_free_block mblocks bm).1 (setBlockPtr zeroBlock (dblock - POINTERS_PER_INODE) (find_free_block mblocks (find_free_block mblocks bm).2).1)) (find_free_block mblocks (find_free_block mblocks bm).2).1 db1) n =
                      slotIndirect D n := by
                    have h2 := (hfrB n hcap).2.2 POINTERS_PER_INODE
                    have h1 := (hfrA n hcap).2.2 POINTERS_PER_INODE
                    rw [ptrVal_ind, ptrVal_ind] at h2 h1
                    rw [h2, h1]
                  refine writeGo_WF_tail ib mblocks dat len off n hcap hib f ih
                    nwrite dblock ncopy _ _ _ POINTERS_PER_INODE (find_free_block mblocks bm).1
                    (dblock - POINTERS_PER_INODE) (find_free_block mblocks (find_free_block mblocks bm).2).1
                    ?_ hWF1 ?_ ?_ ?_ ?_ ?_ ?_ ?_ ?_ ?_ ?_ ?_ ?_ ?_ ?_ ?_
                  · exact hbl
                  · intro q hq
                    rw [hfbm2] at hq
                    have hq1 := bmSet_false_mono _ _ q hq
                    rw [hfbm] at hq1
                    obtain ⟨a, b, c⟩ := hdis q (bmSet_false_mono bm _ q hq1)
                    exact ⟨a, b, fun hr => c ((hreA q).mp ((hreB q).mp hr))⟩
                  · rw [(hfrB n hcap).1, (hfrA n hcap).1]
                    exact hval
                  · exact writeU32_trunc _ _ _
                      (by show 32 * (n % 128) + 28 + 4 ≤ 4096; omega)
                      (fun o ho => hWF.trunc _ o ho)
                  · intro t ht
                    rw [hd1b]
                    exact inodeValid_setIndirect _ t _ _
                  · intro t d ht hd hts
                    rw [hd1b]
                    exact inodeDirect_setIndirect _ t _ d _ hd
                  · intro t ht hts
                    rw [hd1b]
                    exact inodeIndirect_setIndirect_ne _ t _ _
                      (fun hteq => hts ⟨hteq, rfl⟩)
                  · exact Or.inl (by decide)
                  · show ¬ (5 : Nat) = 6 + (dblock - 5)
                    omega
                  · intro hact
                    refine ⟨hfgt, hflt, hzi,
                      fun hr => hfnr ((hreA _).mp ((hreB _).mp hr)), ?_⟩
                    rw [hfbm2, bmSet_apply_ne _ _ _ _ (Ne.symm hne21), hfbm]
                    exact bmSet_false_self bm _
                  · intro h5
                    exact absurd h5 (by decide)
                  · intro h5e
                    exact hT
                  · intro h5e
                    rw [hsi]
                    exact hci
                  · intro hio
                    rfl
                  · intro h5e j hj hjo
                    rw [updDisk_data_ne (updDisk D (find_free_block mblocks bm).1 (setBlockPtr zeroBlock (dblock - POINTERS_PER_INODE) (find_free_block mblocks (find_free_block mblocks bm).2).1)) (find_free_block mblocks (find_free_block mblocks bm).2).1 db1 _ (Ne.symm hne21),
                      updDisk_data_eq, blockPtr_truncBlock _ j hj,
                      blockPtr_setBlockPtr_ne _ j _ _ hjo]
                    rfl
                  · intro hio
                    refine ⟨hfgt2, hflt2, hz2,
                      fun hr => hfnr2 ((hreA _).mp ((hreB _).mp hr)), ?_,
                      hne21, ?_⟩
                    · rw [hfbm2]
                      exact bmSet_false_self _ _
                    · rw [updDisk_data_ne (updDisk D (find_free_block mblocks bm).1 (setBlockPtr zeroBlock (dblock - POINTERS_PER_INODE) (find_free_block mblocks (find_free_block mblocks bm).2).1)) (find_free_block mblocks (find_free_block mblocks bm).2).1 db1 _ (Ne.symm hne21),
                        updDisk_data_eq, blockPtr_truncBlock _ _ hio,
                        blockPtr_setBlockPtr_same]
                      exact Nat.mod_eq_of_lt hf2U
        · rw [if_neg hci]
          have hiD : slotIndirect D n ≠ 0 := hci
          have hptr5 := hWF.ptrR n POINTERS_PER_INODE hcap (by decide) hval
            (by rw [ptrVal_ind]; exact hiD)
          rw [ptrVal_ind] at hptr5
          have hindlt : inodeIndirect (D.data (n / INODES_PER_BLOCK + 1))
              (n % INODES_PER_BLOCK) < D.blocks := hptr5.2
          rw [oread_lt D _ hindlt]
          try dsimp only
          by_cases hz2 : blockPtr (D.data (inodeIndirect
              (D.data (n / INODES_PER_BLOCK + 1)) (n % INODES_PER_BLOCK)))
              (dblock - POINTERS_PER_INODE) = 0
          · rw [if_pos hz2]
            by_cases hz3 : (find_free_block mblocks bm).1 = 0
            · rw [if_pos hz3]
              exact ⟨D, rfl, hbl, hWF, hfr2dis⟩
            · rw [if_neg hz3]
              try dsimp only
              rw [if_pos rfl]
              rcases find_free_block_cases mblocks bm with hff | ⟨hfav, hflt, hfbm⟩
              · rw [hff] at hz3
                exact absurd rfl hz3
              · obtain ⟨hfgt, hfblt, hfnr⟩ := hdis _ hfav
                have hf3D : (find_free_block mblocks bm).1 < D.blocks := by
                  rw [hbl]
                  exact hflt
                have hb32 := hWF.blocks32
                have hf3U : (find_free_block mblocks bm).1 < U32 := by omega
                have hindgt : ib < (inodeIndirect (D.data (n / INODES_PER_BLOCK + 1)) (n % INODES_PER_BLOCK)) := hptr5.1
                rw [owriteChk_eq D _ _ hindlt]
                try dsimp only
                have hP3 : blockPtr (setBlockPtr (D.data (inodeIndirect (D.data (n / INODES_PER_BLOCK + 1)) (n % INODES_PER_BLOCK))) (dblock - POINTERS_PER_INODE) (find_free_block mblocks bm).1) (dblock - POINTERS_PER_INODE) = (find_free_block mblocks bm).1 := by
                  rw [blockPtr_setBlockPtr_same]
                  exact Nat.mod_eq_of_lt hf3U
                rw [hP3]
                generalize hdb1 : memcpyIn zeroBlock doff dat nwrite ncopy = db1
                rw [owriteChk_eq (updDisk D (inodeIndirect (D.data (n / INODES_PER_BLOCK + 1)) (n % INODES_PER_BLOCK)) (setBlockPtr (D.data (inodeIndirect (D.data (n / INODES_PER_BLOCK + 1)) (n % INODES_PER_BLOCK))) (dblock - POINTERS_PER_INODE) (find_free_block mblocks bm).1)) _ _
                  (show (find_free_block mblocks bm).1 < (updDisk D (inodeIndirect (D.data (n / INODES_PER_BLOCK + 1)) (n % INODES_PER_BLOCK)) (setBlockPtr (D.data (inodeIndirect (D.data (n / INODES_PER_BLOCK + 1)) (n % INODES_PER_BLOCK))) (dblock - POINTERS_PER_INODE) (find_free_block mblocks bm).1)).blocks from hf3D)]
                try dsimp only
                obtain ⟨hg1, hg2, hg3, hg4, hg5⟩ :=
                  updDisk_ownind_frame D ib n (setBlockPtr (D.data (inodeIndirect (D.data (n / INODES_PER_BLOCK + 1)) (n % INODES_PER_BLOCK))) (dblock - POINTERS_PER_INODE) (find_free_block mblocks bm).1) hWF hcap hval hiD
                rw [show slotIndirect D n = (inodeIndirect (D.data (n / INODES_PER_BLOCK + 1)) (n % INODES_PER_BLOCK)) from rfl] at hg1 hg2 hg3 hg4 hg5
                have hext := extendTwo_WF D (updDisk D (inodeIndirect (D.data (n / INODES_PER_BLOCK + 1)) (n % INODES_PER_BLOCK)) (setBlockPtr (D.data (inodeIndirect (D.data (n / INODES_PER_BLOCK + 1)) (n % INODES_PER_BLOCK))) (dblock - POINTERS_PER_INODE) (find_free_block mblocks bm).1)) ib n
                  (6 + (dblock - POINTERS_PER_INODE)) (6 + (dblock - POINTERS_PER_INODE) + 1030) (find_free_block mblocks bm).1 0 hWF hcap hval
                  (fun hact => ⟨hfgt, hf3D, hz3, hfnr⟩)
                  (fun hact => absurd hact
                    (by show ¬ 6 + (dblock - 5) + 1030 < 1030; omega))
                  (fun hact1 hact2 => absurd hact2
                    (by show ¬ 6 + (dblock - 5) + 1030 < 1030; omega))
                  (by show ¬ 6 + (dblock - 5) = 6 + (dblock - 5) + 1030; omega)
                  rfl (updDisk_trunc D (inodeIndirect (D.data (n / INODES_PER_BLOCK + 1)) (n % INODES_PER_BLOCK)) (setBlockPtr (D.data (inodeIndirect (D.data (n / INODES_PER_BLOCK + 1)) (n % INODES_PER_BLOCK))) (dblock - POINTERS_PER_INODE) (find_free_block mblocks bm).1) hWF.trunc)
                  hg1
                  ?_ ?_
                  (fun hact => absurd hact
                    (by show ¬ 6 + (dblock - 5) + 1030 < 1030; omega))
                rotate_left
                · intro m idx hm hidx hxA hxB
                  by_cases hmn : m = n
                  · subst hmn
                    rcases ptrVal_cases D m idx hidx with h5 | h6 | ⟨j, hj, hje⟩
                    · rw [ptrVal_direct _ m idx h5, ptrVal_direct D m idx h5]
                      exact hg3 idx h5
                    · rw [h6, ptrVal_ind, ptrVal_ind]
                      exact hg4
                    · have hjo : j ≠ dblock - POINTERS_PER_INODE :=
                        fun hc => hxA ⟨rfl, by rw [hje, hc]⟩
                      rw [hje, hg5 j hj, blockPtr_setBlockPtr_ne _ j _ _ hjo,
                        ptrVal_entry D m j hiD]
                      rfl
                  · exact hg2 m hm hmn idx
                · intro hact
                  have hio : dblock - POINTERS_PER_INODE < POINTERS_PER_BLOCK := by
                    have hact2 : 6 + (dblock - 5) < 1030 := hact
                    show dblock - 5 < 1024
                    omega
                  rw [hg5 _ hio, blockPtr_setBlockPtr_same]
                  exact Nat.mod_eq_of_lt hf3U
                obtain ⟨hWFdw, hbmdw⟩ := hext
                have hindf2 : ∀ m, m < INODES_PER_BLOCK * ib →
                    slotIndirect (updDisk D (inodeIndirect (D.data (n / INODES_PER_BLOCK + 1)) (n % INODES_PER_BLOCK)) (setBlockPtr (D.data (inodeIndirect (D.data (n / INODES_PER_BLOCK + 1)) (n % INODES_PER_BLOCK))) (dblock - POINTERS_PER_INODE) (find_free_block mblocks bm).1)) m ≠ 0 →
                    slotIndirect (updDisk D (inodeIndirect (D.data (n / INODES_PER_BLOCK + 1)) (n % INODES_PER_BLOCK)) (setBlockPtr (D.data (inodeIndirect (D.data (n / INODES_PER_BLOCK + 1)) (n % INODES_PER_BLOCK))) (dblock - POINTERS_PER_INODE) (find_free_block mblocks bm).1)) m ≠ (find_free_block mblocks bm).1 := by
                  intro m hm hz4
                  have he : slotIndirect (updDisk D (inodeIndirect (D.data (n / INODES_PER_BLOCK + 1)) (n % INODES_PER_BLOCK)) (setBlockPtr (D.data (inodeIndirect (D.data (n / INODES_PER_BLOCK + 1)) (n % INODES_PER_BLOCK))) (dblock - POINTERS_PER_INODE) (find_free_block mblocks bm).1)) m = slotIndirect D m := by
                    by_cases hmn : m = n
                    · subst hmn
                      exact hg4
                    · have h := hg2 m hm hmn POINTERS_PER_INODE
                      rw [ptrVal_ind, ptrVal_ind] at h
                      exact h
                  rw [he] at hz4 ⊢
                  exact unreachable_not_ind D ib (find_free_block mblocks bm).1 hWF hfnr hz3 m hm hz4
                have hfrB := updDisk_ptr_frame (updDisk D (inodeIndirect (D.data (n / INODES_PER_BLOCK + 1)) (n % INODES_PER_BLOCK)) (setBlockPtr (D.data (inodeIndirect (D.data (n / INODES_PER_BLOCK + 1)) (n % INODES_PER_BLOCK))) (dblock - POINTERS_PER_INODE) (find_free_block mblocks bm).1)) ib (find_free_block mblocks bm).1 db1 hfgt hindf2
                have hreB := updDisk_reaches_frame (updDisk D (inodeIndirect (D.data (n / INODES_PER_BLOCK + 1)) (n % INODES_PER_BLOCK)) (setBlockPtr (D.data (inodeIndirect (D.data (n / INODES_PER_BLOCK + 1)) (n % INODES_PER_BLOCK))) (dblock - POINTERS_PER_INODE) (find_free_block mblocks bm).1)) ib (find_free_block mblocks bm).1 db1 hfgt hindf2
                have hWF1 := updDisk_DiskWF (updDisk D (inodeIndirect (D.data (n / INODES_PER_BLOCK + 1)) (n % INODES_PER_BLOCK)) (setBlockPtr (D.data (inodeIndirect (D.data (n / INODES_PER_BLOCK + 1)) (n % INODES_PER_BLOCK))) (dblock - POINTERS_PER_INODE) (find_free_block mblocks bm).1)) ib (find_free_block mblocks bm).1 db1 hWFdw hfgt hindf2
                have hbnind : n / INODES_PER_BLOCK + 1 ≠ (inodeIndirect (D.data (n / INODES_PER_BLOCK + 1)) (n % INODES_PER_BLOCK)) := by
                  show ¬ n / 128 + 1 = _
                  omega
                have hbnf3 : n / INODES_PER_BLOCK + 1 ≠ (find_free_block mblocks bm).1 := by
                  show ¬ n / 128 + 1 = _
                  omega
                have hd1b : (updDisk (updDisk D (inodeIndirect (D.data (n / INODES_PER_BLOCK + 1)) (n % INODES_PER_BLOCK)) (setBlockPtr (D.data (inodeIndirect (D.data (n / INODES_PER_BLOCK + 1)) (n % INODES_PER_BLOCK))) (dblock - POINTERS_PER_INODE) (find_free_block mblocks bm).1)) (find_free_block mblocks bm).1 db1).data
                    (n / INODES_PER_BLOCK + 1) =
                    D.data (n / INODES_PER_BLOCK + 1) := by
                  rw [updDisk_data_ne (updDisk D (inodeIndirect (D.data (n / INODES_PER_BLOCK + 1)) (n % INODES_PER_BLOCK)) (setBlockPtr (D.data (inodeIndirect (D.data (n / INODES_PER_BLOCK + 1)) (n % INODES_PER_BLOCK))) (dblock - POINTERS_PER_INODE) (find_free_block mblocks bm).1)) (find_free_block mblocks bm).1 db1 _ hbnf3,
                    updDisk_data_ne D (inodeIndirect (D.data (n / INODES_PER_BLOCK + 1)) (n % INODES_PER_BLOCK)) (setBlockPtr (D.data (inodeIndirect (D.data (n / INODES_PER_BLOCK + 1)) (n % INODES_PER_BLOCK))) (dblock - POINTERS_PER_INODE) (find_free_block mblocks bm).1) _ hbnind]
                have hdisdw : bmDisjoint (updDisk D (inodeIndirect (D.data (n / INODES_PER_BLOCK + 1)) (n % INODES_PER_BLOCK)) (setBlockPtr (D.data (inodeIndirect (D.data (n / INODES_PER_BLOCK + 1)) (n % INODES_PER_BLOCK))) (dblock - POINTERS_PER_INODE) (find_free_block mblocks bm).1)) (find_free_block mblocks bm).2 ib := by
                  refine hbmdw (find_free_block mblocks bm).2 (fun q hq => ?_)
                  rw [hfbm] at hq
                  obtain ⟨a, b, c⟩ := hdis q (bmSet_false_mono bm _ q hq)
                  exact ⟨a, b, c, fun hact => bmSet_false_ne bm _ q hq,
                    fun hact => absurd hact
                      (by show ¬ 6 + (dblock - 5) + 1030 < 1030; omega)⟩
                refine writeGo_WF_tail ib mblocks dat len off n hcap hib f ih
                  nwrite dblock ncopy _ _ _ PTRS_PER_SLOT 0
                  (POINTERS_PER_BLOCK + 1) 0
                  ?_ hWF1 ?_ ?_ ?_ ?_ ?_ ?_ ?_ ?_ ?_ ?_ ?_ ?_ ?_ ?_ ?_
                · exact hbl
                · intro q hq
                  obtain ⟨a, b, c⟩ := hdisdw q hq
                  exact ⟨a, b, fun hr => c ((hreB q).mp hr)⟩
                · rw [(hfrB n hcap).1, hg1 n hcap]
                  exact hval
                · exact fun o ho => hWF.trunc _ o ho
                · intro t ht
                  rw [hd1b]
                · intro t d ht hd hts
                  rw [hd1b]
                · intro t ht hts
                  rw [hd1b]
                · exact Or.inr rfl
                · show ¬ (1030 : Nat) = 1031
                  decide
                · intro hact
                  exact absurd hact (lt_irrefl _)
                · intro h5
                  exact absurd h5 (by decide)
                · intro h5e
                  exact absurd h5e (by decide)
                · intro h5e
                  exact absurd h5e (by decide)
                · intro hio
                  exact absurd hio (by decide)
                · intro h5e
                  exact absurd h5e (by decide)
                · intro hio
                  exact absurd hio (by decide)
          · rw [if_neg hz2]
            try dsimp only
            rw [if_neg Bool.false_ne_true]
            have hioff : dblock - POINTERS_PER_INODE < POINTERS_PER_BLOCK := by
              by_contra hge
              have hge2 : ¬ (dblock - 5) < 1024 := hge
              exact hz2 (blockPtr_trunc_ge _ _
                (fun o ho => hWF.trunc _ o ho) (by show 1024 ≤ dblock - 5; omega))
            have hioff2 : dblock - 5 < 1024 := hioff
            have hidxE : 6 + (dblock - POINTERS_PER_INODE) < PTRS_PER_SLOT := by
              show 6 + (dblock - 5) < 1030
              omega
            have hEp : ptrVal D n (6 + (dblock - POINTERS_PER_INODE)) = (blockPtr (D.data (inodeIndirect (D.data (n / INODES_PER_BLOCK + 1)) (n % INODES_PER_BLOCK))) (dblock - POINTERS_PER_INODE)) :=
              ptrVal_entry D n _ hiD
            have hEnz : ptrVal D n (6 + (dblock - POINTERS_PER_INODE)) ≠ 0 := by
              rw [hEp]
              exact hz2
            have hrngE := hWF.ptrR n (6 + (dblock - POINTERS_PER_INODE)) hcap hidxE hval hEnz
            rw [hEp] at hrngE
            rw [oread_lt D _ hrngE.2]
            try dsimp only
            generalize hdb1 : memcpyIn (D.data (blockPtr (D.data (inodeIndirect (D.data (n / INODES_PER_BLOCK + 1)) (n % INODES_PER_BLOCK))) (dblock - POINTERS_PER_INODE))) doff dat nwrite ncopy = db1
            rw [owriteChk_eq D _ _ hrngE.2]
            try dsimp only
            have hindf : ∀ m, m < INODES_PER_BLOCK * ib → slotIndirect D m ≠ 0 →
                slotIndirect D m ≠ (blockPtr (D.data (inodeIndirect (D.data (n / INODES_PER_BLOCK + 1)) (n % INODES_PER_BLOCK))) (dblock - POINTERS_PER_INODE)) := by
              have h := ptr_not_ind D ib n (6 + (dblock - POINTERS_PER_INODE)) hWF hcap hidxE
                (by show ¬ 6 + (dblock - 5) = 5; omega) hval
              intro m hm hz4
              have h2 := h m hm hz4
              rw [hEp] at h2
              exact h2
            have hfrA := updDisk_ptr_frame D ib (blockPtr (D.data (inodeIndirect (D.data (n / INODES_PER_BLOCK + 1)) (n % INODES_PER_BLOCK))) (dblock - POINTERS_PER_INODE)) db1 hrngE.1 hindf
            have hreA := updDisk_reaches_frame D ib (blockPtr (D.data (inodeIndirect (D.data (n / INODES_PER_BLOCK + 1)) (n % INODES_PER_BLOCK))) (dblock - POINTERS_PER_INODE)) db1 hrngE.1 hindf
            have hWF1 := updDisk_DiskWF D ib (blockPtr (D.data (inodeIndirect (D.data (n / INODES_PER_BLOCK + 1)) (n % INODES_PER_BLOCK))) (dblock - POINTERS_PER_INODE)) db1 hWF hrngE.1 hindf
            have hPnb : n / INODES_PER_BLOCK + 1 ≠ (blockPtr (D.data (inodeIndirect (D.data (n / INODES_PER_BLOCK + 1)) (n % INODES_PER_BLOCK))) (dblock - POINTERS_PER_INODE)) := by
              have h1 := hrngE.1
              show ¬ n / 128 + 1 = _
              omega
            have hd1b : (updDisk D (blockPtr (D.data (inodeIndirect (D.data (n / INODES_PER_BLOCK + 1)) (n % INODES_PER_BLOCK))) (dblock - POINTERS_PER_INODE)) db1).data (n / INODES_PER_BLOCK + 1) =
                D.data (n / INODES_PER_BLOCK + 1) :=
              updDisk_data_ne D (blockPtr (D.data (inodeIndirect (D.data (n / INODES_PER_BLOCK + 1)) (n % INODES_PER_BLOCK))) (dblock - POINTERS_PER_INODE)) db1 _ hPnb
            refine writeGo_WF_tail ib mblocks dat len off n hcap hib f ih
              nwrite dblock ncopy _ _ _ PTRS_PER_SLOT 0 (POINTERS_PER_BLOCK + 1) 0
              ?_ hWF1 ?_ ?_ ?_ ?_ ?_ ?_ ?_ ?_ ?_ ?_ ?_ ?_ ?_ ?_ ?_
            · exact hbl
            · intro q hq
              obtain ⟨a, b, c⟩ := hdis q hq
              exact ⟨a, b, fun hr => c ((hreA q).mp hr)⟩
            · rw [(hfrA n hcap).1]
              exact hval
            · exact fun o ho => hWF.trunc _ o ho
            · intro t ht
              rw [hd1b]
            · intro t d ht hd hts
              rw [hd1b]
            · intro t ht hts
              rw [hd1b]
            · exact Or.inr rfl
            · show ¬ (1030 : Nat) = 1031
              decide
            · intro hact
              exact absurd hact (lt_irrefl _)
            · intro h5
              exact absurd h5 (by decide)
            · intro h5e
              exact absurd h5e (by decide)
            · intro h5e
              exact absurd h5e (by decide)
            · intro hio
              exact absurd hio (by decide)
            · intro h5e
              exact absurd h5e (by decide)
            · intro hio
              exact absurd hio (by decide)

/-- `fs_write` preserves engine well-formedness for in-range inode
numbers: every path through the write loop keeps the structural invariant
and the bitmap disjointness. -/
theorem write_EngineWF (fs : FileSystem) (n : Nat) (dat : Nat → Nat)
    (length offset : Nat) (h : EngineWF fs) (hn : n < inodeCapacity fs) :
    EngineWF (fs_write fs n dat length offset).2 := by
  obtain ⟨D, bm, hD, hbm, hbl, hWF, hdis⟩ := h
  have hncap : n < INODES_PER_BLOCK * fs.meta_data.inode_blocks := hn
  have hn2 : n < 128 * fs.meta_data.inode_blocks := hn
  have hbnlt : n / INODES_PER_BLOCK + 1 < D.blocks := by
    have := hWF.ib_lt
    show n / 128 + 1 < D.blocks
    omega
  have hblk : (oread (some D) (n / INODES_PER_BLOCK + 1)).getD zeroBlock =
      D.data (n / INODES_PER_BLOCK + 1) := by
    rw [oread_lt D _ hbnlt]
    rfl
  simp only [fs_write, hD, hbm, hblk, Option.getD_some]
  by_cases hv : inodeValid (D.data (n / INODES_PER_BLOCK + 1))
      (n % INODES_PER_BLOCK) = 0
  · rw [if_pos hv]
    exact ⟨D, bm, hD, hbm, hbl, hWF, hdis⟩
  · rw [if_neg hv]
    try dsimp only
    obtain ⟨Dr, hDr, hblr, hWFr, hdisr⟩ :=
      writeGo_WF fs.meta_data.inode_blocks fs.meta_data.blocks dat
        (length % U64) (offset % U64) n hncap
        (by rw [hbl]; exact hWF.ib_lt)
        (length % U64 + 1) 0 (offset % U64 / BLOCK_SIZE)
        (offset % U64 % BLOCK_SIZE)
        (firstNcopy (length % U64) (offset % U64 % BLOCK_SIZE))
        (D.data (n / INODES_PER_BLOCK + 1)) D bm hbl.symm hWF hdis rfl hv
    exact ⟨Dr, _, hDr, rfl, hblr.symm, hWFr, hdisr⟩

/-- Every engine state reachable under the amended preconditions is
well-formed. -/
theorem reachable_EngineWF (fs : FileSystem) (h : Reachable fs) :
    EngineWF fs := by
  induction h with
  | mount fs disk hWF hsb hok => exact mount_EngineWF fs disk hWF hsb hok
  | create fs h ihE => exact create_EngineWF fs ihE
  | remove fs nn h hn ihE => exact remove_EngineWF fs nn ihE hn
  | write fs nn dat length offset h hn ihE =>
    exact write_EngineWF fs nn dat length offset ihE hn

/-- Bytes of the inode-table block of `diskC5` above the two stored
fields of slot 0 are zero. -/
theorem blkC5_hi (o : Nat) (h : 8 ≤ o) : blkC5 o = 0 := by
  unfold blkC5 setInodeSize setInodeValid
  rw [writeU32_apply_ne _ _ _ o (Or.inr (by omega)),
    writeU32_apply_ne _ _ _ o (Or.inr (by omega))]
  rfl

/-- A u32 load over a zero region reads zero. -/
theorem readU32_zero_of (f : BlockFn) (c o : Nat)
    (hz : ∀ i, c ≤ i → f i = 0) (ho : c ≤ o) : readU32 f o = 0 := by
  unfold readU32
  rw [hz o ho, hz (o + 1) (by omega), hz (o + 2) (by omega),
    hz (o + 3) (by omega)]

/-- All data blocks of `diskC5` are byte-level zero above offset 8. -/
theorem diskC5_hi : ∀ b o, 1 ≤ b → 8 ≤ o → diskC5.data b o = 0 := by
  intro b o hb ho
  unfold diskC5
  try dsimp only
  rw [if_neg (by omega)]
  by_cases hb1 : b = 1
  · rw [if_pos hb1]
    unfold truncBlock
    split
    · exact blkC5_hi o ho
    · rfl
  · rw [if_neg hb1]
    rfl

/-- No slot of `diskC5` stores any pointer. -/
theorem diskC5_ptr0 : ∀ n idx, ptrVal diskC5 n idx = 0 := by
  intro n idx
  have hbn : 1 ≤ n / INODES_PER_BLOCK + 1 := Nat.le_add_left 1 _
  have hz : ∀ o, 8 ≤ o → diskC5.data (n / INODES_PER_BLOCK + 1) o = 0 :=
    fun o ho => diskC5_hi _ o hbn ho
  have hdz : ∀ d, inodeDirect (diskC5.data (n / INODES_PER_BLOCK + 1))
      (n % INODES_PER_BLOCK) d = 0 := by
    intro d
    unfold inodeDirect
    exact readU32_zero_of _ 8 _ hz (by show 8 ≤ 32 * (n % 128) + 8 + 4 * d; omega)
  have hiz : inodeIndirect (diskC5.data (n / INODES_PER_BLOCK + 1))
      (n % INODES_PER_BLOCK) = 0 := by
    unfold inodeIndirect
    exact readU32_zero_of _ 8 _ hz (by show 8 ≤ 32 * (n % 128) + 28; omega)
  unfold ptrVal
  try dsimp only
  by_cases h5 : idx < POINTERS_PER_INODE
  · rw [if_pos h5]
    exact hdz idx
  · rw [if_neg h5]
    by_cases h6 : idx = POINTERS_PER_INODE
    · rw [if_pos h6]
      exact hiz
    · rw [if_neg h6, if_neg (fun hc => hc hiz)]

/-- `diskC5` is structurally well-formed for its own superblock. -/
theorem diskC5_WF : DiskWF diskC5 (superInodeBlocks (diskC5.data 0)) := by
  have h2 : superInodeBlocks (diskC5.data 0) = 2 := by decide
  rw [h2]
  refine ⟨by decide, by decide, diskC5_trunc, ?_, ?_, ?_⟩
  · intro m idx hm hidx hv hnz
    rw [diskC5_ptr0 m idx] at hnz
    exact absurd rfl hnz
  · intro m idx mp idxp hm hidx hmp hidxp hv hvp hnz hne
    rw [diskC5_ptr0 m idx] at hnz
    exact absurd rfl hnz
  · intro m idx hm hidx hv
    exact diskC5_ptr0 m idx

/-- C2 (amended: the invariant is stated for engines obtained by mounting
a structurally well-formed disk — every valid inode's nonzero pointers in
the data region, pairwise distinct across slot/position pairs, invalid
slots with zero pointers, superblock recording the disk's own block count
— followed by any sequence of `fs_create`, `fs_remove` and `fs_write`
calls on inode numbers below the mounted capacity (`fs_read` never
mutates the engine).  First half: on every such reachable state the set
of blocks marked available in the bitmap is disjoint from the set of
blocks reachable through the direct and indirect pointers of valid
inodes.  Second half: immediately after a mount of such a disk, within
the data region (above the inode table, below the block count) the
unavailable blocks are exactly the reachable ones, i.e. the rebuild is
exact; block 0, the table blocks and everything out of range are marked
unavailable by the rebuild.  Without the well-formedness precondition
the invariant is false; see the shared-pointer counterexample. -/
theorem bitmap_reachability_invariant :
    (∀ fs, Reachable fs → ∀ D, fs.disk = some D → ∀ p,
      fsBitmap fs p = true → ¬ reaches D fs.meta_data.inode_blocks p) ∧
    (∀ fs disk, DiskWF disk (superInodeBlocks (disk.data 0)) →
      superBlocks (disk.data 0) = disk.blocks →
      (fs_mount fs disk).1 = true →
      ∀ p, superInodeBlocks (disk.data 0) < p → p < disk.blocks →
        (fsBitmap (fs_mount fs disk).2 p = false ↔
          reaches disk (superInodeBlocks (disk.data 0)) p)) := by
  constructor
  · intro fs hr D hD p hp
    obtain ⟨D0, bm0, hD0, hbm0, hbl0, hWF0, hdis0⟩ := reachable_EngineWF fs hr
    rw [hD0] at hD
    obtain rfl : D0 = D := Option.some.inj hD
    have hbmp : fsBitmap fs = bm0 := by
      unfold fsBitmap
      rw [hbm0]
      rfl
    rw [hbmp] at hp
    exact (hdis0 p hp).2.2
  · intro fs disk hWF hsb hok p hgt hlt
    have hshape := fs_mount_ok_shape fs disk hok
    have hbmF : fsBitmap (fs_mount fs disk).2 =
        fs_initialize_free_block_bitmap (some disk)
          ⟨superMagic (disk.data 0), superBlocks (disk.data 0),
           superInodeBlocks (disk.data 0), superInodes (disk.data 0)⟩ := by
      rw [hshape]
      rfl
    rw [hbmF]
    have hspec := fs_initialize_spec disk
      ⟨superMagic (disk.data 0), superBlocks (disk.data 0),
       superInodeBlocks (disk.data 0), superInodes (disk.data 0)⟩ hWF p
    dsimp only at hspec
    rw [hspec]
    constructor
    · rintro (h1 | h2 | h3)
      · omega
      · rw [hsb] at h2
        omega
      · exact h3
    · intro hr
      exact Or.inr (Or.inr hr)

set_option maxRecDepth 4096 in
/-- Witness of the amended C2 on the concrete disk `diskC5` (one valid
inode, no pointers): block 9 is available after the mount and indeed
unreachable, and the rebuild-exactness equivalence holds at it. -/
theorem bitmap_reachability_invariant_witness :
    fsBitmap fsC5 9 = true ∧
    ¬ reaches diskC5 fsC5.meta_data.inode_blocks 9 ∧
    (fsBitmap (fs_mount fs0 diskC5).2 9 = false ↔
      reaches diskC5 (superInodeBlocks (diskC5.data 0)) 9) := by
  have hbit : fsBitmap fsC5 9 = true := by decide
  exact ⟨hbit,
    bitmap_reachability_invariant.1 fsC5
      (Reachable.mount fs0 diskC5 diskC5_WF (by decide) (by decide))
      diskC5 rfl 9 hbit,
    bitmap_reachability_invariant.2 fs0 diskC5 diskC5_WF (by decide)
      (by decide) 9 (by decide) (by decide)⟩

set_option maxRecDepth 4096 in
/-- Counterexample to the unconditional claim: `diskC2` mounts fine but
its two valid inodes share direct pointer 7; removing inode 0 marks
block 7 available while it stays reachable from inode 1, so the
available set and the reachable set intersect on this reachable mounted
state. -/
theorem shared_pointer_breaks_bitmap_invariant :
    (fs_mount fs0 diskC2).1 = true ∧
    (fs_remove fsC2 0).1 = true ∧
    fsC2r.disk = some diskC2r ∧
    fsC2r.meta_data.inode_blocks = 2 ∧
    fsBitmap fsC2r 7 = true ∧
    reaches diskC2r 2 7 := by
  refine ⟨by decide, by decide, rfl, by decide, by decide, ?_⟩
  exact ⟨1, 0, by decide, by decide, by decide, by decide, by decide⟩

end SimpleFS
